import Mathlib

/-!
# B.U.A. marketplace server: the on-chain collection reader

A shallow embedding of `index.server.js`: the hand-written ABI codec
(`pad32Hex`, `encodeUint256Hex`, `decodeUint256`, `decodeString`), the metadata
helpers (`ipfsToHttp`, `fetchTokenMetadata`), the two EVM endpoints of
`handleEvmApi`, and the path guard `safeJoin` of the static file server.

Modelling conventions.

* A JavaScript string is a list of characters (`Str`); where the code reads
  UTF-16 code units, a character beyond U+FFFF counts as its surrogate pair.
  A string with an unpaired surrogate is outside the model.
* A JavaScript `BigInt` is an `Int`.
* A JavaScript `Number` is `JsNum`: `NaN`, a finite value held as a rational,
  or one of the two infinities.  Every operation whose result is not exact in
  binary64 rounds it to the nearest double, ties to even (`toDouble`), so
  that `2^53 + 1` is `2^53`.  The two zeros are one value: the modelled code
  never tells them apart.
* A thrown exception or rejected promise is `Except.error`.
* The network is an oracle consulted with the list of requests issued so far,
  so that answers may depend on the whole history of the exchange.
* `path.normalize` and `path.join` are those of the POSIX flavour of Node's
  `path` module, on the segments of a path; `decodeURIComponent` decodes the
  escapes as UTF-8 and raises a `URIError` on a malformed one.
-/

namespace BUA

/-! ## Strings, numbers, exceptions -/

/-- A JavaScript string. -/
abbrev Str := List Char

/-- The exceptions the modelled code can raise. -/
inductive JsError where
  | syntaxError
  | rangeError
  | typeError
  | uriError
  | network
  deriving DecidableEq, Repr

deriving instance DecidableEq for Except

/-- A JavaScript `Number`: `NaN`, a finite value, or an infinity (`inf true`
is `+Infinity`).  The values that occur in a run are doubles; `0` stands for
both zeros. -/
inductive JsNum where
  | nan
  | fin (q : ℚ)
  | inf (positive : Bool)
  deriving DecidableEq

/-- The argument of `BigInt(...)`: a `Number` or a `BigInt`. -/
inductive NumOrBig where
  | num (x : JsNum)
  | big (b : Int)
  deriving DecidableEq

/-- `BigInt(n)`: a `Number` converts when it is an integer, and raises a
`RangeError` otherwise; a `BigInt` is returned as it is. -/
def toBigInt : NumOrBig → Except JsError Int
  | .big b => .ok b
  | .num .nan => .error .rangeError
  | .num (.inf _) => .error .rangeError
  | .num (.fin q) => if q.den = 1 then .ok q.num else .error .rangeError

/-! ## Doubles -/

/-- The number of binary digits of `n`, for `n ≤ fuel`. -/
def bitLengthAux : Nat → Nat → Nat
  | 0, _ => 0
  | fuel + 1, n => if n = 0 then 0 else bitLengthAux fuel (n / 2) + 1

/-- The number of binary digits of `n`: the least `k` with `n < 2^k`. -/
def bitLength (n : Nat) : Nat := bitLengthAux n n

/-- Whether `2^k ≤ a / b`, for `b > 0`. -/
def pow2Le (k : Int) (a b : Nat) : Bool :=
  if 0 ≤ k then decide (b * 2 ^ k.toNat ≤ a) else decide (b ≤ a * 2 ^ (-k).toNat)

/-- The binary exponent of `a / b` for `a, b > 0`: the `e` with
`2^e ≤ a / b < 2^(e+1)`.  It is the difference of the bit lengths or one
less. -/
def binaryExponent (a b : Nat) : Int :=
  if pow2Le ((bitLength a : Int) - (bitLength b : Int)) a b then
    (bitLength a : Int) - (bitLength b : Int)
  else (bitLength a : Int) - (bitLength b : Int) - 1

/-- The integer nearest to `n / d`, and the even one of the two nearest when
`n / d` lies half way between them. -/
def roundHalfEven (n d : Nat) : Nat :=
  if 2 * (n % d) < d then n / d
  else if d < 2 * (n % d) then n / d + 1
  else if (n / d) % 2 = 0 then n / d
  else n / d + 1

/-- The double nearest to `a / b > 0`, rounding to nearest with ties to even,
or `none` when that is beyond the largest double.  A double has 53
significant bits, so its last place is worth `2^s` with `s = e - 52` for the
binary exponent `e`, and no less than `2^(-1074)`; the result is `m * 2^s`
for the integer `m ≤ 2^53` nearest to `a / b / 2^s`.  It reaches `2^1024`,
which is no double, when `s > 971`, or `s = 971` and `m = 2^53`. -/
def nearestDouble (a b : Nat) : Option ℚ :=
  let s : Int := max (binaryExponent a b) (-1022) - 52
  if 0 ≤ s then
    let m := roundHalfEven a (b * 2 ^ s.toNat)
    if 971 < s ∨ (s = 971 ∧ 2 ^ 53 ≤ m) then none else some ((m * 2 ^ s.toNat : Nat) : ℚ)
  else some ((roundHalfEven (a * 2 ^ (-s).toNat) b : ℚ) / ((2 ^ (-s).toNat : Nat) : ℚ))

/-- The `Number` that an operation with the exact result `q` returns: the
double nearest to `q`, or an infinity on overflow. -/
def toDouble (q : ℚ) : JsNum :=
  if q = 0 then .fin 0
  else
    match nearestDouble q.num.natAbs q.den with
    | none => .inf (decide (0 < q))
    | some v => .fin (if q < 0 then -v else v)

/-- `Number(b)` for a `BigInt`: the double nearest to `b`. -/
def bigIntToNumber (b : Int) : JsNum := toDouble (b : ℚ)

/-! ## Hexadecimal text -/

/-- The digit character `toString(16)` writes for a value below 16. -/
def hexChar (d : Nat) : Char :=
  if d < 10 then Char.ofNat (48 + d) else Char.ofNat (87 + d)

/-- Lower-case hexadecimal text. -/
def IsLowerHex (s : Str) : Prop := ∀ c ∈ s, ∃ d, d < 16 ∧ c = hexChar d

/-- The value of a digit character in radix up to 16, either case. -/
def hexVal (c : Char) : Option Nat :=
  let n := c.toNat
  if 48 ≤ n ∧ n ≤ 57 then some (n - 48)
  else if 97 ≤ n ∧ n ≤ 102 then some (n - 87)
  else if 65 ≤ n ∧ n ≤ 70 then some (n - 55)
  else none

/-- The value of a digit character in the given radix. -/
def digitVal (base : Nat) (c : Char) : Option Nat :=
  match hexVal c with
  | some d => if d < base then some d else none
  | none => none

/-- Digits of a natural number in radix 16, most significant first. -/
def natToHexAux : Nat → Nat → Str
  | 0, n => [hexChar (n % 16)]
  | fuel + 1, n =>
    if n < 16 then [hexChar n] else natToHexAux fuel (n / 16) ++ [hexChar (n % 16)]

/-- `n.toString(16)` for a non-negative `BigInt`. -/
def natToHex (n : Nat) : Str := natToHexAux n n

/-- `bi.toString(16)`: a minus sign, then the digits of the magnitude. -/
def bigIntToString16 (bi : Int) : Str :=
  if bi < 0 then '-' :: natToHex bi.natAbs else natToHex bi.natAbs

/-- `s.padStart(len, c)` with a one-character filler. -/
def padStart (s : Str) (len : Nat) (c : Char) : Str :=
  List.replicate (len - s.length) c ++ s

/-- `s.startsWith(p)`. -/
def startsWith (s p : Str) : Bool := p.isPrefixOf s

/-- Reads a run of digits in the given radix, left to right. -/
def parseDigits (base : Nat) : Str → Nat → Option Nat
  | [], acc => some acc
  | c :: cs, acc =>
    match digitVal base c with
    | some d => parseDigits base cs (acc * base + d)
    | none => none

/-- A non-empty run of digits in the given radix. -/
def parseNat (base : Nat) (ds : Str) : Except JsError Nat :=
  if ds = [] then .error .syntaxError
  else
    match parseDigits base ds 0 with
    | some v => .ok v
    | none => .error .syntaxError

/-- White space and line terminators, as `StringToBigInt` trims them. -/
def isJsWhiteSpace (c : Char) : Bool :=
  let n := c.toNat
  n = 9 || n = 10 || n = 11 || n = 12 || n = 13 || n = 32 || n = 160 || n = 5760
    || (8192 ≤ n && n ≤ 8202) || n = 8232 || n = 8233 || n = 8239 || n = 8287
    || n = 12288 || n = 65279

/-- Strips white space from both ends. -/
def trim (s : Str) : Str :=
  ((s.dropWhile isJsWhiteSpace).reverse.dropWhile isJsWhiteSpace).reverse

/-- `BigInt(s)` for a string: white space is trimmed, the empty text is zero,
`0x`, `0o` and `0b` introduce an unsigned literal in that radix, anything else
is an optionally signed decimal literal; other text is a `SyntaxError`. -/
def stringToBigInt (s : Str) : Except JsError Int :=
  match trim s with
  | [] => .ok 0
  | '0' :: 'x' :: ds => (parseNat 16 ds).map Int.ofNat
  | '0' :: 'X' :: ds => (parseNat 16 ds).map Int.ofNat
  | '0' :: 'o' :: ds => (parseNat 8 ds).map Int.ofNat
  | '0' :: 'O' :: ds => (parseNat 8 ds).map Int.ofNat
  | '0' :: 'b' :: ds => (parseNat 2 ds).map Int.ofNat
  | '0' :: 'B' :: ds => (parseNat 2 ds).map Int.ofNat
  | '-' :: ds => (parseNat 10 ds).map (fun v => - Int.ofNat v)
  | '+' :: ds => (parseNat 10 ds).map Int.ofNat
  | ds => (parseNat 10 ds).map Int.ofNat

/-! ## ABI codec -/

/-- `pad32Hex(bi)`. -/
def pad32Hex (bi : Int) : Str := padStart (bigIntToString16 bi) 64 '0'

/-- `encodeUint256Hex(n)`. -/
def encodeUint256Hex (n : NumOrBig) : Except JsError Str :=
  (toBigInt n).map pad32Hex

/-- `decodeUint256(hex)`. -/
def decodeUint256 (hex : Str) : Except JsError Int :=
  let clean := if startsWith hex ['0', 'x'] then hex.drop 2 else hex
  let slice := clean.take 64
  stringToBigInt ('0' :: 'x' :: slice)

/-! ## Buffers -/

/-- The bytes of a Node `Buffer`. -/
abbrev Bytes := List Nat

/-- The UTF-16 code units of a character: one unit, or a surrogate pair for a
character beyond U+FFFF. -/
def utf16Units (c : Char) : List Nat :=
  if c.toNat < 0x10000 then [c.toNat]
  else [0xD800 + (c.toNat - 0x10000) / 1024, 0xDC00 + (c.toNat - 0x10000) % 1024]

/-- The table `unhex` of Node's hex decoder, which is indexed by a byte: the
value of the hex digit with that character code. -/
def unhex (byte : Nat) : Option Nat :=
  if 48 ≤ byte ∧ byte ≤ 57 then some (byte - 48)
  else if 97 ≤ byte ∧ byte ≤ 102 then some (byte - 87)
  else if 65 ≤ byte ∧ byte ≤ 70 then some (byte - 55)
  else none

/-- The hex decoder on the code units of the text: each unit is cut down to
its low byte before the table is read; the decoder stops at the first pair
that is not two hex digits, and a trailing single unit is dropped. -/
def hexDecode : List Nat → Bytes
  | u₁ :: u₂ :: rest =>
    match unhex (u₁ % 256), unhex (u₂ % 256) with
    | some h, some l => (16 * h + l) :: hexDecode rest
    | _, _ => []
  | _ => []

/-- `Buffer.from(text, 'hex')`.  Since only the low byte of a code unit is
read, a character such as U+0130 counts as the digit `0`. -/
def bufferFromHex (text : Str) : Bytes := hexDecode (text.flatMap utf16Units)

/-- `buf.toString('hex')`. -/
def bufferToHex : Bytes → Str
  | [] => []
  | b :: bs => hexChar (b / 16) :: hexChar (b % 16) :: bufferToHex bs

/-- `buf.subarray(start, end)` for non-negative bounds: both are clamped to
the length of the buffer. -/
def subarray (buf : Bytes) (start stop : Nat) : Bytes :=
  (buf.take stop).drop start

/-- The state of the UTF-8 decoder: the code point under construction, the
continuation bytes seen and needed, and the bounds allowed for the next
byte. -/
structure Utf8State where
  cp : Nat
  seen : Nat
  needed : Nat
  lower : Nat
  upper : Nat
  deriving DecidableEq

/-- The decoder between two characters. -/
def utf8Fresh : Utf8State := ⟨0, 0, 0, 0x80, 0xBF⟩

/-- The replacement character U+FFFD. -/
def replacementChar : Char := Char.ofNat 0xFFFD

/-- A byte met between two characters. -/
def utf8Lead (b : Nat) : Utf8State × Str :=
  if b ≤ 0x7F then (utf8Fresh, [Char.ofNat b])
  else if 0xC2 ≤ b ∧ b ≤ 0xDF then (⟨b % 32, 0, 1, 0x80, 0xBF⟩, [])
  else if 0xE0 ≤ b ∧ b ≤ 0xEF then
    (⟨b % 16, 0, 2, if b = 0xE0 then 0xA0 else 0x80, if b = 0xED then 0x9F else 0xBF⟩, [])
  else if 0xF0 ≤ b ∧ b ≤ 0xF4 then
    (⟨b % 8, 0, 3, if b = 0xF0 then 0x90 else 0x80, if b = 0xF4 then 0x8F else 0xBF⟩, [])
  else (utf8Fresh, [replacementChar])

/-- One byte of input: the new state and the characters written.  A byte that
cannot continue the current sequence ends it with U+FFFD and is read again as
the start of a new one. -/
def utf8Step (st : Utf8State) (b : Nat) : Utf8State × Str :=
  if st.needed = 0 then utf8Lead b
  else if b < st.lower ∨ st.upper < b then
    ((utf8Lead b).1, replacementChar :: (utf8Lead b).2)
  else if st.seen + 1 = st.needed then (utf8Fresh, [Char.ofNat (st.cp * 64 + b % 64)])
  else (⟨st.cp * 64 + b % 64, st.seen + 1, st.needed, 0x80, 0xBF⟩, [])

/-- Runs the decoder over the bytes; an unfinished sequence at the end is
written as U+FFFD. -/
def utf8DecodeFrom : Utf8State → Bytes → Str
  | st, [] => if st.needed = 0 then [] else [replacementChar]
  | st, b :: bs => (utf8Step st b).2 ++ utf8DecodeFrom (utf8Step st b).1 bs

/-- `buf.toString('utf8')`. -/
def bufferToUtf8 (buf : Bytes) : Str := utf8DecodeFrom utf8Fresh buf

/-- The UTF-8 bytes of one character. -/
def utf8EncodeChar (c : Char) : Bytes :=
  let n := c.toNat
  if n < 0x80 then [n]
  else if n < 0x800 then [0xC0 + n / 64, 0x80 + n % 64]
  else if n < 0x10000 then [0xE0 + n / 4096, 0x80 + n / 64 % 64, 0x80 + n % 64]
  else [0xF0 + n / 262144, 0x80 + n / 4096 % 64, 0x80 + n / 64 % 64, 0x80 + n % 64]

/-- `Buffer.from(s, 'utf8')` for well-formed text. -/
def utf8Encode (s : Str) : Bytes := s.flatMap utf8EncodeChar

/-- `decodeString(hex)`.  The offset and the length are kept as natural
numbers: the code holds them as `Number`s, which differ from the exact value
only from `2^53` on, where a bound of `subarray` is beyond the end of any
buffer either way. -/
def decodeString (hex : Str) : Except JsError Str :=
  let clean := if startsWith hex ['0', 'x'] then hex.drop 2 else hex
  let buf := bufferFromHex clean
  if buf.length < 64 then .ok []
  else
    match stringToBigInt ('0' :: 'x' :: bufferToHex (subarray buf 0 32)) with
    | .error e => .error e
    | .ok offsetWord =>
      let offset := if offsetWord = 0 then 32 else offsetWord.toNat
      match stringToBigInt ('0' :: 'x' :: bufferToHex (subarray buf offset (offset + 32))) with
      | .error e => .error e
      | .ok len =>
        let start := offset + 32
        .ok (bufferToUtf8 (subarray buf start (start + len.toNat)))


/-! ## Numbers -/

namespace JsNum

/-- `a + b`: the exact sum rounded to a double; opposite infinities give
`NaN`. -/
def add : JsNum → JsNum → JsNum
  | fin a, fin b => toDouble (a + b)
  | fin _, inf p => inf p
  | inf p, fin _ => inf p
  | inf p, inf r => if p = r then inf p else nan
  | _, _ => nan

/-- `a - b`: the exact difference rounded to a double; equal infinities give
`NaN`. -/
def sub : JsNum → JsNum → JsNum
  | fin a, fin b => toDouble (a - b)
  | fin _, inf p => inf (!p)
  | inf p, fin _ => inf p
  | inf p, inf r => if p = r then nan else inf p
  | _, _ => nan

/-- `a < b`: false as soon as one side is `NaN`. -/
def lt : JsNum → JsNum → Bool
  | fin a, fin b => decide (a < b)
  | fin _, inf p => p
  | inf p, fin _ => !p
  | inf p, inf r => !p && r
  | _, _ => false

/-- `a >= b`: false as soon as one side is `NaN`. -/
def ge : JsNum → JsNum → Bool
  | fin a, fin b => decide (b ≤ a)
  | fin _, inf p => !p
  | inf p, fin _ => p
  | inf p, inf r => p || !r
  | _, _ => false

/-- `Math.min(a, b)`: `NaN` as soon as one side is `NaN`. -/
def min : JsNum → JsNum → JsNum
  | fin a, fin b => fin (Min.min a b)
  | fin a, inf p => if p then fin a else inf false
  | inf p, fin b => if p then fin b else inf false
  | inf p, inf r => inf (p && r)
  | _, _ => nan

/-- `Math.max(a, b)`: `NaN` as soon as one side is `NaN`. -/
def max : JsNum → JsNum → JsNum
  | fin a, fin b => fin (Max.max a b)
  | fin a, inf p => if p then inf true else fin a
  | inf p, fin b => if p then inf true else fin b
  | inf p, inf r => inf (p || r)
  | _, _ => nan

/-- The `Number` holding a natural number, such as the length of an array. -/
def ofNat (n : Nat) : JsNum := fin (n : ℚ)

end JsNum

/-- `b.toString()` for a `BigInt`: decimal digits, with a minus sign when
negative. -/
def bigIntToString (b : Int) : Str :=
  if b < 0 then '-' :: Nat.toDigits 10 b.natAbs else Nat.toDigits 10 b.natAbs

/-! ## JSON values and token metadata -/

/-- A parsed JSON value. -/
inductive Json where
  | null
  | bool (b : Bool)
  | num (x : ℚ)
  | str (s : Str)
  | arr (xs : List Json)
  | obj (props : List (Str × Json))

/-- Whether a JSON value is truthy. -/
def Json.truthy : Json → Bool
  | .null => false
  | .bool b => b
  | .num x => decide (x ≠ 0)
  | .str s => !s.isEmpty
  | .arr _ => true
  | .obj _ => true

/-- The access `meta?.key`: `none` stands for `undefined`, which is what a
value other than an object holding the key gives. -/
def getProp (meta : Json) (key : Str) : Option Json :=
  match meta with
  | .obj props => props.lookup key
  | _ => none

/-- The chain `a || b || ... || dflt`: the first truthy operand, else `dflt`. -/
def firstTruthy : List (Option Json) → Json → Json
  | [], dflt => dflt
  | some v :: rest, dflt => if v.truthy then v else firstTruthy rest dflt
  | none :: rest, dflt => firstTruthy rest dflt

/-- `ipfsToHttp(uri)` on a string. -/
def ipfsToHttp (uri : Str) : Str :=
  if uri.isEmpty then uri
  else if startsWith uri "ipfs://ipfs/".toList then "https://ipfs.io/".toList ++ uri.drop 7
  else if startsWith uri "ipfs://".toList then "https://ipfs.io/ipfs/".toList ++ uri.drop 7
  else uri

/-- `ipfsToHttp(v)` on an arbitrary JSON value, as the image expression calls
it: a falsy value is returned as it is, a string is rewritten, and any other
truthy value has no `startsWith` method, which is a `TypeError`. -/
def ipfsToHttpValue (v : Json) : Except JsError Json :=
  match v with
  | .str s => .ok (.str (ipfsToHttp s))
  | v => if v.truthy then .error .typeError else .ok v

/-- `Array.isArray(meta?.attributes) ? meta.attributes : []`. -/
def attributesOf (meta : Json) : List Json :=
  match getProp meta "attributes".toList with
  | some (.arr xs) => xs
  | _ => []

/-- A token record of the `items` array.  The field `collectionName` of
Strategy A, always `undefined`, is left out. -/
structure Item where
  kind : Str
  id : Str
  name : Json
  image : Json
  chain : Str
  verified : Bool
  priceEth : Json
  collection : Str
  attributes : List Json

/-! ## The network -/

/-- A request sent to the outside: a JSON-RPC call or a metadata fetch.  The
block range of `eth_getLogs` is kept as the two `Number`s it is printed from. -/
inductive Req where
  | ethCall (chainId : JsNum) (target : Str) (data : Str)
  | blockNumber (chainId : JsNum)
  | getLogs (chainId : JsNum) (address : Str) (fromBlock toBlock : JsNum)
  | fetch (url : Str)
  deriving DecidableEq

/-- A log entry returned by `eth_getLogs`: its `topics`, when present. -/
structure Log where
  topics : Option (List Str)

/-- The outside world.  Each answer may depend on the requests issued so far;
`none` is a failed request (transport error, RPC error object, rejected
promise).  `eth_call` and `eth_blockNumber` answer with a string,
`eth_getLogs` with a list of logs (a `null` result being the empty list), and
`fetchJson` is the download and `JSON.parse` of a metadata document. -/
structure Env where
  call : List Req → JsNum → Str → Str → Option Str
  blockNumber : List Req → JsNum → Option Str
  getLogs : List Req → JsNum → Str → JsNum → JsNum → Option (List Log)
  fetchJson : List Req → Str → Option Json

/-- `ethCall(chainId, to, dataHex)`: the result and the extended history. -/
def ethCall (env : Env) (tr : List Req) (chainId : JsNum) (target dataHex : Str) :
    Except JsError Str × List Req :=
  match env.call tr chainId target dataHex with
  | some r => (.ok r, tr ++ [.ethCall chainId target dataHex])
  | none => (.error .network, tr ++ [.ethCall chainId target dataHex])

/-- `fetchTokenMetadata(tokenUri)`: `null` when the normalised URI is empty
(nothing is fetched) and when the fetch or the parse fails. -/
def fetchTokenMetadata (env : Env) (tr : List Req) (tokenUri : Str) : Json × List Req :=
  let urlHttp := ipfsToHttp tokenUri
  if urlHttp.isEmpty then (.null, tr)
  else
    match env.fetchJson tr urlHttp with
    | some j => (j, tr ++ [.fetch urlHttp])
    | none => (.null, tr ++ [.fetch urlHttp])

/-- The selectors of `SELECTOR`, each behind `0x`. -/
def selName : Str := "0x06fdde03".toList
/-- See `selName`. -/
def selSymbol : Str := "0x95d89b41".toList
/-- See `selName`. -/
def selTotalSupply : Str := "0x18160ddd".toList
/-- See `selName`. -/
def selTokenByIndex : Str := "0x4f6ccce7".toList
/-- See `selName`. -/
def selTokenURI : Str := "0xc87b56dd".toList

/-- The chain label of a token record. -/
def chainLabel (chainId : JsNum) : Str :=
  if chainId = .fin 8453 then "BASE".toList
  else if chainId = .fin 137 then "POLYGON".toList
  else "ETH".toList

/-! ## Strategy A: indexed enumeration -/

/-- The part of the loop body of Strategy A that follows the decoding of the
token id: `tokenURI`, `decodeString`, the metadata and the record. -/
def recordA (env : Env) (tr : List Req) (chainId : JsNum) (address : Str) (tokenId : Int) :
    Except JsError Item × List Req :=
  match encodeUint256Hex (.big tokenId) with
  | .error e => (.error e, tr)
  | .ok arg =>
    match ethCall env tr chainId address (selTokenURI ++ arg) with
    | (.error e, tr₁) => (.error e, tr₁)
    | (.ok uriHex, tr₁) =>
      match decodeString uriHex with
      | .error e => (.error e, tr₁)
      | .ok tokenUri =>
        let (meta, tr₂) := fetchTokenMetadata env tr₁ tokenUri
        match ipfsToHttpValue (firstTruthy [getProp meta "image".toList,
            getProp meta "image_url".toList, getProp meta "image_url_png".toList] (.str [])) with
        | .error e => (.error e, tr₂)
        | .ok image =>
          (.ok { kind := "token".toList
                 id := bigIntToString tokenId
                 name := firstTruthy [getProp meta "name".toList]
                   (.str ('#' :: bigIntToString tokenId))
                 image := image
                 chain := chainLabel chainId
                 verified := true
                 priceEth := .null
                 collection := address
                 attributes := attributesOf meta }, tr₂)

/-- The body of the `try` block of Strategy A for the index `i`. -/
def stepA (env : Env) (tr : List Req) (chainId : JsNum) (address : Str) (i : JsNum) :
    Except JsError Item × List Req :=
  match encodeUint256Hex (.num i) with
  | .error e => (.error e, tr)
  | .ok arg =>
    match ethCall env tr chainId address (selTokenByIndex ++ arg) with
    | (.error e, tr₁) => (.error e, tr₁)
    | (.ok tokenIdHex, tr₁) =>
      match stringToBigInt ('0' :: 'x' :: tokenIdHex.drop 2) with
      | .error e => (.error e, tr₁)
      | .ok tokenId => recordA env tr₁ chainId address tokenId

/-- The result of the loop of Strategy A: the items, the flag
`enumerableFailed`, and the history. -/
structure EnumResult where
  items : List Item
  enumerableFailed : Bool
  trace : List Req

/-- The loop `for (let i = start; i < end; i++)` of Strategy A, from the index
`i` with the items collected so far.  `none` means the fuel ran out. -/
def loopA (env : Env) (chainId : JsNum) (address : Str) (stop : JsNum) :
    Nat → JsNum → List Item → List Req → Option EnumResult
  | 0, i, items, tr =>
    if i.lt stop then none else some ⟨items, false, tr⟩
  | fuel + 1, i, items, tr =>
    if i.lt stop then
      match stepA env tr chainId address i with
      | (.error _, tr₁) => some ⟨items, true, tr₁⟩
      | (.ok item, tr₁) =>
        loopA env chainId address stop fuel (i.add (.fin 1)) (items ++ [item]) tr₁
    else some ⟨items, false, tr⟩

/-! ## Strategy B: backward log scan -/

/-- The state of the scan: the set `collected`, the array `collectedItems`
and the history. -/
structure ScanState where
  collected : List Str
  items : List Item
  trace : List Req

/-- The inner `try` block of Strategy B for a token id not seen before. -/
def recordB (env : Env) (tr : List Req) (chainId : JsNum) (address : Str) (tokenId : Int)
    (key : Str) : Except JsError Item × List Req :=
  match encodeUint256Hex (.big tokenId) with
  | .error e => (.error e, tr)
  | .ok arg =>
    match ethCall env tr chainId address (selTokenURI ++ arg) with
    | (.error e, tr₁) => (.error e, tr₁)
    | (.ok uriHex, tr₁) =>
      match decodeString uriHex with
      | .error e => (.error e, tr₁)
      | .ok tokenUri =>
        let (meta, tr₂) := fetchTokenMetadata env tr₁ tokenUri
        match ipfsToHttpValue (firstTruthy [getProp meta "image".toList,
            getProp meta "image_url".toList] (.str [])) with
        | .error e => (.error e, tr₂)
        | .ok image =>
          (.ok { kind := "token".toList
                 id := key
                 name := firstTruthy [getProp meta "name".toList] (.str ('#' :: key))
                 image := image
                 chain := chainLabel chainId
                 verified := true
                 priceEth := .null
                 collection := address
                 attributes := attributesOf meta }, tr₂)

/-- The loop `for (const log of logs || [])` over the logs of one window.  A
token id that `BigInt` rejects raises inside the window's `try`, which ends the
window; a failed token resolution is swallowed and the loop goes on; reaching
the limit breaks out of the loop. -/
def scanLogs (env : Env) (chainId : JsNum) (address : Str) (limit : JsNum) :
    List Log → ScanState → ScanState
  | [], st => st
  | log :: rest, st =>
    match (log.topics.getD [])[3]? with
    | none => scanLogs env chainId address limit rest st
    | some idHex =>
      if idHex.isEmpty then scanLogs env chainId address limit rest st
      else
        match stringToBigInt idHex with
        | .error _ => st
        | .ok tokenId =>
          let key := bigIntToString tokenId
          if st.collected.contains key then scanLogs env chainId address limit rest st
          else
            match recordB env st.trace chainId address tokenId key with
            | (.error _, tr₁) =>
              scanLogs env chainId address limit rest ⟨key :: st.collected, st.items, tr₁⟩
            | (.ok item, tr₁) =>
              if (JsNum.ofNat (st.items ++ [item]).length).ge limit then
                ⟨key :: st.collected, st.items ++ [item], tr₁⟩
              else
                scanLogs env chainId address limit rest
                  ⟨key :: st.collected, st.items ++ [item], tr₁⟩

/-- The loop `for (let from = latest - window; from > latest - maxBack &&
collectedItems.length < limit; from -= window)`, entered at `from`.  `none`
means the fuel ran out. -/
def loopB (env : Env) (chainId : JsNum) (address : Str) (limit latest window maxBack : JsNum) :
    Nat → JsNum → ScanState → Option ScanState
  | 0, from_, st =>
    if (latest.sub maxBack).lt from_ && (JsNum.ofNat st.items.length).lt limit then none
    else some st
  | fuel + 1, from_, st =>
    if (latest.sub maxBack).lt from_ && (JsNum.ofNat st.items.length).lt limit then
      let toBlock := from_.add window
      let tr₁ := st.trace ++ [.getLogs chainId address from_ toBlock]
      match env.getLogs st.trace chainId address from_ toBlock with
      | none =>
        loopB env chainId address limit latest window maxBack fuel (from_.sub window)
          ⟨st.collected, st.items, tr₁⟩
      | some logs =>
        loopB env chainId address limit latest window maxBack fuel (from_.sub window)
          (scanLogs env chainId address limit logs ⟨st.collected, st.items, tr₁⟩)
    else some st

/-! ## The endpoints -/

/-- The body of a response. -/
inductive Body where
  | error (message : Str)
  | text (message : Str)
  | info (address name symbol totalSupply : Str) (enumerable : Bool)
  | tokens (items : List Item) (total : JsNum) (fallback : Option Str)

/-- A response: the status and the body. -/
structure Response where
  status : Nat
  body : Body

/-- The query parameters.  A numeric parameter is `none` when it is absent or
empty (the `||` default applies) and otherwise the `Number` its text converts
to. -/
structure Query where
  chainId : Option JsNum
  address : Option Str
  start : Option JsNum
  limit : Option JsNum
  scan : Option Str
  window : Option JsNum
  maxBack : Option JsNum

/-- `RPC_URLS[chainId]` is defined. -/
def supportedChain (chainId : JsNum) : Bool :=
  chainId = .fin 1 || chainId = .fin 8453 || chainId = .fin 137

/-- `s.toLowerCase()`, on the ASCII letters. -/
def toLowerCase (s : Str) : Str := s.map Char.toLower

/-- `isHexAddress(s)`: the regular expression `^0x[a-fA-F0-9]{40}$`. -/
def isHexAddress (s : Str) : Bool :=
  match s with
  | '0' :: 'x' :: rest => rest.length = 40 && rest.all (fun c => (hexVal c).isSome)
  | _ => false

/-- `Math.max(0, Number(qp.start || 0))`. -/
def effStart (q : Query) : JsNum := JsNum.max (.fin 0) (q.start.getD (.fin 0))

/-- `Math.min(50, Math.max(1, Number(qp.limit || 24)))`. -/
def effLimit (q : Query) : JsNum := JsNum.min (.fin 50) (JsNum.max (.fin 1) (q.limit.getD (.fin 24)))

/-- `Math.min(5000, Number(qp.window || 5000))`. -/
def effWindow (q : Query) : JsNum := JsNum.min (.fin 5000) (q.window.getD (.fin 5000))

/-- `Math.min(200000, Number(qp.maxBack || 100000))`. -/
def effMaxBack (q : Query) : JsNum := JsNum.min (.fin 200000) (q.maxBack.getD (.fin 100000))

/-- The response of the outer `catch` of the tokens endpoint. -/
def tokensFailure : Response := ⟨500, .error "Failed to enumerate tokens".toList⟩

/-- The fallback branch of the tokens endpoint: `eth_blockNumber`, then the
backward scan.  A failure of `eth_blockNumber`, or of `BigInt` on its result,
reaches the outer `catch`. -/
def fallbackScan (env : Env) (fuel : Nat) (chainId : JsNum) (address : Str) (q : Query)
    (tr : List Req) : Option (Response × List Req) :=
  match env.blockNumber tr chainId with
  | none => some (tokensFailure, tr ++ [.blockNumber chainId])
  | some latestHex =>
    match stringToBigInt latestHex with
    | .error _ => some (tokensFailure, tr ++ [.blockNumber chainId])
    | .ok latestBig =>
      let latest := bigIntToNumber latestBig
      match loopB env chainId address (effLimit q) latest (effWindow q) (effMaxBack q) fuel
          (latest.sub (effWindow q)) ⟨[], [], tr ++ [.blockNumber chainId]⟩ with
      | none => none
      | some st =>
        some (⟨200, .tokens st.items (JsNum.ofNat st.items.length) (some "scan".toList)⟩,
          st.trace)

/-- The `try` block of the tokens endpoint, after the address check. -/
def tokensEndpoint (env : Env) (fuel : Nat) (chainId : JsNum) (address : Str) (q : Query)
    (tr : List Req) : Option (Response × List Req) :=
  match ethCall env tr chainId address selTotalSupply with
  | (.error _, tr₁) => some (tokensFailure, tr₁)
  | (.ok totalHex, tr₁) =>
    match decodeUint256 totalHex with
    | .error _ => some (tokensFailure, tr₁)
    | .ok totalBig =>
      let total := bigIntToNumber totalBig
      let stop := JsNum.min total ((effStart q).add (effLimit q))
      match loopA env chainId address stop fuel (effStart q) [] tr₁ with
      | none => none
      | some r =>
        if r.items.length = 0 && (r.enumerableFailed || q.scan == some ['1']) then
          fallbackScan env fuel chainId address q r.trace
        else some (⟨200, .tokens r.items total none⟩, r.trace)

/-- The `try` block of the info endpoint, after the address check. -/
def infoEndpoint (env : Env) (chainId : JsNum) (address : Str) (tr : List Req) :
    Response × List Req :=
  let failure : Response := ⟨500, .error "Failed to read contract".toList⟩
  match ethCall env tr chainId address selName with
  | (.error _, tr₁) => (failure, tr₁)
  | (.ok nameHex, tr₁) =>
    match ethCall env tr₁ chainId address selSymbol with
    | (.error _, tr₂) => (failure, tr₂)
    | (.ok symbolHex, tr₂) =>
      match ethCall env tr₂ chainId address selTotalSupply with
      | (.error _, tr₃) => (failure, tr₃)
      | (.ok totalHex, tr₃) =>
        let probe := ethCall env tr₃ chainId address (selTokenByIndex ++ pad32Hex 0)
        match decodeString nameHex, decodeString symbolHex, decodeUint256 totalHex with
        | .ok name, .ok symbol, .ok total =>
          (⟨200, .info address name symbol (bigIntToString total) probe.1.isOk⟩, probe.2)
        | _, _, _ => (failure, probe.2)

/-- `handleEvmApi(req, res)` for a path under `/api/evm/`: the response sent
and the requests issued.  `none` means the fuel ran out. -/
def handleEvmApi (env : Env) (fuel : Nat) (pathname : Str) (q : Query) :
    Option (Response × List Req) :=
  let chainId := q.chainId.getD (.fin 1)
  if !supportedChain chainId then some (⟨400, .error "Unsupported chainId".toList⟩, [])
  else if pathname = "/api/evm/collection/info".toList then
    let address := toLowerCase (q.address.getD [])
    if !isHexAddress address then some (⟨400, .error "Invalid address".toList⟩, [])
    else some (infoEndpoint env chainId address [])
  else if pathname = "/api/evm/collection/tokens".toList then
    let address := toLowerCase (q.address.getD [])
    if !isHexAddress address then some (⟨400, .error "Invalid address".toList⟩, [])
    else tokensEndpoint env fuel chainId address q []
  else some (⟨404, .text "Not Found".toList⟩, [])

/-- The items of a token listing; empty for any other body. -/
def Response.items (r : Response) : List Item :=
  match r.body with
  | .tokens items _ _ => items
  | _ => []

/-- The `fallback` marker of a token listing. -/
def Response.fallback (r : Response) : Option Str :=
  match r.body with
  | .tokens _ _ fb => fb
  | _ => none

/-- The `total` field of a token listing. -/
def Response.total (r : Response) : Option JsNum :=
  match r.body with
  | .tokens _ total _ => some total
  | _ => none

/-- Whether the request is an `eth_getLogs` call. -/
def Req.isGetLogs : Req → Bool
  | .getLogs _ _ _ _ => true
  | _ => false

/-- The number of `eth_getLogs` calls in a history. -/
def countGetLogs (tr : List Req) : Nat := (tr.filter Req.isGetLogs).length

/-- The requests the loop body of Strategy A can issue for the index `i`: the
`tokenByIndex(i)` call, a `tokenURI` call, a metadata fetch. -/
def IssuedAt (chainId : JsNum) (address : Str) (i : Nat) (x : Req) : Prop :=
  x = .ethCall chainId address (selTokenByIndex ++ pad32Hex i)
    ∨ (∃ d, x = .ethCall chainId address (selTokenURI ++ d))
    ∨ ∃ u, x = .fetch u

/-- The history of the run of the loop of Strategy A that starts at the index
`s` with the history `tr`, once the loop body has run for the `n` indexes
`s, ..., s + n - 1`. -/
def runHistory (env : Env) (chainId : JsNum) (address : Str) (s : Nat) (tr : List Req) :
    Nat → List Req
  | 0 => tr
  | n + 1 =>
    (stepA env (runHistory env chainId address s tr n) chainId address
      (.fin ((s + n : Nat) : ℚ))).2

/-- In the run that starts at the index `s` with the history `tr`, the loop
body of Strategy A produces the record `item` for the index `i`. -/
def RunRecord (env : Env) (chainId : JsNum) (address : Str) (s : Nat) (tr : List Req)
    (i : Nat) (item : Item) : Prop :=
  (stepA env (runHistory env chainId address s tr (i - s)) chainId address
    (.fin (i : ℚ))).1 = .ok item

/-- In the run that starts at the index `s` with the history `tr`, the loop
body of Strategy A raises at the index `i`. -/
def RunFails (env : Env) (chainId : JsNum) (address : Str) (s : Nat) (tr : List Req)
    (i : Nat) : Prop :=
  ∃ err, (stepA env (runHistory env chainId address s tr (i - s)) chainId address
    (.fin (i : ℚ))).1 = .error err

/-- Whether the request is a contract read (`eth_call`) or a metadata
fetch. -/
def Req.isRead : Req → Bool
  | .ethCall _ _ _ => true
  | .fetch _ => true
  | _ => false

/-- The history `tr'` extends `tr` by contract reads and metadata fetches
only. -/
def ExtendsByReads (tr tr' : List Req) : Prop :=
  ∃ ext, tr' = tr ++ ext ∧ ∀ x ∈ ext, x.isRead = true

/-- The invariant of the scan: the ids of the collected items are pairwise
distinct and all belong to the set `collected`. -/
def ScanInv (st : ScanState) : Prop :=
  (st.items.map (fun it => it.id)).Nodup ∧ ∀ it ∈ st.items, it.id ∈ st.collected

/-! ## Concrete environments -/

/-- The return data of a call that returns the string `s`: the offset word 32,
the length word and the UTF-8 bytes. -/
def abiString (s : Str) : Str :=
  '0' :: 'x' :: (pad32Hex 32 ++ pad32Hex (utf8Encode s).length ++ bufferToHex (utf8Encode s))

/-- A well-behaved collection of `total` tokens: `tokenByIndex(i)` is `i`,
`tokenURI(id)` is `https://m/` followed by the last two hex digits of `id`, the
metadata served at a URL is given by `metaOf`, and `eth_blockNumber` and
`eth_getLogs` are given by `height` and `logs`. -/
def demoEnv (total : Nat) (metaOf : Str → Option Json) (height : Option Str)
    (logs : JsNum → JsNum → Option (List Log)) : Env where
  call := fun _ _ _ data =>
    if data = selTotalSupply then some ('0' :: 'x' :: pad32Hex total)
    else if startsWith data selTokenByIndex then some ('0' :: 'x' :: data.drop 10)
    else if startsWith data selTokenURI then some (abiString ("https://m/".toList ++ data.drop 72))
    else none
  blockNumber := fun _ _ => height
  getLogs := fun _ _ _ a b => logs a b
  fetchJson := fun _ url => metaOf url

/-- Metadata that is an empty object at every URL. -/
def plainMeta (_url : Str) : Option Json := some (.obj [])

/-- No window of logs can be read. -/
def noLogs (_a _b : JsNum) : Option (List Log) := none

/-- A valid collection address. -/
def demoAddress : Str := '0' :: 'x' :: List.replicate 40 'a'

/-- The query with only the address set. -/
def demoQuery : Query := ⟨none, some demoAddress, none, none, none, none, none⟩

/-- The query with the address and `scan=1`. -/
def scanQuery : Query := ⟨none, some demoAddress, none, none, some ['1'], none, none⟩

/-- The query with the address and `limit=1.5`. -/
def fractionalLimitQuery : Query :=
  ⟨none, some demoAddress, none, some (.fin (3 / 2)), none, none, none⟩

/-- A mint log whose fourth topic is `id`. -/
def mintLog (id : Str) : Log :=
  ⟨some ["0xddf2".toList, "0x00".toList, "0x0b".toList, id]⟩

/-- Every window returns the same three logs: token 7 twice, then token 9. -/
def repeatedLogs (_a _b : JsNum) : Option (List Log) :=
  some [mintLog "0x07".toList, mintLog "0x07".toList, mintLog "0x09".toList]

/-- A collection of two tokens whose `tokenByIndex(1)` call succeeds with
empty return data (`0x`), as a contract without that function may answer. -/
def emptyDataAtOne : Env where
  call := fun tr ch ad data =>
    if data = selTokenByIndex ++ pad32Hex 1 then some ['0', 'x']
    else (demoEnv 2 plainMeta none noLogs).call tr ch ad data
  blockNumber := fun _ _ => none
  getLogs := fun _ _ _ _ _ => none
  fetchJson := fun _ url => plainMeta url

/-- Metadata whose `image` is an object at the URL of token 1, and an empty
object elsewhere. -/
def imageObjectAtOne (url : Str) : Option Json :=
  if url = "https://m/01".toList then some (.obj [("image".toList, .obj [])]) else some (.obj [])

/-- A collection of `2^60` tokens whose `tokenByIndex` call succeeds for the
index `2^53` only. -/
def stuckIndexEnv : Env where
  call := fun _ _ _ data =>
    if data = selTotalSupply then some ('0' :: 'x' :: pad32Hex (2 ^ 60))
    else if data = selTokenByIndex ++ pad32Hex (2 ^ 53) then some ('0' :: 'x' :: pad32Hex 7)
    else if startsWith data selTokenURI then some (abiString "https://m/7".toList)
    else none
  blockNumber := fun _ _ => none
  getLogs := fun _ _ _ _ _ => none
  fetchJson := fun _ url => plainMeta url

/-- The query with the address and `start=9007199254740992`, which is `2^53`. -/
def bigStartQuery : Query :=
  ⟨none, some demoAddress, some (.fin (2 ^ 53)), none, none, none, none⟩

/-- A contract that only answers `totalSupply()`, with `total`: every other
call fails; `eth_blockNumber` and `eth_getLogs` are given by `height` and
`logs`. -/
def totalOnlyEnv (total : Nat) (height : Option Str)
    (logs : JsNum → JsNum → Option (List Log)) : Env where
  call := fun _ _ _ data =>
    if data = selTotalSupply then some ('0' :: 'x' :: pad32Hex total) else none
  blockNumber := fun _ _ => height
  getLogs := fun _ _ _ a b => logs a b
  fetchJson := fun _ _ => none

/-- A collection named `Art` with the symbol `ART` and three tokens, whose
`tokenByIndex` call succeeds or fails as `enumerable` says. -/
def infoEnv (enumerable : Bool) : Env where
  call := fun _ _ _ data =>
    if data = selName then some (abiString "Art".toList)
    else if data = selSymbol then some (abiString "ART".toList)
    else if data = selTotalSupply then some ('0' :: 'x' :: pad32Hex 3)
    else if enumerable && startsWith data selTokenByIndex then some ('0' :: 'x' :: pad32Hex 0)
    else none
  blockNumber := fun _ _ => none
  getLogs := fun _ _ _ _ _ => none
  fetchJson := fun _ _ => none

/-- Metadata that only has the field `image_url_png`. -/
def pngOnlyMeta (_url : Str) : Option Json :=
  some (.obj [("image_url_png".toList, .str "https://x/y.png".toList)])

/-- The query with the address, `scan=1` and `window=0`. -/
def zeroWindowQuery : Query :=
  ⟨none, some demoAddress, none, none, some ['1'], some (.fin 0), none⟩

/-- The address of `demoAddress` written with the prefix `0X`. -/
def upperPrefixAddress : Str := '0' :: 'X' :: List.replicate 40 'a'

/-- The query with only the address set, to `upperPrefixAddress`. -/
def upperPrefixQuery : Query := ⟨none, some upperPrefixAddress, none, none, none, none, none⟩

/-! ## The static file server: `safeJoin` -/

/-- One escape `%XX` at the head of the text: the octet and the rest. -/
def takeOctet : Str → Option (Nat × Str)
  | '%' :: h :: l :: rest =>
    match hexVal h, hexVal l with
    | some a, some b => some (16 * a + b, rest)
    | _, _ => none
  | _ => none

/-- The next `n` escapes: the octets and the rest. -/
def takeOctets : Nat → Str → Option (Bytes × Str)
  | 0, s => some ([], s)
  | n + 1, s =>
    match takeOctet s with
    | none => none
    | some (b, rest) =>
      match takeOctets n rest with
      | none => none
      | some (bs, rest') => some (b :: bs, rest')

/-- The number of octets of the UTF-8 sequence that the octet `b ≥ 0x80`
starts; 0 when `b` cannot start one. -/
def utf8SequenceLength (b : Nat) : Nat :=
  if 0xC0 ≤ b ∧ b ≤ 0xDF then 2
  else if 0xE0 ≤ b ∧ b ≤ 0xEF then 3
  else if 0xF0 ≤ b ∧ b ≤ 0xF7 then 4
  else 0

/-- The character that the octets encode, when they are the UTF-8 encoding of
exactly one character. -/
def utf8Single (octets : Bytes) : Option Char :=
  match bufferToUtf8 octets with
  | [c] => if utf8EncodeChar c = octets then some c else none
  | _ => none

/-- The loop of `decodeURIComponent`; the fuel is the length of the text. -/
def decodeURIComponentAux : Nat → Str → Except JsError Str
  | 0, _ => .ok []
  | _ + 1, [] => .ok []
  | fuel + 1, c :: rest =>
    if c ≠ '%' then (decodeURIComponentAux fuel rest).map (fun t => c :: t)
    else
      match takeOctet (c :: rest) with
      | none => .error .uriError
      | some (b, rest₁) =>
        if b < 0x80 then (decodeURIComponentAux fuel rest₁).map (fun t => Char.ofNat b :: t)
        else if utf8SequenceLength b = 0 then .error .uriError
        else
          match takeOctets (utf8SequenceLength b - 1) rest₁ with
          | none => .error .uriError
          | some (bs, rest₂) =>
            match utf8Single (b :: bs) with
            | none => .error .uriError
            | some ch => (decodeURIComponentAux fuel rest₂).map (fun t => ch :: t)

/-- `decodeURIComponent(s)`: every escape `%XX` is replaced by the character
its octets encode in UTF-8; a malformed escape raises a `URIError`. -/
def decodeURIComponent (s : Str) : Except JsError Str := decodeURIComponentAux s.length s

/-- The segments of a path between its `/` separators. -/
def splitSlash : Str → List Str
  | [] => [[]]
  | c :: cs =>
    match splitSlash cs with
    | seg :: rest => if c = '/' then [] :: seg :: rest else (c :: seg) :: rest
    | [] => if c = '/' then [[], []] else [[c]]

/-- The segments joined by `/`. -/
def joinSlash : List Str → Str
  | [] => []
  | [seg] => seg
  | seg :: rest => seg ++ '/' :: joinSlash rest

/-- The segments kept by `normalizeString`, last one first: empty segments and
`.` are dropped, `..` removes the segment before it, and when there is none
(or only `..`) it is kept if `allowAboveRoot` and dropped otherwise. -/
def normalizeSegments (allowAboveRoot : Bool) : List Str → List Str → List Str
  | [], acc => acc
  | seg :: rest, acc =>
    if seg = [] ∨ seg = ['.'] then normalizeSegments allowAboveRoot rest acc
    else if seg = ['.', '.'] then
      match acc with
      | top :: below =>
        if top ≠ ['.', '.'] then normalizeSegments allowAboveRoot rest below
        else if allowAboveRoot then normalizeSegments allowAboveRoot rest (seg :: acc)
        else normalizeSegments allowAboveRoot rest acc
      | [] =>
        if allowAboveRoot then normalizeSegments allowAboveRoot rest [seg]
        else normalizeSegments allowAboveRoot rest []
    else normalizeSegments allowAboveRoot rest (seg :: acc)

/-- `normalizeString(path, allowAboveRoot, '/')` of Node's `path` module. -/
def normalizeString (path : Str) (allowAboveRoot : Bool) : Str :=
  joinSlash (normalizeSegments allowAboveRoot (splitSlash path) []).reverse

/-- `path.normalize(p)`, POSIX flavour. -/
def pathNormalize (p : Str) : Str :=
  if p = [] then ['.']
  else
    let isAbsolute := p.head? = some '/'
    let trailingSeparator := p.getLast? = some '/'
    let body := normalizeString p (!isAbsolute)
    if body = [] then
      if isAbsolute then ['/'] else if trailingSeparator then ['.', '/'] else ['.']
    else
      let body := if trailingSeparator then body ++ ['/'] else body
      if isAbsolute then '/' :: body else body

/-- `path.join(a, b)`, POSIX flavour: the non-empty arguments joined by `/`,
then normalised. -/
def pathJoin (a b : Str) : Str :=
  if a = [] ∧ b = [] then ['.']
  else if a = [] then pathNormalize b
  else if b = [] then pathNormalize a
  else pathNormalize (a ++ '/' :: b)

/-- `s.replace(/^\\+|^\/+/, '')`: a leading run of backslashes is removed,
or else a leading run of slashes. -/
def stripLeadingSeparators (s : Str) : Str :=
  if s.head? = some '\\' then s.dropWhile (fun c => c = '\\')
  else s.dropWhile (fun c => c = '/')

/-- `safeJoin(base, requestPath)`; `none` is `null`. -/
def safeJoin (base requestPath : Str) : Except JsError (Option Str) :=
  match decodeURIComponent requestPath with
  | .error e => .error e
  | .ok decoded =>
    let normalized := stripLeadingSeparators (pathNormalize decoded)
    let finalPath := pathJoin base normalized
    if !startsWith finalPath base then .ok none else .ok (some finalPath)

/-- The path `p` is the directory `base` or lies below it. -/
def InsideBase (base p : Str) : Prop := p = base ∨ startsWith p (base ++ ['/']) = true

/-- A segment that `normalizeString` keeps as it is: not empty, not `.`, not
`..`, and without a separator. -/
def PlainSegment (seg : Str) : Prop :=
  seg ≠ [] ∧ seg ≠ ['.'] ∧ seg ≠ ['.', '.'] ∧ '/' ∉ seg

/-! ## Lemmas on hexadecimal text -/

theorem hexVal_hexChar (d : Nat) (h : d < 16) : hexVal (hexChar d) = some d := by
  interval_cases d <;> rfl

theorem digitVal_hexChar (d : Nat) (h : d < 16) : digitVal 16 (hexChar d) = some d := by
  simp [digitVal, hexVal_hexChar d h, h]

theorem isJsWhiteSpace_hexChar (d : Nat) (h : d < 16) : isJsWhiteSpace (hexChar d) = false := by
  interval_cases d <;> rfl

theorem hexChar_ne_x (d : Nat) (h : d < 16) : hexChar d ≠ 'x' := by
  interval_cases d <;> decide

theorem isLowerHex_append {s t : Str} (hs : IsLowerHex s) (ht : IsLowerHex t) :
    IsLowerHex (s ++ t) := by
  intro c hc
  rcases List.mem_append.mp hc with h | h
  · exact hs c h
  · exact ht c h

theorem isLowerHex_replicate_zero (k : Nat) : IsLowerHex (List.replicate k '0') := by
  intro c hc
  exact ⟨0, by decide, by rw [List.eq_of_mem_replicate hc]; rfl⟩

theorem parseDigits_append (base : Nat) (xs ys : Str) (acc : Nat) :
    parseDigits base (xs ++ ys) acc
      = (parseDigits base xs acc).bind (fun a => parseDigits base ys a) := by
  induction xs generalizing acc with
  | nil => simp [parseDigits]
  | cons c cs ih =>
    simp only [List.cons_append, parseDigits]
    cases digitVal base c with
    | none => simp
    | some d => simpa using ih (acc * base + d)

theorem natToHexAux_isLowerHex (fuel n : Nat) : IsLowerHex (natToHexAux fuel n) := by
  induction fuel generalizing n with
  | zero =>
    intro c hc
    simp only [natToHexAux, List.mem_singleton] at hc
    exact ⟨n % 16, Nat.mod_lt _ (by decide), hc⟩
  | succ f ih =>
    intro c hc
    unfold natToHexAux at hc
    split at hc
    · simp only [List.mem_singleton] at hc
      exact ⟨n, by assumption, hc⟩
    · rcases List.mem_append.mp hc with h | h
      · exact ih _ c h
      · simp only [List.mem_singleton] at h
        exact ⟨n % 16, Nat.mod_lt _ (by decide), h⟩

theorem natToHexAux_ne_nil (fuel n : Nat) : natToHexAux fuel n ≠ [] := by
  cases fuel with
  | zero => simp [natToHexAux]
  | succ f =>
    unfold natToHexAux
    split <;> simp

/-- With enough fuel the digits written read back as the number. -/
theorem parseDigits_natToHexAux (fuel n acc : Nat) (h : n < 16 ^ (fuel + 1)) :
    parseDigits 16 (natToHexAux fuel n) acc
      = some (acc * 16 ^ (natToHexAux fuel n).length + n) := by
  induction fuel generalizing n acc with
  | zero =>
    have hn : n < 16 := by simpa using h
    simp [natToHexAux, parseDigits, Nat.mod_eq_of_lt hn, digitVal_hexChar n hn]
  | succ f ih =>
    unfold natToHexAux
    split
    · rename_i hn
      simp [parseDigits, digitVal_hexChar n hn]
    · have hq : n / 16 < 16 ^ (f + 1) := by
        rw [Nat.div_lt_iff_lt_mul (by decide)]
        calc n < 16 ^ (f + 1 + 1) := h
          _ = 16 ^ (f + 1) * 16 := by ring
      rw [parseDigits_append, ih (n / 16) acc hq]
      simp only [Option.bind, parseDigits, digitVal_hexChar (n % 16) (Nat.mod_lt _ (by decide)),
        List.length_append, List.length_singleton, pow_succ]
      congr 1
      have := Nat.div_add_mod n 16
      nlinarith [this]

theorem natToHexAux_length_le (fuel n k : Nat) (h : n < 16 ^ (k + 1)) :
    (natToHexAux fuel n).length ≤ k + 1 := by
  induction fuel generalizing n k with
  | zero => simp [natToHexAux]
  | succ f ih =>
    unfold natToHexAux
    split
    · simp
    · rename_i hn
      cases k with
      | zero => exact absurd (by simpa using h) hn
      | succ k =>
        have hq : n / 16 < 16 ^ (k + 1) := by
          rw [Nat.div_lt_iff_lt_mul (by decide)]
          calc n < 16 ^ (k + 1 + 1) := h
            _ = 16 ^ (k + 1) * 16 := by ring
        have := ih (n / 16) k hq
        simp only [List.length_append, List.length_singleton]
        omega

theorem lt_sixteen_pow_succ (n : Nat) : n < 16 ^ (n + 1) :=
  lt_of_lt_of_le (Nat.lt_pow_self (by decide) n)
    (Nat.pow_le_pow_right (by decide) (Nat.le_succ n))

theorem digitVal_lt (base : Nat) (c : Char) (d : Nat) (h : digitVal base c = some d) :
    d < base := by
  unfold digitVal at h
  split at h
  · split at h
    · cases h; assumption
    · cases h
  · cases h

theorem parseDigits_lt (xs : Str) (acc v : Nat) (h : parseDigits 16 xs acc = some v) :
    v < (acc + 1) * 16 ^ xs.length := by
  induction xs generalizing acc with
  | nil =>
    simp only [parseDigits, Option.some.injEq] at h
    simp
    omega
  | cons c cs ih =>
    simp only [parseDigits] at h
    cases hd : digitVal 16 c with
    | none => rw [hd] at h; cases h
    | some d =>
      rw [hd] at h
      have hlt := digitVal_lt 16 c d hd
      have := ih (acc * 16 + d) h
      calc v < (acc * 16 + d + 1) * 16 ^ cs.length := this
        _ ≤ ((acc + 1) * 16) * 16 ^ cs.length := Nat.mul_le_mul_right _ (by omega)
        _ = (acc + 1) * 16 ^ (c :: cs).length := by
          rw [List.length_cons, pow_succ]; ring

theorem parseDigits_replicate_zero (k : Nat) (xs : Str) :
    parseDigits 16 (List.replicate k '0' ++ xs) 0 = parseDigits 16 xs 0 := by
  induction k with
  | zero => simp
  | succ k ih =>
    simp only [List.replicate_succ, List.cons_append, parseDigits]
    have : digitVal 16 '0' = some 0 := by rfl
    rw [this]
    simpa using ih

theorem trim_eq_self (s : Str) (h : ∀ c ∈ s, isJsWhiteSpace c = false) : trim s = s := by
  have key : ∀ t : Str, (∀ c ∈ t, isJsWhiteSpace c = false) → t.dropWhile isJsWhiteSpace = t := by
    intro t ht
    cases t with
    | nil => rfl
    | cons a t => simp [List.dropWhile, ht a (List.mem_cons_self a t)]
  unfold trim
  rw [key s h, key s.reverse (fun c hc => h c (List.mem_reverse.mp hc)), List.reverse_reverse]

/-- The text `0x` followed by lower-case hex digits reads as a hex literal. -/
theorem stringToBigInt_hex (ds : Str) (h : IsLowerHex ds) :
    stringToBigInt ('0' :: 'x' :: ds) = (parseNat 16 ds).map Int.ofNat := by
  have ht : trim ('0' :: 'x' :: ds) = '0' :: 'x' :: ds := by
    apply trim_eq_self
    intro c hc
    simp only [List.mem_cons] at hc
    rcases hc with rfl | rfl | hc
    · rfl
    · rfl
    · obtain ⟨d, hd, rfl⟩ := h c hc
      exact isJsWhiteSpace_hexChar d hd
  unfold stringToBigInt
  rw [ht]
  rfl

/-- The 64 characters `pad32Hex` writes for a value below `2^256`. -/
theorem pad32Hex_spec (n : Nat) (h : n < 2 ^ 256) :
    (pad32Hex n).length = 64 ∧ IsLowerHex (pad32Hex n)
      ∧ parseDigits 16 (pad32Hex n) 0 = some n := by
  have hlen : (natToHex n).length ≤ 64 :=
    natToHexAux_length_le n n 63 (by norm_num; omega)
  have hs : bigIntToString16 (n : Int) = natToHex n := by
    simp [bigIntToString16]
  refine ⟨?_, ?_, ?_⟩
  · simp only [pad32Hex, padStart, hs, List.length_append, List.length_replicate]
    omega
  · simp only [pad32Hex, padStart, hs]
    exact isLowerHex_append (isLowerHex_replicate_zero _) (natToHexAux_isLowerHex n n)
  · simp only [pad32Hex, padStart, hs]
    rw [parseDigits_replicate_zero, natToHex, parseDigits_natToHexAux n n 0 (lt_sixteen_pow_succ n)]
    simp

theorem parseNat_pad32Hex (n : Nat) (h : n < 2 ^ 256) : parseNat 16 (pad32Hex n) = .ok n := by
  obtain ⟨hl, _, hp⟩ := pad32Hex_spec n h
  have hne : pad32Hex (n : Int) ≠ [] := by
    intro hw
    rw [hw] at hl
    simp at hl
  simp [parseNat, hne, hp]

theorem startsWith_0x_pad32Hex (n : Nat) (h : n < 2 ^ 256) :
    startsWith (pad32Hex n) ['0', 'x'] = false := by
  obtain ⟨hl, hh, _⟩ := pad32Hex_spec n h
  match hw : pad32Hex (n : Int) with
  | [] => rw [hw] at hl; simp at hl
  | [_] => rw [hw] at hl; simp at hl
  | a :: b :: t =>
    rw [hw] at hh
    obtain ⟨d, hd, hb⟩ := hh b (by simp)
    have : b ≠ 'x' := hb ▸ hexChar_ne_x d hd
    simp only [startsWith, List.isPrefixOf, Bool.and_true, Bool.and_eq_false_imp, beq_iff_eq,
      beq_eq_false_iff_ne]
    exact fun _ hx => this hx.symm

theorem decodeUint256_pad32Hex (n : Nat) (h : n < 2 ^ 256) :
    decodeUint256 (pad32Hex n) = .ok (n : Int)
      ∧ decodeUint256 ('0' :: 'x' :: pad32Hex n) = .ok (n : Int) := by
  obtain ⟨hl, hh, _⟩ := pad32Hex_spec n h
  have htake : (pad32Hex (n : Int)).take 64 = pad32Hex n := List.take_of_length_le (by omega)
  constructor
  · simp only [decodeUint256, startsWith_0x_pad32Hex n h, Bool.false_eq_true, if_false, htake]
    rw [stringToBigInt_hex _ hh, parseNat_pad32Hex n h]
    rfl
  · have hsw : startsWith ('0' :: 'x' :: pad32Hex (n : Int)) ['0', 'x'] = true := by
      simp [startsWith, List.isPrefixOf]
    simp only [decodeUint256, hsw, if_true, List.drop_succ_cons, List.drop_zero, htake]
    rw [stringToBigInt_hex _ hh, parseNat_pad32Hex n h]
    rfl

theorem toBigInt_num_int (n : Int) : toBigInt (.num (.fin (n : ℚ))) = .ok n := by
  simp [toBigInt]

/-! ## Lemmas on UTF-8 -/

theorem char_toNat_valid (c : Char) :
    c.toNat < 0xD800 ∨ (0xDFFF < c.toNat ∧ c.toNat < 0x110000) := c.valid

theorem utf8EncodeChar_lt (c : Char) : ∀ b ∈ utf8EncodeChar c, b < 256 := by
  have hv := char_toNat_valid c
  intro b hb
  unfold utf8EncodeChar at hb
  simp only at hb
  split_ifs at hb <;> simp only [List.mem_cons, List.mem_singleton, List.not_mem_nil, or_false] at hb <;> omega

theorem utf8Step_fresh (b : Nat) : utf8Step utf8Fresh b = utf8Lead b := by
  simp [utf8Step, utf8Fresh]

theorem utf8Step_cont (st : Utf8State) (b : Nat) (hn : st.needed ≠ 0) (hl : st.lower ≤ b)
    (hu : b ≤ st.upper) (hs : st.seen + 1 ≠ st.needed) :
    utf8Step st b = (⟨st.cp * 64 + b % 64, st.seen + 1, st.needed, 0x80, 0xBF⟩, []) := by
  unfold utf8Step
  rw [if_neg hn, if_neg (by omega), if_neg hs]

theorem utf8Step_last (st : Utf8State) (b : Nat) (hn : st.needed ≠ 0) (hl : st.lower ≤ b)
    (hu : b ≤ st.upper) (hs : st.seen + 1 = st.needed) :
    utf8Step st b = (utf8Fresh, [Char.ofNat (st.cp * 64 + b % 64)]) := by
  unfold utf8Step
  rw [if_neg hn, if_neg (by omega), if_pos hs]

theorem utf8Lead_one (b : Nat) (h : b ≤ 0x7F) : utf8Lead b = (utf8Fresh, [Char.ofNat b]) := by
  unfold utf8Lead
  rw [if_pos h]

theorem utf8Lead_two (b : Nat) (h : 0xC2 ≤ b ∧ b ≤ 0xDF) :
    utf8Lead b = (⟨b % 32, 0, 1, 0x80, 0xBF⟩, []) := by
  unfold utf8Lead
  rw [if_neg (by omega), if_pos h]

theorem utf8Lead_three (b : Nat) (h : 0xE0 ≤ b ∧ b ≤ 0xEF) :
    utf8Lead b
      = (⟨b % 16, 0, 2, if b = 0xE0 then 0xA0 else 0x80, if b = 0xED then 0x9F else 0xBF⟩, []) := by
  unfold utf8Lead
  rw [if_neg (by omega), if_neg (by omega), if_pos h]

theorem utf8Lead_four (b : Nat) (h : 0xF0 ≤ b ∧ b ≤ 0xF4) :
    utf8Lead b
      = (⟨b % 8, 0, 3, if b = 0xF0 then 0x90 else 0x80, if b = 0xF4 then 0x8F else 0xBF⟩, []) := by
  unfold utf8Lead
  rw [if_neg (by omega), if_neg (by omega), if_neg (by omega), if_pos h]

theorem utf8DecodeFrom_encodeChar (c : Char) (rest : Bytes) :
    utf8DecodeFrom utf8Fresh (utf8EncodeChar c ++ rest) = c :: utf8DecodeFrom utf8Fresh rest := by
  have hv := char_toNat_valid c
  have hc : Char.ofNat c.toNat = c := Char.ofNat_toNat c
  unfold utf8EncodeChar
  simp only
  generalize c.toNat = n at hv hc ⊢
  split_ifs with h1 h2 h3
  · simp only [List.singleton_append, utf8DecodeFrom]
    rw [utf8Step_fresh, utf8Lead_one n (by omega)]
    simp [hc]
  · simp only [List.cons_append, List.nil_append, utf8DecodeFrom]
    rw [utf8Step_fresh, utf8Lead_two _ (by omega)]
    simp only
    rw [utf8Step_last _ _ (by simp) (by simp only; omega) (by simp only; omega) (by simp)]
    have : (192 + n / 64) % 32 * 64 + (128 + n % 64) % 64 = n := by omega
    dsimp only
    rw [this, hc]
    rfl
  · simp only [List.cons_append, List.nil_append, utf8DecodeFrom]
    rw [utf8Step_fresh, utf8Lead_three _ (by omega)]
    simp only
    rw [utf8Step_cont _ _ (by simp) (by simp only; split_ifs <;> omega)
      (by simp only; split_ifs <;> omega) (by simp)]
    simp only
    rw [utf8Step_last _ _ (by simp) (by simp only; omega) (by simp only; omega) (by simp)]
    have : ((224 + n / 4096) % 16 * 64 + (128 + n / 64 % 64) % 64) * 64 + (128 + n % 64) % 64 = n := by
      omega
    dsimp only
    rw [this, hc]
    rfl
  · simp only [List.cons_append, List.nil_append, utf8DecodeFrom]
    rw [utf8Step_fresh, utf8Lead_four _ (by omega)]
    simp only
    rw [utf8Step_cont _ _ (by simp) (by simp only; split_ifs <;> omega)
      (by simp only; split_ifs <;> omega) (by simp)]
    simp only
    rw [utf8Step_cont _ _ (by simp) (by simp only; omega) (by simp only; omega) (by simp)]
    simp only
    rw [utf8Step_last _ _ (by simp) (by simp only; omega) (by simp only; omega) (by simp)]
    have : (((240 + n / 262144) % 8 * 64 + (128 + n / 4096 % 64) % 64) * 64
        + (128 + n / 64 % 64) % 64) * 64 + (128 + n % 64) % 64 = n := by
      omega
    dsimp only
    rw [this, hc]
    rfl

/-- Decoding the UTF-8 bytes of a text gives the text back. -/
theorem bufferToUtf8_utf8Encode (s : Str) : bufferToUtf8 (utf8Encode s) = s := by
  unfold bufferToUtf8 utf8Encode
  induction s with
  | nil => simp [utf8DecodeFrom, utf8Fresh]
  | cons c cs ih => rw [List.flatMap_cons, utf8DecodeFrom_encodeChar, ih]

theorem utf8Encode_lt (s : Str) : ∀ b ∈ utf8Encode s, b < 256 := by
  intro b hb
  obtain ⟨c, _, hc⟩ := List.mem_flatMap.mp hb
  exact utf8EncodeChar_lt c b hc

/-! ## Lemmas on buffers -/

theorem isLowerHex_not_startsWith_0x (t : Str) (h : IsLowerHex t) :
    startsWith t ['0', 'x'] = false := by
  match t, h with
  | [], _ => rfl
  | [_], _ => simp [startsWith, List.isPrefixOf]
  | a :: b :: t, h =>
    obtain ⟨d, hd, hb⟩ := h b (by simp)
    have : b ≠ 'x' := hb ▸ hexChar_ne_x d hd
    simp only [startsWith, List.isPrefixOf, Bool.and_true, Bool.and_eq_false_imp, beq_iff_eq,
      beq_eq_false_iff_ne]
    exact fun _ hx => this hx.symm

theorem bufferToHex_append (xs ys : Bytes) :
    bufferToHex (xs ++ ys) = bufferToHex xs ++ bufferToHex ys := by
  induction xs with
  | nil => rfl
  | cons b bs ih => simp [bufferToHex, ih]

theorem bufferToHex_replicate_zero (k : Nat) :
    bufferToHex (List.replicate k 0) = List.replicate (2 * k) '0' := by
  induction k with
  | zero => rfl
  | succ k ih =>
    rw [List.replicate_succ, bufferToHex, ih, show 2 * (k + 1) = 2 * k + 1 + 1 by ring,
      List.replicate_succ, List.replicate_succ]
    rfl

theorem bufferToHex_isLowerHex (bs : Bytes) (h : ∀ b ∈ bs, b < 256) :
    IsLowerHex (bufferToHex bs) := by
  induction bs with
  | nil => intro c hc; simp [bufferToHex] at hc
  | cons b bs ih =>
    have hb : b < 256 := h b (List.mem_cons_self b bs)
    intro c hc
    simp only [bufferToHex, List.mem_cons] at hc
    rcases hc with rfl | rfl | hc
    · exact ⟨b / 16, by omega, rfl⟩
    · exact ⟨b % 16, by omega, rfl⟩
    · exact ih (fun x hx => h x (List.mem_cons_of_mem b hx)) c hc

theorem utf16Units_hexChar (d : Nat) (h : d < 16) :
    utf16Units (hexChar d) = [(hexChar d).toNat] := by
  interval_cases d <;> rfl

theorem unhex_hexChar (d : Nat) (h : d < 16) : unhex ((hexChar d).toNat % 256) = some d := by
  interval_cases d <;> rfl

theorem bufferFromHex_bufferToHex_append (bs : Bytes) (rest : Str) (h : ∀ b ∈ bs, b < 256) :
    bufferFromHex (bufferToHex bs ++ rest) = bs ++ bufferFromHex rest := by
  induction bs with
  | nil => rfl
  | cons b bs ih =>
    have hb : b < 256 := h b (List.mem_cons_self b bs)
    have ih' := ih (fun x hx => h x (List.mem_cons_of_mem b hx))
    unfold bufferFromHex at ih' ⊢
    simp only [bufferToHex, List.cons_append, List.flatMap_cons,
      utf16Units_hexChar (b / 16) (by omega), utf16Units_hexChar (b % 16) (by omega),
      List.singleton_append, hexDecode, unhex_hexChar (b / 16) (by omega),
      unhex_hexChar (b % 16) (by omega), List.nil_append]
    rw [ih']
    congr 1
    omega

theorem bufferFromHex_bufferToHex (bs : Bytes) (h : ∀ b ∈ bs, b < 256) :
    bufferFromHex (bufferToHex bs) = bs := by
  have := bufferFromHex_bufferToHex_append bs [] h
  simpa [bufferFromHex, hexDecode] using this

theorem subarray_append_middle (a b c : Bytes) :
    subarray (a ++ b ++ c) a.length (a.length + b.length) = b := by
  unfold subarray
  rw [List.take_left' (by simp), List.drop_left' rfl]

/-- Lower-case hex text of even length is the hex of a buffer. -/
theorem exists_bytes_of_isLowerHex (k : Nat) (t : Str) (ht : IsLowerHex t)
    (hl : t.length = 2 * k) :
    ∃ bs : Bytes, bufferToHex bs = t ∧ bs.length = k ∧ ∀ b ∈ bs, b < 256 := by
  induction k generalizing t with
  | zero =>
    refine ⟨[], ?_, rfl, by simp⟩
    have : t = [] := List.length_eq_zero.mp (by omega)
    rw [this]
    rfl
  | succ k ih =>
    match t, ht, hl with
    | [], _, hl => simp at hl
    | [_], _, hl => simp at hl; omega
    | a :: b :: t, ht, hl =>
      obtain ⟨da, hda, rfl⟩ := ht a (by simp)
      obtain ⟨db, hdb, rfl⟩ := ht b (by simp)
      obtain ⟨bs, hbs, hlen, hlt⟩ := ih t (fun c hc => ht c (by simp [hc]))
        (by simp at hl; omega)
      refine ⟨(16 * da + db) :: bs, ?_, by simp [hlen], ?_⟩
      · simp only [bufferToHex, hbs]
        rw [show (16 * da + db) / 16 = da by omega, show (16 * da + db) % 16 = db by omega]
      · intro x hx
        simp only [List.mem_cons] at hx
        rcases hx with rfl | hx
        · omega
        · exact hlt x hx

/-- The 32 bytes whose hex is the word `pad32Hex n`. -/
theorem exists_word_bytes (n : Nat) (h : n < 2 ^ 256) :
    ∃ bs : Bytes, bufferToHex bs = pad32Hex n ∧ bs.length = 32 ∧ ∀ b ∈ bs, b < 256 := by
  obtain ⟨hl, hh, _⟩ := pad32Hex_spec n h
  exact exists_bytes_of_isLowerHex 32 _ hh (by omega)

theorem stringToBigInt_pad32Hex (n : Nat) (h : n < 2 ^ 256) :
    stringToBigInt ('0' :: 'x' :: pad32Hex n) = .ok (n : Int) := by
  rw [stringToBigInt_hex _ (pad32Hex_spec n h).2.1, parseNat_pad32Hex n h]
  rfl

/-! ## The codec -/

/-- C1: for every integer `0 ≤ n < 2^256`, given as a `BigInt` or as a
`Number`, `encodeUint256Hex` returns a word that `decodeUint256` reads back as
`n`, with and without a leading `0x`. -/
theorem decodeUint256_encodeUint256Hex (n : Int) (h0 : 0 ≤ n) (h1 : n < 2 ^ 256) :
    ∃ w, encodeUint256Hex (.big n) = .ok w ∧ encodeUint256Hex (.num (.fin (n : ℚ))) = .ok w
      ∧ decodeUint256 w = .ok n ∧ decodeUint256 ('0' :: 'x' :: w) = .ok n := by
  obtain ⟨m, rfl⟩ := Int.eq_ofNat_of_zero_le h0
  have hm : m < 2 ^ 256 := by exact_mod_cast h1
  refine ⟨pad32Hex m, rfl, ?_, (decodeUint256_pad32Hex m hm).1, (decodeUint256_pad32Hex m hm).2⟩
  simp only [encodeUint256Hex]
  rw [toBigInt_num_int]
  rfl

set_option maxRecDepth 100000 in
/-- The round trip at `n = 2^255`. -/
theorem decodeUint256_encodeUint256Hex_witness :
    ∃ w, encodeUint256Hex (.big (2 ^ 255)) = .ok w
      ∧ encodeUint256Hex (.num (.fin (((2 ^ 255 : Int)) : ℚ))) = .ok w
      ∧ decodeUint256 w = .ok (2 ^ 255) ∧ decodeUint256 ('0' :: 'x' :: w) = .ok (2 ^ 255) :=
  decodeUint256_encodeUint256Hex (2 ^ 255) (by decide) (by decide)

set_option maxRecDepth 100000 in
/-- C4, as stated, fails: `encodeUint256Hex` returns a text for `-1` (62 zeros
and `-1`) and for `2^256` (65 characters); it raises nothing. -/
theorem encodeUint256Hex_out_of_range_returns :
    encodeUint256Hex (.big (-1)) = .ok (List.replicate 62 '0' ++ ['-', '1'])
      ∧ encodeUint256Hex (.big (2 ^ 256)) = .ok ('1' :: List.replicate 64 '0') := by
  decide

theorem hexChar_ne_zero (d : Nat) (h : d < 16) (h0 : 0 < d) : hexChar d ≠ '0' := by
  interval_cases d <;> decide

/-- The digits of a positive number start with a digit other than `0`. -/
theorem natToHexAux_head (fuel : Nat) :
    ∀ n : Nat, 0 < n → n < 16 ^ (fuel + 1) → (natToHexAux fuel n).head? ≠ some '0' := by
  induction fuel with
  | zero =>
    intro n h0 h
    have hn : n < 16 := by simpa using h
    simp only [natToHexAux, Nat.mod_eq_of_lt hn, List.head?_cons, ne_eq, Option.some.injEq]
    exact hexChar_ne_zero n hn h0
  | succ f ih =>
    intro n h0 h
    unfold natToHexAux
    split
    · rename_i hn
      simp only [List.head?_cons, ne_eq, Option.some.injEq]
      exact hexChar_ne_zero n hn h0
    · rename_i hn
      have hdiv : n / 16 < 16 ^ (f + 1) := by
        rw [Nat.div_lt_iff_lt_mul (by decide)]
        rw [pow_succ] at h
        exact h
      have hpos : 0 < n / 16 := Nat.div_pos (by omega) (by decide)
      have := ih (n / 16) hpos hdiv
      cases hx : natToHexAux f (n / 16) with
      | nil => exact absurd hx (natToHexAux_ne_nil f (n / 16))
      | cons c cs =>
        rw [hx] at this
        simpa using this

/-- `n.toString(16)` for `n > 0`: lower-case hex digits without a leading
zero, whose value is `n`. -/
theorem natToHex_spec (n : Nat) (h0 : 0 < n) :
    IsLowerHex (natToHex n) ∧ parseDigits 16 (natToHex n) 0 = some n
      ∧ (natToHex n).head? ≠ some '0' := by
  refine ⟨natToHexAux_isLowerHex n n, ?_, natToHexAux_head n n h0 (lt_sixteen_pow_succ n)⟩
  rw [natToHex, parseDigits_natToHexAux n n 0 (lt_sixteen_pow_succ n)]
  simp

/-- C4, amended: `encodeUint256Hex` raises nothing on an integer, given as a
`BigInt` or as a `Number`.  For `0 ≤ n < 2^256` the result is exactly 64
lower-case hex digits whose big-endian value is `n`; for `n ≥ 2^256` it is
the unpadded hex digits of `n` (lower case, no leading zero, value `n`), more
than 64 characters; for negative `n` it is a minus sign followed by the
unpadded hex digits of `-n`, filled with zeros on the left up to 64
characters. -/
theorem encodeUint256Hex_never_fails (n : Int) :
    ∃ w, encodeUint256Hex (.big n) = .ok w ∧ encodeUint256Hex (.num (.fin (n : ℚ))) = .ok w
      ∧ (0 ≤ n → n < 2 ^ 256 →
          w.length = 64 ∧ IsLowerHex w ∧ parseDigits 16 w 0 = some n.toNat)
      ∧ (2 ^ 256 ≤ n →
          64 < w.length ∧ IsLowerHex w ∧ parseDigits 16 w 0 = some n.toNat
            ∧ w.head? ≠ some '0')
      ∧ (n < 0 → ∃ d, w = List.replicate (63 - d.length) '0' ++ '-' :: d
          ∧ IsLowerHex d ∧ parseDigits 16 d 0 = some n.natAbs ∧ d.head? ≠ some '0') := by
  refine ⟨pad32Hex n, rfl, ?_, ?_, ?_, ?_⟩
  · simp only [encodeUint256Hex]
    rw [toBigInt_num_int]
    rfl
  · intro h0 h1
    obtain ⟨m, rfl⟩ := Int.eq_ofNat_of_zero_le h0
    have hm : m < 2 ^ 256 := by exact_mod_cast h1
    simpa using pad32Hex_spec m hm
  · intro h
    have h0 : 0 ≤ n := le_trans (by positivity) h
    obtain ⟨m, rfl⟩ := Int.eq_ofNat_of_zero_le h0
    have hm : 2 ^ 256 ≤ m := by exact_mod_cast h
    have hs : bigIntToString16 (m : Int) = natToHex m := by simp [bigIntToString16]
    obtain ⟨hhex, hval, hhead⟩ := natToHex_spec m (by omega)
    have hlt := parseDigits_lt (natToHex m) 0 m hval
    have hlen : 64 < (natToHex m).length := by
      by_contra hc
      have : 16 ^ (natToHex m).length ≤ 16 ^ 64 := Nat.pow_le_pow_right (by decide) (by omega)
      norm_num at hm this hlt
      omega
    have hpad : pad32Hex (m : Int) = natToHex m := by
      simp only [pad32Hex, padStart, hs]
      have : 64 - (natToHex m).length = 0 := by omega
      rw [this]
      rfl
    rw [hpad]
    exact ⟨hlen, hhex, by simpa using hval, hhead⟩
  · intro h
    have hpos : 0 < n.natAbs := Int.natAbs_pos.mpr (by omega)
    obtain ⟨hhex, hval, hhead⟩ := natToHex_spec n.natAbs hpos
    refine ⟨natToHex n.natAbs, ?_, hhex, hval, hhead⟩
    simp only [pad32Hex, padStart, bigIntToString16, h, if_true, List.length_cons]
    congr 2
    omega

/-- The encodings of 255, of `2^256` and of `-1`. -/
theorem encodeUint256Hex_never_fails_witness :
    (∃ w, encodeUint256Hex (.big 255) = .ok w ∧ w.length = 64 ∧ IsLowerHex w
        ∧ parseDigits 16 w 0 = some 255)
      ∧ (∃ w, encodeUint256Hex (.big (2 ^ 256)) = .ok w ∧ 64 < w.length ∧ IsLowerHex w
        ∧ parseDigits 16 w 0 = some (2 ^ 256) ∧ w.head? ≠ some '0')
      ∧ ∃ w d, encodeUint256Hex (.big (-1)) = .ok w
        ∧ w = List.replicate (63 - d.length) '0' ++ '-' :: d ∧ IsLowerHex d
        ∧ parseDigits 16 d 0 = some 1 ∧ d.head? ≠ some '0' := by
  refine ⟨?_, ?_, ?_⟩
  · obtain ⟨w, h1, _, h2, _, _⟩ := encodeUint256Hex_never_fails 255
    obtain ⟨h3, h4, h5⟩ := h2 (by decide) (by norm_num)
    exact ⟨w, h1, h3, h4, h5⟩
  · obtain ⟨w, h1, _, _, h2, _⟩ := encodeUint256Hex_never_fails (2 ^ 256)
    obtain ⟨h3, h4, h5, h6⟩ := h2 (le_refl _)
    exact ⟨w, h1, h3, h4, by simpa using h5, h6⟩
  · obtain ⟨w, h1, _, _, _, h2⟩ := encodeUint256Hex_never_fails (-1)
    obtain ⟨d, h3, h4, h5, h6⟩ := h2 (by decide)
    exact ⟨w, d, h1, h3, h4, h5, h6⟩

/-- C2: for every text `s` whose UTF-8 encoding has `L` bytes, the hex of the
buffer made of the word 32, the word `L`, the bytes of `s` and any number `k`
of zero bytes, with or without a leading `0x`, is decoded by `decodeString` to
exactly `s`. -/
theorem decodeString_abi_string (s : Str) (k : Nat) (hL : (utf8Encode s).length < 2 ^ 256)
    (pre : Str) (hpre : pre = [] ∨ pre = ['0', 'x']) :
    decodeString (pre ++ (pad32Hex 32 ++ pad32Hex ((utf8Encode s).length : Nat)
        ++ bufferToHex (utf8Encode s) ++ List.replicate (2 * k) '0')) = .ok s := by
  obtain ⟨w₁, hw₁, hl₁, hb₁⟩ := exists_word_bytes 32 (by norm_num)
  obtain ⟨w₂, hw₂, hl₂, hb₂⟩ := exists_word_bytes (utf8Encode s).length hL
  have h32 : ((32 : Nat) : Int) = 32 := rfl
  rw [h32] at hw₁
  set B : Bytes := w₁ ++ w₂ ++ utf8Encode s ++ List.replicate k 0 with hB
  have hBlt : ∀ b ∈ B, b < 256 := by
    intro b hb
    simp only [hB, List.mem_append] at hb
    rcases hb with ((hb | hb) | hb) | hb
    · exact hb₁ b hb
    · exact hb₂ b hb
    · exact utf8Encode_lt s b hb
    · rw [List.eq_of_mem_replicate hb]; decide
  have htext : pad32Hex 32 ++ pad32Hex ((utf8Encode s).length : Nat)
      ++ bufferToHex (utf8Encode s) ++ List.replicate (2 * k) '0' = bufferToHex B := by
    simp only [hB, bufferToHex_append, hw₁, hw₂, bufferToHex_replicate_zero]
  rw [htext]
  have hclean : (if startsWith (pre ++ bufferToHex B) ['0', 'x'] then
      (pre ++ bufferToHex B).drop 2 else pre ++ bufferToHex B) = bufferToHex B := by
    rcases hpre with rfl | rfl
    · simp [isLowerHex_not_startsWith_0x _ (bufferToHex_isLowerHex B hBlt)]
    · simp [startsWith, List.isPrefixOf]
  have hlen : ¬ B.length < 64 := by
    simp only [hB, List.length_append, hl₁, hl₂]
    omega
  have hs1 : subarray B 0 32 = w₁ := by
    have := subarray_append_middle [] w₁ (w₂ ++ utf8Encode s ++ List.replicate k 0)
    simpa [hB, hl₁, List.append_assoc] using this
  have hs2 : subarray B 32 (32 + 32) = w₂ := by
    have := subarray_append_middle w₁ w₂ (utf8Encode s ++ List.replicate k 0)
    simpa [hB, hl₁, hl₂, List.append_assoc] using this
  have hs3 : subarray B (32 + 32) (32 + 32 + (utf8Encode s).length) = utf8Encode s := by
    have := subarray_append_middle (w₁ ++ w₂) (utf8Encode s) (List.replicate k 0)
    simpa [hB, hl₁, hl₂, List.append_assoc] using this
  unfold decodeString
  simp only [hclean, bufferFromHex_bufferToHex B hBlt, if_neg hlen, hs1, hw₁]
  have e1 := stringToBigInt_pad32Hex 32 (by norm_num)
  rw [h32] at e1
  simp only [e1, show ((32 : Int) = 0) = False by simp, if_false,
    show (32 : Int).toNat = 32 by rfl, hs2, hw₂, stringToBigInt_pad32Hex _ hL, Int.toNat_ofNat,
    hs3, bufferToUtf8_utf8Encode]

/-- The text `hello` behind `0x`, followed by 27 zero bytes. -/
theorem decodeString_abi_string_witness :
    decodeString ("0x".toList ++ (pad32Hex 32 ++ pad32Hex ((utf8Encode "hello".toList).length : Nat)
        ++ bufferToHex (utf8Encode "hello".toList) ++ List.replicate (2 * 27) '0'))
      = .ok "hello".toList :=
  decodeString_abi_string "hello".toList 27 (by decide) "0x".toList (Or.inr rfl)

theorem hexVal_lt (c : Char) (d : Nat) (h : hexVal c = some d) : d < 16 := by
  unfold hexVal at h
  simp only at h
  split_ifs at h <;> simp only [Option.some.injEq] at h <;> omega

theorem unhex_lt (byte d : Nat) (h : unhex byte = some d) : d < 16 := by
  unfold unhex at h
  split_ifs at h <;> simp only [Option.some.injEq] at h <;> omega

theorem hexDecode_lt_aux (n : Nat) :
    ∀ t : List Nat, t.length ≤ n → ∀ b ∈ hexDecode t, b < 256 := by
  induction n using Nat.strong_induction_on with
  | _ n ih =>
    intro t ht b hb
    match t, ht, hb with
    | [], _, hb => simp [hexDecode] at hb
    | [_], _, hb => simp [hexDecode] at hb
    | u₁ :: u₂ :: rest, ht, hb =>
      simp only [hexDecode] at hb
      cases h₁ : unhex (u₁ % 256) with
      | none => rw [h₁] at hb; simp at hb
      | some h =>
        cases h₂ : unhex (u₂ % 256) with
        | none => rw [h₁, h₂] at hb; simp at hb
        | some l =>
          rw [h₁, h₂] at hb
          simp only [List.mem_cons] at hb
          rcases hb with rfl | hb
          · have := unhex_lt _ h h₁
            have := unhex_lt _ l h₂
            omega
          · simp only [List.length_cons] at ht
            exact ih (n - 2) (by omega) rest (by omega) b hb

theorem bufferFromHex_lt (t : Str) : ∀ b ∈ bufferFromHex t, b < 256 :=
  hexDecode_lt_aux _ _ (le_refl _)

theorem parseDigits_isLowerHex (t : Str) (h : IsLowerHex t) (acc : Nat) :
    ∃ v, parseDigits 16 t acc = some v := by
  induction t generalizing acc with
  | nil => exact ⟨acc, rfl⟩
  | cons c cs ih =>
    obtain ⟨d, hd, rfl⟩ := h c (List.mem_cons_self _ _)
    simp only [parseDigits, digitVal_hexChar d hd]
    exact ih (fun x hx => h x (List.mem_cons_of_mem _ hx)) _

/-- A non-empty buffer prints as a hex literal that `BigInt` accepts. -/
theorem stringToBigInt_bufferToHex (bs : Bytes) (hne : bs ≠ []) (hlt : ∀ b ∈ bs, b < 256) :
    ∃ v : Nat, stringToBigInt ('0' :: 'x' :: bufferToHex bs) = .ok (v : Int) := by
  have hh := bufferToHex_isLowerHex bs hlt
  obtain ⟨v, hv⟩ := parseDigits_isLowerHex _ hh 0
  have hne' : bufferToHex bs ≠ [] := by
    cases bs with
    | nil => exact absurd rfl hne
    | cons b bs => simp [bufferToHex]
  refine ⟨v, ?_⟩
  rw [stringToBigInt_hex _ hh]
  simp [parseNat, hne', hv, Except.map]

theorem subarray_mem (buf : Bytes) (s e : Nat) : ∀ b ∈ subarray buf s e, b ∈ buf := by
  intro b hb
  exact List.mem_of_mem_take (List.mem_of_mem_drop hb)

theorem subarray_eq_nil_iff (buf : Bytes) (s : Nat) :
    subarray buf s (s + 32) = [] ↔ buf.length ≤ s := by
  unfold subarray
  rw [List.drop_eq_nil_iff, List.length_take]
  omega

/-- The only failure of `decodeString`: on a buffer of at least 64 bytes it
raises exactly when the offset (32 when the offset word is zero) is at or
beyond the end of the buffer; in every other case it returns a text. -/
theorem decodeString_error_iff (hex : Str) :
    (∃ e, decodeString hex = .error e)
      ↔ 64 ≤ (bufferFromHex (if startsWith hex ['0', 'x'] then hex.drop 2 else hex)).length
        ∧ ∃ w : Int,
            stringToBigInt ('0' :: 'x' :: bufferToHex (subarray
              (bufferFromHex (if startsWith hex ['0', 'x'] then hex.drop 2 else hex)) 0 32))
              = .ok w
            ∧ (bufferFromHex (if startsWith hex ['0', 'x'] then hex.drop 2 else hex)).length
                ≤ (if w = 0 then 32 else w.toNat) := by
  have hlt := bufferFromHex_lt (if startsWith hex ['0', 'x'] then hex.drop 2 else hex)
  unfold decodeString
  simp only
  generalize bufferFromHex (if startsWith hex ['0', 'x'] then hex.drop 2 else hex) = buf
    at hlt ⊢
  by_cases hlen : buf.length < 64
  · rw [if_pos hlen]
    constructor
    · rintro ⟨e, he⟩
      cases he
    · rintro ⟨h64, _⟩
      omega
  · rw [if_neg hlen]
    have hne₁ : subarray buf 0 32 ≠ [] := by
      intro h0
      have := (subarray_eq_nil_iff buf 0).mp (by simpa using h0)
      omega
    obtain ⟨v, hv⟩ := stringToBigInt_bufferToHex (subarray buf 0 32) hne₁
      (fun b hb => hlt b (subarray_mem buf 0 32 b hb))
    rw [hv]
    simp only
    by_cases hfar : buf.length ≤ (if (v : Int) = 0 then 32 else (v : Int).toNat)
    · have hnil := (subarray_eq_nil_iff buf _).mpr hfar
      rw [hnil]
      have hbad : stringToBigInt ('0' :: 'x' :: bufferToHex []) = .error .syntaxError := by
        decide
      rw [hbad]
      exact ⟨fun _ => ⟨by omega, v, rfl, hfar⟩, fun _ => ⟨_, rfl⟩⟩
    · have hne₂ : subarray buf (if (v : Int) = 0 then 32 else (v : Int).toNat)
          ((if (v : Int) = 0 then 32 else (v : Int).toNat) + 32) ≠ [] := by
        intro h0
        exact hfar ((subarray_eq_nil_iff buf _).mp h0)
      obtain ⟨l, hl⟩ := stringToBigInt_bufferToHex _ hne₂
        (fun b hb => hlt b (subarray_mem buf _ _ b hb))
      rw [hl]
      constructor
      · rintro ⟨e, he⟩
        cases he
      · rintro ⟨_, w, hw, hle⟩
        cases hw
        exact absurd hle hfar

/-- C3: on a 64-byte buffer whose offset word is 64, the offset points at the
end of the buffer and `decodeString` raises a `SyntaxError` instead of
returning a text, with or without the leading `0x`. -/
theorem decodeString_offset_at_end_throws :
    decodeString (pad32Hex 64 ++ pad32Hex 0) = .error .syntaxError
      ∧ decodeString ('0' :: 'x' :: (pad32Hex 64 ++ pad32Hex 0)) = .error .syntaxError := by
  decide


set_option maxRecDepth 100000 in
/-- The hex decoder reads the low byte of a code unit: the character U+0130
counts as the digit `0`, so that this text is a 64-byte buffer whose offset
word is 64, on which `decodeString` raises. -/
theorem decodeString_low_byte_digit :
    bufferFromHex [Char.ofNat 0x130, '1'] = [1]
      ∧ decodeString (Char.ofNat 0x130 :: (List.replicate 61 '0' ++ ['4', '0']
          ++ List.replicate 64 '0')) = .error .syntaxError := by
  decide

/-! ## Lemmas on doubles -/

theorem bitLengthAux_zero (fuel : Nat) : bitLengthAux fuel 0 = 0 := by
  cases fuel <;> simp [bitLengthAux]

theorem bitLengthAux_spec (fuel : Nat) :
    ∀ n : Nat, n ≤ fuel →
      n < 2 ^ bitLengthAux fuel n ∧ (0 < n → 2 ^ (bitLengthAux fuel n - 1) ≤ n) := by
  induction fuel with
  | zero =>
    intro n h
    have h0 : n = 0 := by omega
    subst h0
    simp [bitLengthAux]
  | succ f ih =>
    intro n h
    by_cases h0 : n = 0
    · subst h0
      simp [bitLengthAux]
    · obtain ⟨h1, h2⟩ := ih (n / 2) (by omega)
      simp only [bitLengthAux, h0, if_false, Nat.add_sub_cancel]
      constructor
      · rw [pow_succ]
        omega
      · intro _
        by_cases hhalf : n / 2 = 0
        · rw [hhalf, bitLengthAux_zero]
          simp
          omega
        · have h3 := h2 (by omega)
          have hk : 0 < bitLengthAux f (n / 2) := by
            by_contra hk
            have : bitLengthAux f (n / 2) = 0 := by omega
            rw [this] at h1
            simp at h1
            exact hhalf h1
          obtain ⟨k, hk'⟩ : ∃ k, bitLengthAux f (n / 2) = k + 1 := ⟨_, (Nat.succ_pred_eq_of_pos hk).symm⟩
          rw [hk'] at h3 ⊢
          simp only [Nat.add_sub_cancel] at h3
          rw [pow_succ]
          omega

/-- The bit length `k` of `n > 0` satisfies `2^(k-1) ≤ n < 2^k`. -/
theorem bitLength_spec (n : Nat) :
    n < 2 ^ bitLength n ∧ (0 < n → 2 ^ (bitLength n - 1) ≤ n) :=
  bitLengthAux_spec n n (le_refl n)

theorem bitLength_pos (n : Nat) (h : 0 < n) : 0 < bitLength n := by
  by_contra hk
  have h0 : bitLength n = 0 := by omega
  have := (bitLength_spec n).1
  rw [h0] at this
  simp at this
  omega

theorem roundHalfEven_le (n d N : Nat) (hd : 0 < d) (h : n ≤ N * d) : roundHalfEven n d ≤ N := by
  have hdiv : n / d ≤ N := Nat.div_le_of_le_mul (by rw [Nat.mul_comm]; exact h)
  have hmod := Nat.div_add_mod n d
  have key : 0 < n % d → n / d + 1 ≤ N := by
    intro hr
    by_contra hc
    have hN : N = n / d := by omega
    rw [hN] at h
    have : d * (n / d) = n / d * d := Nat.mul_comm _ _
    omega
  unfold roundHalfEven
  split
  · exact hdiv
  · split
    · exact key (by omega)
    · split
      · exact hdiv
      · exact key (by omega)

theorem roundHalfEven_ge (n d N : Nat) (hd : 0 < d) (h : N * d ≤ n) : N ≤ roundHalfEven n d := by
  have hdiv : N ≤ n / d := (Nat.le_div_iff_mul_le hd).mpr h
  unfold roundHalfEven
  split
  · exact hdiv
  · split
    · omega
    · split
      · exact hdiv
      · omega

theorem roundHalfEven_exact (m d : Nat) (hd : 0 < d) : roundHalfEven (m * d) d = m :=
  le_antisymm (roundHalfEven_le _ _ _ hd (le_refl _)) (roundHalfEven_ge _ _ _ hd (le_refl _))

/-- The last place of a value of at most `2^53` is worth at most 2, and 2
only for `2^53` itself. -/
theorem binaryExponent_le (a b : Nat) (ha : 0 < a) (hb : 0 < b) (h : a ≤ 2 ^ 53 * b) :
    binaryExponent a b ≤ 53 ∧ (binaryExponent a b = 53 → a = 2 ^ 53 * b) := by
  have hla := bitLength_spec a
  have hlb := bitLength_spec b
  have hpa := bitLength_pos a ha
  have hpb := bitLength_pos b hb
  have hdiff : bitLength a ≤ bitLength b + 53 := by
    by_contra hc
    have h1 : bitLength b + 53 ≤ bitLength a - 1 := by omega
    have h2 : 2 ^ (bitLength b + 53) ≤ 2 ^ (bitLength a - 1) :=
      Nat.pow_le_pow_right (by decide) h1
    have h3 := hla.2 ha
    have h4 : 2 ^ (bitLength b + 53) = 2 ^ 53 * 2 ^ bitLength b := by
      rw [pow_add, Nat.mul_comm]
    have h5 : 2 ^ 53 * b < 2 ^ 53 * 2 ^ bitLength b :=
      (Nat.mul_lt_mul_left (by positivity)).mpr hlb.1
    omega
  unfold binaryExponent
  split
  · rename_i hp
    constructor
    · omega
    · intro he
      rw [he] at hp
      have hp' : b * 2 ^ 53 ≤ a := by
        have h53 : (53 : Int).toNat = 53 := rfl
        simpa [pow2Le, h53] using hp
      have : b * 2 ^ 53 = 2 ^ 53 * b := Nat.mul_comm _ _
      omega
  · constructor
    · omega
    · intro he
      omega

/-- Rounding a positive value of at most `2^53`: the result is finite, and no
integer up to `2^53` lies strictly between the value and its double. -/
theorem nearestDouble_safe (a b : Nat) (ha : 0 < a) (hb : 0 < b) (hx : a ≤ 2 ^ 53 * b) :
    ∃ v : ℚ, nearestDouble a b = some v ∧ 0 ≤ v
      ∧ (∀ N : Nat, N ≤ 2 ^ 53 → a ≤ N * b → v ≤ N)
      ∧ (∀ N : Nat, N * b ≤ a → (N : ℚ) ≤ v) := by
  obtain ⟨he, he53⟩ := binaryExponent_le a b ha hb hx
  unfold nearestDouble
  simp only
  generalize hs : max (binaryExponent a b) (-1022) - 52 = s
  have hs1 : s ≤ 1 := by
    rw [← hs]
    have : max (binaryExponent a b) (-1022) ≤ 53 := max_le he (by decide)
    omega
  by_cases hpos : 0 ≤ s
  · rw [if_pos hpos]
    have hcases : s = 0 ∨ s = 1 := by omega
    have hno : ¬ (971 < s ∨ s = 971 ∧ 2 ^ 53 ≤ roundHalfEven a (b * 2 ^ s.toNat)) := by
      rintro (h | ⟨h, _⟩) <;> omega
    rw [if_neg hno]
    refine ⟨_, rfl, by positivity, ?_, ?_⟩
    · rcases hcases with rfl | rfl
      · intro N _ hN
        have := roundHalfEven_le a (b * 2 ^ (0 : Int).toNat) N (by simpa using hb)
          (by simpa using hN)
        simp only [Int.toNat_zero, pow_zero, Nat.mul_one] at this ⊢
        exact_mod_cast this
      · intro N hN53 hN
        have he' : binaryExponent a b = 53 := by
          have : max (binaryExponent a b) (-1022) = 53 := by omega
          rcases max_choice (binaryExponent a b) (-1022) with h | h
          · rw [h] at this; exact this
          · rw [h] at this; omega
        have ha' := he53 he'
        have h1 : (1 : Int).toNat = 1 := rfl
        have hm : roundHalfEven a (b * 2 ^ (1 : Int).toNat) = 2 ^ 52 := by
          rw [h1, ha']
          have : 2 ^ 53 * b = 2 ^ 52 * (b * 2 ^ 1) := by ring
          rw [this]
          exact roundHalfEven_exact _ _ (by positivity)
        rw [hm, h1]
        have hNb : 2 ^ 53 * b ≤ N * b := by rw [← ha']; exact hN
        have hN' : 2 ^ 53 ≤ N := Nat.le_of_mul_le_mul_right hNb hb
        have : N = 2 ^ 53 := le_antisymm hN53 hN'
        rw [this]
        norm_num
    · rcases hcases with rfl | rfl
      · intro N hN
        have := roundHalfEven_ge a (b * 2 ^ (0 : Int).toNat) N (by simpa using hb)
          (by simpa using hN)
        simp only [Int.toNat_zero, pow_zero, Nat.mul_one] at this ⊢
        exact_mod_cast this
      · intro N hN
        have h1 : (1 : Int).toNat = 1 := rfl
        have := roundHalfEven_ge a (b * 2 ^ (1 : Int).toNat) (N / 2) (by rw [h1]; positivity)
          (by
            rw [h1]
            have h2 : N / 2 * (b * 2 ^ 1) = (N / 2 * 2) * b := by ring
            rw [h2]
            exact le_trans (Nat.mul_le_mul_right b (Nat.div_mul_le_self N 2)) hN)
        have he' : binaryExponent a b = 53 := by
          rcases max_choice (binaryExponent a b) (-1022) with h | h
          · rw [h] at hs; omega
          · rw [h] at hs; omega
        have ha' := he53 he'
        have hm : roundHalfEven a (b * 2 ^ (1 : Int).toNat) = 2 ^ 52 := by
          rw [h1, ha']
          have : 2 ^ 53 * b = 2 ^ 52 * (b * 2 ^ 1) := by ring
          rw [this]
          exact roundHalfEven_exact _ _ (by positivity)
        rw [hm, h1]
        have hNb : N * b ≤ 2 ^ 53 * b := by rw [← ha']; exact hN
        have hN' : N ≤ 2 ^ 53 := Nat.le_of_mul_le_mul_right hNb hb
        have : (N : ℚ) ≤ ((2 ^ 53 : Nat) : ℚ) := by exact_mod_cast hN'
        refine le_trans this ?_
        norm_num
  · rw [if_neg hpos]
    have hpow : (0 : ℚ) < ((2 ^ (-s).toNat : Nat) : ℚ) := by positivity
    refine ⟨_, rfl, by positivity, ?_, ?_⟩
    · intro N _ hN
      rw [div_le_iff₀ hpow]
      have := roundHalfEven_le (a * 2 ^ (-s).toNat) b (N * 2 ^ (-s).toNat) hb
        (by
          have : N * 2 ^ (-s).toNat * b = N * b * 2 ^ (-s).toNat := by ring
          rw [this]
          exact Nat.mul_le_mul_right _ hN)
      exact_mod_cast this
    · intro N hN
      rw [le_div_iff₀ hpow]
      have := roundHalfEven_ge (a * 2 ^ (-s).toNat) b (N * 2 ^ (-s).toNat) hb
        (by
          have : N * 2 ^ (-s).toNat * b = N * b * 2 ^ (-s).toNat := by ring
          rw [this]
          exact Nat.mul_le_mul_right _ hN)
      exact_mod_cast this

/-- A positive value of at most `2^53` rounds to a finite value, and an
integer bound above the value is a bound above its double. -/
theorem toDouble_le_nat (x : ℚ) (hx : 0 < x) (N : Nat) (hN : N ≤ 2 ^ 53) (h : x ≤ N) :
    ∃ v : ℚ, toDouble x = .fin v ∧ 0 ≤ v ∧ v ≤ N
      ∧ ∀ M : Nat, (M : ℚ) ≤ x → (M : ℚ) ≤ v := by
  have hnum : 0 < x.num := Rat.num_pos.mpr hx
  have hden : 0 < x.den := x.den_pos
  have hxeq : x = (x.num.natAbs : ℚ) / (x.den : ℚ) := by
    have h1 : ((x.num.natAbs : Int) : ℚ) = (x.num : ℚ) := by
      rw [Int.natAbs_of_nonneg hnum.le]
    have h2 : ((x.num.natAbs : Nat) : ℚ) = ((x.num.natAbs : Int) : ℚ) :=
      (Int.cast_natCast _).symm
    rw [h2, h1]
    exact (Rat.num_div_den x).symm
  have hdenq : (0 : ℚ) < (x.den : ℚ) := by exact_mod_cast hden
  have hle : ∀ M : Nat, x ≤ M → x.num.natAbs ≤ M * x.den := by
    intro M hM
    rw [hxeq, div_le_iff₀ hdenq] at hM
    exact_mod_cast hM
  have hge : ∀ M : Nat, (M : ℚ) ≤ x → M * x.den ≤ x.num.natAbs := by
    intro M hM
    rw [hxeq, le_div_iff₀ hdenq] at hM
    exact_mod_cast hM
  have hbig : x.num.natAbs ≤ 2 ^ 53 * x.den := by
    have : x ≤ ((2 ^ 53 : Nat) : ℚ) := le_trans h (by exact_mod_cast hN)
    exact hle (2 ^ 53) this
  obtain ⟨v, hv, hv0, hvle, hvge⟩ := nearestDouble_safe x.num.natAbs x.den
    (Int.natAbs_pos.mpr hnum.ne') hden hbig
  refine ⟨v, ?_, hv0, hvle N hN (hle N h), fun M hM => hvge M (hge M hM)⟩
  unfold toDouble
  rw [if_neg hx.ne', hv]
  simp only [not_lt.mpr hx.le, if_false]

/-- A natural number up to `2^53` is a double. -/
theorem toDouble_nat (n : Nat) (h : n ≤ 2 ^ 53) : toDouble (n : ℚ) = .fin (n : ℚ) := by
  by_cases h0 : n = 0
  · subst h0
    simp [toDouble]
  · have hpos : (0 : ℚ) < (n : ℚ) := by exact_mod_cast Nat.pos_of_ne_zero h0
    obtain ⟨v, hv, _, hle, hge⟩ := toDouble_le_nat (n : ℚ) hpos n h (le_refl _)
    rw [hv, le_antisymm hle (hge n (le_refl _))]

theorem toDouble_neg (x : ℚ) :
    toDouble (-x) = match toDouble x with
      | .fin v => .fin (-v)
      | .inf p => .inf (!p)
      | .nan => .nan := by
  by_cases h0 : x = 0
  · subst h0
    simp [toDouble]
  · have hneg : -x ≠ 0 := neg_ne_zero.mpr h0
    unfold toDouble
    rw [if_neg h0, if_neg hneg]
    have hnum : (-x).num.natAbs = x.num.natAbs := by simp
    have hden : (-x).den = x.den := by simp
    rw [hnum, hden]
    cases nearestDouble x.num.natAbs x.den with
    | none =>
      simp only
      rcases lt_or_gt_of_ne h0 with h | h
      · have h1 : ¬ (0 < x) := not_lt.mpr h.le
        have h2 : 0 < -x := neg_pos.mpr h
        simp [h1, h2]
      · have h1 : ¬ (0 < -x) := by
          rw [neg_pos]
          exact not_lt.mpr h.le
        simp [h, h1]
    | some v =>
      simp only
      rcases lt_or_gt_of_ne h0 with h | h
      · have h1 : ¬ (-x < 0) := by
          rw [neg_lt_zero]
          exact not_lt.mpr h.le
        simp [h, h1]
      · have h1 : ¬ (x < 0) := not_lt.mpr h.le
        have h2 : -x < 0 := neg_lt_zero.mpr h
        simp [h1, h2]

/-- An integer of magnitude up to `2^53` is a double. -/
theorem toDouble_int (n : Int) (h : n.natAbs ≤ 2 ^ 53) : toDouble (n : ℚ) = .fin (n : ℚ) := by
  rcases Int.natAbs_eq n with hn | hn
  · have : (n : ℚ) = ((n.natAbs : Nat) : ℚ) := by
      rw [← Int.cast_natCast]
      exact congrArg _ hn
    rw [this]
    exact toDouble_nat _ h
  · have : (n : ℚ) = -((n.natAbs : Nat) : ℚ) := by
      rw [← Int.cast_natCast, ← Int.cast_neg]
      exact congrArg _ hn
    rw [this, toDouble_neg, toDouble_nat _ h]

theorem bigIntToNumber_safe (n : Int) (h : n.natAbs ≤ 2 ^ 53) :
    bigIntToNumber n = .fin (n : ℚ) :=
  toDouble_int n h

theorem JsNum.add_nat (s l : Nat) (h : s + l ≤ 2 ^ 53) :
    (JsNum.fin (s : ℚ)).add (.fin (l : ℚ)) = .fin ((s + l : Nat) : ℚ) := by
  have := toDouble_nat (s + l) h
  simp only [JsNum.add]
  rw [← this]
  push_cast
  rfl

theorem JsNum.add_fin_one (s : Nat) (h : s + 1 ≤ 2 ^ 53) :
    (JsNum.fin (s : ℚ)).add (.fin 1) = .fin ((s + 1 : Nat) : ℚ) := by
  have := JsNum.add_nat s 1 h
  simpa using this

theorem JsNum.sub_int (x y : Int) (h : (x - y).natAbs ≤ 2 ^ 53) :
    (JsNum.fin (x : ℚ)).sub (.fin (y : ℚ)) = .fin (((x - y : Int)) : ℚ) := by
  have := toDouble_int (x - y) h
  simp only [JsNum.sub]
  rw [← this]
  push_cast
  rfl

theorem JsNum.add_int (x y : Int) (h : (x + y).natAbs ≤ 2 ^ 53) :
    (JsNum.fin (x : ℚ)).add (.fin (y : ℚ)) = .fin (((x + y : Int)) : ℚ) := by
  have := toDouble_int (x + y) h
  simp only [JsNum.add]
  rw [← this]
  push_cast
  rfl

/-! ## Lemmas on Strategy A -/

theorem encodeUint256Hex_num_nat (i : Nat) :
    encodeUint256Hex (.num (.fin (i : ℚ))) = .ok (pad32Hex i) := by
  have : ((i : ℚ)) = (((i : Int)) : ℚ) := by push_cast; rfl
  simp only [encodeUint256Hex]
  rw [this, toBigInt_num_int]
  rfl

theorem encodeUint256Hex_big (b : Int) : encodeUint256Hex (.big b) = .ok (pad32Hex b) := rfl

theorem ethCall_trace (env : Env) (tr : List Req) (c : JsNum) (a d : Str) :
    (ethCall env tr c a d).2 = tr ++ [.ethCall c a d] := by
  unfold ethCall
  split <;> rfl

theorem fetchTokenMetadata_trace (env : Env) (tr : List Req) (u : Str) :
    ∀ x ∈ (fetchTokenMetadata env tr u).2, x ∈ tr ∨ ∃ v, x = .fetch v := by
  intro x hx
  unfold fetchTokenMetadata at hx
  simp only at hx
  split at hx
  · exact Or.inl hx
  · split at hx <;>
    · simp only [List.mem_append, List.mem_singleton] at hx
      rcases hx with hx | hx
      · exact Or.inl hx
      · exact Or.inr ⟨_, hx⟩

theorem recordA_trace (env : Env) (tr : List Req) (c : JsNum) (a : Str) (t : Int) :
    ∀ x ∈ (recordA env tr c a t).2,
      x ∈ tr ∨ (∃ d, x = .ethCall c a (selTokenURI ++ d)) ∨ ∃ u, x = .fetch u := by
  intro x hx
  unfold recordA at hx
  rw [encodeUint256Hex_big] at hx
  simp only at hx
  have hc := ethCall_trace env tr c a (selTokenURI ++ pad32Hex t)
  rcases hcall : ethCall env tr c a (selTokenURI ++ pad32Hex t) with ⟨res, tr₁⟩
  rw [hcall] at hx hc
  simp only at hc
  have base : ∀ y ∈ tr₁, y ∈ tr ∨ (∃ d, y = .ethCall c a (selTokenURI ++ d)) ∨ ∃ u, y = .fetch u := by
    intro y hy
    rw [hc] at hy
    simp only [List.mem_append, List.mem_singleton] at hy
    rcases hy with hy | hy
    · exact Or.inl hy
    · exact Or.inr (Or.inl ⟨_, hy⟩)
  cases res with
  | error e => exact base x hx
  | ok uriHex =>
    simp only at hx
    cases hd : decodeString uriHex with
    | error e => rw [hd] at hx; exact base x hx
    | ok uri =>
      rw [hd] at hx
      simp only at hx
      have hm := fetchTokenMetadata_trace env tr₁ uri
      have : x ∈ (fetchTokenMetadata env tr₁ uri).2 := by
        split at hx <;> exact hx
      rcases hm x this with h | h
      · exact base x h
      · exact Or.inr (Or.inr h)

theorem stepA_trace (env : Env) (tr : List Req) (c : JsNum) (a : Str) (i : Nat) :
    ∀ x ∈ (stepA env tr c a (.fin (i : ℚ))).2, x ∈ tr ∨ IssuedAt c a i x := by
  intro x hx
  unfold stepA at hx
  rw [encodeUint256Hex_num_nat] at hx
  simp only at hx
  have hc := ethCall_trace env tr c a (selTokenByIndex ++ pad32Hex i)
  rcases hcall : ethCall env tr c a (selTokenByIndex ++ pad32Hex i) with ⟨res, tr₁⟩
  rw [hcall] at hx hc
  simp only at hc
  have base : ∀ y ∈ tr₁, y ∈ tr ∨ IssuedAt c a i y := by
    intro y hy
    rw [hc] at hy
    simp only [List.mem_append, List.mem_singleton] at hy
    rcases hy with hy | hy
    · exact Or.inl hy
    · exact Or.inr (Or.inl hy)
  cases res with
  | error e => exact base x hx
  | ok tokenIdHex =>
    simp only at hx
    cases hd : stringToBigInt ('0' :: 'x' :: tokenIdHex.drop 2) with
    | error e => rw [hd] at hx; exact base x hx
    | ok t =>
      rw [hd] at hx
      simp only at hx
      rcases recordA_trace env tr₁ c a t x hx with h | h
      · exact base x h
      · exact Or.inr (Or.inr h)


theorem JsNum.lt_fin (a b : ℚ) : (JsNum.fin a).lt (.fin b) = decide (a < b) := rfl

theorem JsNum.lt_of_le_nat (i k : Nat) (stop : JsNum) (hik : i ≤ k)
    (h : (JsNum.fin (k : ℚ)).lt stop = true) : (JsNum.fin (i : ℚ)).lt stop = true := by
  cases stop with
  | nan => exact h
  | inf p => exact h
  | fin e =>
    simp only [JsNum.lt, decide_eq_true_eq] at h ⊢
    have : (i : ℚ) ≤ k := by exact_mod_cast hik
    linarith

/-- Every request in the history of a run was there at the start or was
issued by the loop body at one of the indexes of the run. -/
theorem runHistory_mem (env : Env) (c : JsNum) (a : Str) (s : Nat) (tr : List Req) (n : Nat) :
    ∀ x ∈ runHistory env c a s tr n, x ∈ tr ∨ ∃ i, s ≤ i ∧ i < s + n ∧ IssuedAt c a i x := by
  induction n with
  | zero => intro x hx; exact Or.inl hx
  | succ n ih =>
    intro x hx
    rcases stepA_trace env (runHistory env c a s tr n) c a (s + n) x hx with h | h
    · rcases ih x h with h | ⟨i, h1, h2, h3⟩
      · exact Or.inl h
      · exact Or.inr ⟨i, h1, by omega, h3⟩
    · exact Or.inr ⟨s + n, by omega, by omega, h⟩

/-- A run of the loop of Strategy A over the indexes `s, ..., s + n - 1`, all
inside the range and all succeeding in the run, after which the loop ends:
at `s + n` the range is left, or the loop body raises. -/
theorem loopA_run (env : Env) (c : JsNum) (a : Str) (stop : JsNum) (s : Nat) (tr : List Req)
    (n : Nat) (hn : s + n ≤ 2 ^ 53) (failAtEnd : Bool)
    (hin : ∀ j, j < n → (JsNum.fin ((s + j : Nat) : ℚ)).lt stop = true
      ∧ ∃ item, (stepA env (runHistory env c a s tr j) c a (.fin ((s + j : Nat) : ℚ))).1
          = .ok item)
    (hend : if failAtEnd then
        ((JsNum.fin ((s + n : Nat) : ℚ)).lt stop = true
          ∧ ∃ e, (stepA env (runHistory env c a s tr n) c a (.fin ((s + n : Nat) : ℚ))).1
              = .error e)
      else (JsNum.fin ((s + n : Nat) : ℚ)).lt stop = false) :
    ∀ (m j fuel : Nat) (items : List Item), j + m = n →
      m + (if failAtEnd then 1 else 0) ≤ fuel →
      ∃ r new, loopA env c a stop fuel (.fin ((s + j : Nat) : ℚ)) items
            (runHistory env c a s tr j) = some r
        ∧ r.enumerableFailed = failAtEnd ∧ r.items = items ++ new
        ∧ List.Forall₂ (RunRecord env c a s tr) (List.range' (s + j) m) new
        ∧ r.trace = runHistory env c a s tr (n + (if failAtEnd then 1 else 0)) := by
  intro m
  induction m with
  | zero =>
    intro j fuel items hj hfuel
    have hjn : j = n := by omega
    subst hjn
    cases failAtEnd with
    | false =>
      simp only [Bool.false_eq_true, if_false] at hend
      refine ⟨⟨items, false, runHistory env c a s tr j⟩, [], ?_, rfl, by simp, by simp, rfl⟩
      cases fuel <;> simp only [loopA, hend, Bool.false_eq_true, if_false]
    | true =>
      simp only [if_true] at hend hfuel
      obtain ⟨hlt, e, he⟩ := hend
      obtain ⟨f, rfl⟩ : ∃ f, fuel = f + 1 := ⟨fuel - 1, by omega⟩
      rcases hstep : stepA env (runHistory env c a s tr j) c a (.fin ((s + j : Nat) : ℚ))
        with ⟨res, tr₁⟩
      rw [hstep] at he
      simp only at he
      subst he
      refine ⟨⟨items, true, tr₁⟩, [], ?_, rfl, by simp, by simp, ?_⟩
      · simp only [loopA, hlt, if_true, hstep]
      · simp only [if_true, runHistory, hstep]
  | succ m ih =>
    intro j fuel items hj hfuel
    obtain ⟨f, rfl⟩ : ∃ f, fuel = f + 1 := ⟨fuel - 1, by omega⟩
    obtain ⟨hlt, item, hitem⟩ := hin j (by omega)
    rcases hstep : stepA env (runHistory env c a s tr j) c a (.fin ((s + j : Nat) : ℚ))
      with ⟨res, tr₁⟩
    rw [hstep] at hitem
    simp only at hitem
    subst hitem
    have hnext : runHistory env c a s tr (j + 1) = tr₁ := by
      simp only [runHistory, hstep]
    obtain ⟨r, new, hr, hflag, hitems, hrel, htrace⟩ :=
      ih (j + 1) f (items ++ [item]) (by omega) (by omega)
    rw [hnext] at hr
    refine ⟨r, item :: new, ?_, hflag, by simp [hitems], ?_, htrace⟩
    · simp only [loopA, hlt, if_true, hstep, JsNum.add_fin_one (s + j) (by omega)]
      exact hr
    · rw [List.range'_succ]
      refine List.Forall₂.cons ?_ hrel
      simp only [RunRecord, Nat.add_sub_cancel_left, hstep]

theorem parseDigits_pad32Hex (n : Nat) : parseDigits 16 (pad32Hex n) 0 = some n := by
  have hs : bigIntToString16 (n : Int) = natToHex n := by simp [bigIntToString16]
  simp only [pad32Hex, padStart, hs]
  rw [parseDigits_replicate_zero, natToHex, parseDigits_natToHexAux n n 0 (lt_sixteen_pow_succ n)]
  simp

theorem pad32Hex_injective (i j : Nat) (h : pad32Hex (i : Int) = pad32Hex (j : Int)) : i = j := by
  have hi := parseDigits_pad32Hex i
  rw [h, parseDigits_pad32Hex j] at hi
  exact (Option.some.inj hi).symm

theorem bigIntToNumber_nat (T : Nat) (hT : T ≤ 2 ^ 53) :
    bigIntToNumber (T : Int) = .fin (T : ℚ) := by
  have := bigIntToNumber_safe (T : Int) (by simpa using hT)
  rw [this, Int.cast_natCast]

theorem stop_eq_fin (q : Query) (T s l : Nat) (hT : T ≤ 2 ^ 53) (hsl : s + l ≤ 2 ^ 53)
    (hstart : effStart q = .fin (s : ℚ)) (hlimit : effLimit q = .fin (l : ℚ)) :
    JsNum.min (bigIntToNumber (T : Int)) ((effStart q).add (effLimit q))
      = .fin ((min T (s + l) : Nat) : ℚ) := by
  rw [hstart, hlimit, JsNum.add_nat s l hsl, bigIntToNumber_nat T hT]
  simp only [JsNum.min, Nat.cast_min]

set_option maxRecDepth 100000 in
unseal Rat.add Rat.sub Rat.mul Rat.inv in
/-- C5, as stated, fails, in two ways.  With a total supply of 2, `start = 0`
and the default limit, every `tokenByIndex` and `tokenURI` call succeeds, and
yet the Strategy A response holds 1 item, not 2: in the first collection the
`tokenByIndex(1)` call returns the empty data `0x`, which `BigInt` rejects;
in the second all return data decodes but the metadata of token 1 has an
object as `image`, on which `ipfsToHttp` raises a `TypeError`. -/
theorem strategyA_all_calls_succeed_one_item :
    ((∀ tr ch ad w,
          (emptyDataAtOne.call tr ch ad (selTokenByIndex ++ w)).isSome
          ∧ (emptyDataAtOne.call tr ch ad (selTokenURI ++ w)).isSome)
        ∧ (tokensEndpoint emptyDataAtOne 50 (.fin 1) demoAddress demoQuery []).map
              (fun r => (r.1.status, r.1.items.length, r.1.total, r.1.fallback))
            = some (200, 1, some (.fin 2), none))
      ∧ ((∀ tr ch ad w,
          ((demoEnv 2 imageObjectAtOne none noLogs).call tr ch ad
            (selTokenByIndex ++ w)).isSome
          ∧ ((demoEnv 2 imageObjectAtOne none noLogs).call tr ch ad
            (selTokenURI ++ w)).isSome)
        ∧ (tokensEndpoint (demoEnv 2 imageObjectAtOne none noLogs) 50 (.fin 1)
            demoAddress demoQuery []).map
              (fun r => (r.1.status, r.1.items.length, r.1.total, r.1.fallback))
            = some (200, 1, some (.fin 2), none)) := by
  refine ⟨⟨fun tr ch ad w => ⟨?_, ?_⟩, ?_⟩, ⟨fun tr ch ad w => ⟨?_, ?_⟩, ?_⟩⟩
  · simp only [emptyDataAtOne]
    split
    · rfl
    · simp [demoEnv, selTokenByIndex, selTotalSupply, startsWith, List.isPrefixOf]
  · simp only [emptyDataAtOne]
    split
    · rfl
    · simp [demoEnv, selTokenByIndex, selTokenURI, selTotalSupply, startsWith, List.isPrefixOf]
  · decide
  · simp [demoEnv, selTokenByIndex, selTotalSupply, startsWith, List.isPrefixOf]
  · simp [demoEnv, selTokenByIndex, selTokenURI, selTotalSupply, startsWith, List.isPrefixOf]
  · decide

/-- C5, amended: in the tokens endpoint, for every total supply `T ≤ 2^53`,
integer start `s ≥ 0` and integer effective limit `l` with `s + l ≤ 2^53`,
when at every index of `s .. min(T, s+l) - 1` the loop body raises nothing in
the run (the `tokenByIndex` and `tokenURI` calls succeed and the token id,
the URI and the image of the metadata decode), and the fallback is not
entered, the response is 200 with exactly `max(0, min(T, s+l) - s)` items,
the records of the indexes `s, s+1, ...` in that order, and `total = T`,
without a fallback marker. -/
theorem strategyA_pagination (env : Env) (fuel : Nat) (c : JsNum) (a : Str) (q : Query)
    (tr tr₁ : List Req) (totalHex : Str) (T s l : Nat)
    (htotal : ethCall env tr c a selTotalSupply = (.ok totalHex, tr₁))
    (hdec : decodeUint256 totalHex = .ok (T : Int))
    (hT : T ≤ 2 ^ 53) (hsl : s + l ≤ 2 ^ 53)
    (hstart : effStart q = .fin (s : ℚ)) (hlimit : effLimit q = .fin (l : ℚ))
    (hsteps : ∀ i, s ≤ i → i < min T (s + l) → ∃ item, RunRecord env c a s tr₁ i item)
    (hfuel : min T (s + l) - s ≤ fuel)
    (hA : ¬ (min T (s + l) ≤ s ∧ q.scan = some ['1'])) :
    ∃ items trace, tokensEndpoint env fuel c a q tr
        = some (⟨200, .tokens items (.fin (T : ℚ)) none⟩, trace)
      ∧ items.length = min T (s + l) - s
      ∧ List.Forall₂ (RunRecord env c a s tr₁) (List.range' s (min T (s + l) - s)) items := by
  obtain ⟨r, new, hr, hflag, hitems, hrel, -⟩ :=
    loopA_run env c a (.fin ((min T (s + l) : Nat) : ℚ)) s tr₁ (min T (s + l) - s)
      (by omega) false
      (fun j hj => ⟨by
          simp only [JsNum.lt, decide_eq_true_eq]
          exact_mod_cast (by omega : s + j < min T (s + l)),
        by
          have := hsteps (s + j) (by omega) (by omega)
          simpa only [RunRecord, Nat.add_sub_cancel_left] using this⟩)
      (by
        simp only [Bool.false_eq_true, if_false, JsNum.lt, decide_eq_false_iff_not, not_lt]
        exact_mod_cast (by omega : min T (s + l) ≤ s + (min T (s + l) - s)))
      (min T (s + l) - s) 0 fuel [] (by omega) (by simpa using hfuel)
  simp only [List.nil_append, Nat.add_zero] at hitems hrel hr
  have hlen : r.items.length = min T (s + l) - s := by
    rw [hitems, ← List.Forall₂.length_eq hrel, List.length_range']
  refine ⟨r.items, r.trace, ?_, hlen, hitems ▸ hrel⟩
  unfold tokensEndpoint
  simp only [htotal, hdec, stop_eq_fin q T s l hT hsl hstart hlimit]
  have hr' : loopA env c a (.fin ((min T (s + l) : Nat) : ℚ)) fuel (.fin (s : ℚ)) [] tr₁
      = some r := hr
  rw [hstart, hr']
  have hcond : (r.items.length = 0 && (r.enumerableFailed || q.scan == some ['1'])) = false := by
    rw [hflag, hlen]
    simp only [Bool.false_or, Bool.and_eq_false_imp, decide_eq_true_eq, beq_eq_false_iff_ne]
    intro h0 hscan
    exact hA ⟨by omega, hscan⟩
  simp only [hcond, Bool.false_eq_true, if_false, bigIntToNumber_nat T hT]

theorem demoEnv_stepA_ok (total : Nat) (i : Nat) (hi : i < 10) (tr : List Req) :
    ∃ item, (stepA (demoEnv total plainMeta none noLogs) tr (.fin 1) demoAddress
      (.fin (i : ℚ))).1 = .ok item := by
  interval_cases i <;> exact ⟨_, rfl⟩

set_option maxRecDepth 100000 in
unseal Rat.add Rat.sub Rat.mul Rat.inv in
/-- Ten tokens, `start = 0`, the default limit 24: ten items and `total = 10`. -/
theorem strategyA_pagination_witness :
    ∃ items trace, tokensEndpoint (demoEnv 10 plainMeta none noLogs) 50 (.fin 1) demoAddress
        demoQuery [] = some (⟨200, .tokens items (.fin ((10 : Nat) : ℚ)) none⟩, trace)
      ∧ items.length = min 10 (0 + 24) - 0
      ∧ List.Forall₂ (RunRecord (demoEnv 10 plainMeta none noLogs) (.fin 1) demoAddress 0
            [.ethCall (.fin 1) demoAddress selTotalSupply])
          (List.range' 0 (min 10 (0 + 24) - 0)) items :=
  strategyA_pagination (demoEnv 10 plainMeta none noLogs) 50 (.fin 1) demoAddress demoQuery
    [] _ _ 10 0 24 rfl (by decide) (by decide) (by decide)
    (by simp [effStart, demoQuery, JsNum.max])
    (by simp [effLimit, demoQuery, JsNum.max, JsNum.min]; norm_num)
    (fun i _ h2 => demoEnv_stepA_ok 10 i (by omega) _) (by decide) (by decide)

theorem selTokenByIndex_ne_totalSupply (w : Str) : selTokenByIndex ++ w ≠ selTotalSupply := by
  simp [selTokenByIndex, selTotalSupply]

theorem selTokenByIndex_ne_tokenURI (w d : Str) : selTokenByIndex ++ w ≠ selTokenURI ++ d := by
  simp [selTokenByIndex, selTokenURI]

/-- C6, amended: in Strategy A, when `k ≤ 2^53` is the first index of
`[start, end)` at which the loop body raises in the run (a failed
`tokenByIndex` or `tokenURI` call, or a failed decoding), the loop ends there:
the flag `enumerableFailed` is set, the items are exactly the records of the
indexes `start .. k-1` in that order, no `tokenByIndex` call is issued for an
index above `k`, and when `k > start` the response is 200 with that partial
list and no fallback marker. -/
theorem strategyA_stops_at_first_failure (env : Env) (fuel : Nat) (c : JsNum) (a : Str)
    (q : Query) (tr₁ : List Req) (totalHex : Str) (T : Int) (s k : Nat)
    (htotal : ethCall env [] c a selTotalSupply = (.ok totalHex, tr₁))
    (hdec : decodeUint256 totalHex = .ok T)
    (hstart : effStart q = .fin (s : ℚ))
    (hsk : s ≤ k) (hk : k ≤ 2 ^ 53)
    (hke : (JsNum.fin (k : ℚ)).lt
      (JsNum.min (bigIntToNumber T) ((effStart q).add (effLimit q))) = true)
    (hbefore : ∀ i, s ≤ i → i < k → ∃ item, RunRecord env c a s tr₁ i item)
    (hfail : RunFails env c a s tr₁ k)
    (hfuel : k - s < fuel) :
    ∃ r, loopA env c a (JsNum.min (bigIntToNumber T) ((effStart q).add (effLimit q))) fuel
          (.fin (s : ℚ)) [] tr₁ = some r
      ∧ r.enumerableFailed = true
      ∧ r.items.length = k - s
      ∧ List.Forall₂ (RunRecord env c a s tr₁) (List.range' s (k - s)) r.items
      ∧ (∀ j : Nat, k < j → Req.ethCall c a (selTokenByIndex ++ pad32Hex j) ∉ r.trace)
      ∧ (s < k → tokensEndpoint env fuel c a q []
          = some (⟨200, .tokens r.items (bigIntToNumber T) none⟩, r.trace)) := by
  have hks : s + (k - s) = k := by omega
  obtain ⟨r, new, hr, hflag, hitems, hrel, htrace⟩ :=
    loopA_run env c a (JsNum.min (bigIntToNumber T) ((effStart q).add (effLimit q))) s tr₁
      (k - s) (by omega) true
      (fun j hj => ⟨JsNum.lt_of_le_nat (s + j) k _ (by omega) hke, by
          have := hbefore (s + j) (by omega) (by omega)
          simpa only [RunRecord, Nat.add_sub_cancel_left] using this⟩)
      (by
        simp only [if_true, hks]
        exact ⟨hke, hfail⟩)
      (k - s) 0 fuel [] (by omega) (by simp only [if_true]; omega)
  simp only [List.nil_append, Nat.add_zero, if_true] at hitems hrel hr htrace
  have hlen : r.items.length = k - s := by
    rw [hitems, ← List.Forall₂.length_eq hrel, List.length_range']
  have hr' : loopA env c a (JsNum.min (bigIntToNumber T) ((effStart q).add (effLimit q))) fuel
      (.fin (s : ℚ)) [] tr₁ = some r := hr
  refine ⟨r, hr', hflag, hlen, hitems ▸ hrel, ?_, ?_⟩
  · intro j hj hmem
    have htr₁ : tr₁ = [] ++ [Req.ethCall c a selTotalSupply] := by
      have := ethCall_trace env [] c a selTotalSupply
      rw [htotal] at this
      exact this
    rw [htrace] at hmem
    rcases runHistory_mem env c a s tr₁ _ _ hmem with h | ⟨i, _, hik, h | ⟨d, h⟩ | ⟨u, h⟩⟩
    · rw [htr₁] at h
      simp only [List.nil_append, List.mem_singleton, Req.ethCall.injEq, true_and] at h
      exact selTokenByIndex_ne_totalSupply _ h
    · simp only [Req.ethCall.injEq, true_and, List.append_cancel_left_eq] at h
      have := pad32Hex_injective j i h
      omega
    · simp only [Req.ethCall.injEq, true_and] at h
      exact selTokenByIndex_ne_tokenURI _ _ h
    · cases h
  · intro hlt
    unfold tokensEndpoint
    simp only [htotal, hdec]
    rw [hstart] at hr' ⊢
    rw [hr']
    have hcond : (r.items.length = 0 && (r.enumerableFailed || q.scan == some ['1'])) = false := by
      rw [hlen]
      simp only [Bool.and_eq_false_imp, decide_eq_true_eq]
      intro h0
      omega
    simp only [hcond, Bool.false_eq_true, if_false]

set_option maxRecDepth 100000 in
unseal Rat.add Rat.sub Rat.mul Rat.inv in
/-- Two tokens, the second of which fails: one item is returned. -/
theorem strategyA_stops_at_first_failure_witness :
    ∃ r, loopA (demoEnv 2 imageObjectAtOne none noLogs) (.fin 1) demoAddress
          (JsNum.min (bigIntToNumber 2) ((effStart demoQuery).add (effLimit demoQuery))) 50
          (.fin ((0 : Nat) : ℚ)) [] [Req.ethCall (.fin 1) demoAddress selTotalSupply] = some r
      ∧ r.enumerableFailed = true
      ∧ r.items.length = 1 - 0
      ∧ List.Forall₂ (RunRecord (demoEnv 2 imageObjectAtOne none noLogs) (.fin 1) demoAddress 0
            [Req.ethCall (.fin 1) demoAddress selTotalSupply])
          (List.range' 0 (1 - 0)) r.items
      ∧ (∀ j : Nat, 1 < j →
          Req.ethCall (.fin 1) demoAddress (selTokenByIndex ++ pad32Hex j) ∉ r.trace)
      ∧ (0 < 1 → tokensEndpoint (demoEnv 2 imageObjectAtOne none noLogs) 50 (.fin 1) demoAddress
          demoQuery [] = some (⟨200, .tokens r.items (bigIntToNumber 2) none⟩, r.trace)) :=
  strategyA_stops_at_first_failure (demoEnv 2 imageObjectAtOne none noLogs) 50 (.fin 1)
    demoAddress demoQuery _ _ 2 0 1 rfl (by decide)
    (by simp [effStart, demoQuery, JsNum.max]) (by decide) (by decide) (by decide)
    (fun i _ h2 => by
      obtain rfl : i = 0 := by omega
      exact ⟨_, rfl⟩)
    ⟨_, rfl⟩ (by decide)

theorem stuckIndexEnv_stepA (tr : List Req) :
    ∃ item, (stepA stuckIndexEnv tr (.fin 1) demoAddress (.fin (2 ^ 53))).1 = .ok item :=
  ⟨_, rfl⟩

set_option maxRecDepth 100000 in
unseal Rat.add Rat.sub Rat.mul Rat.inv in
theorem loopA_stuck (stop : JsNum) (hstop : (JsNum.fin (2 ^ 53)).lt stop = true) :
    ∀ (fuel : Nat) (items : List Item) (tr : List Req),
      loopA stuckIndexEnv (.fin 1) demoAddress stop fuel (.fin (2 ^ 53)) items tr = none := by
  have hadd : (JsNum.fin (2 ^ 53)).add (.fin 1) = .fin (2 ^ 53) := by decide
  intro fuel
  induction fuel with
  | zero =>
    intro items tr
    simp only [loopA, hstop, if_true]
  | succ f ih =>
    intro items tr
    obtain ⟨item, hitem⟩ := stuckIndexEnv_stepA tr
    rcases hstep : stepA stuckIndexEnv tr (.fin 1) demoAddress (.fin (2 ^ 53)) with ⟨res, tr'⟩
    rw [hstep] at hitem
    simp only at hitem
    subst hitem
    simp only [loopA, hstop, if_true, hstep, hadd]
    exact ih _ _

set_option maxRecDepth 100000 in
unseal Rat.add Rat.sub Rat.mul Rat.inv in
/-- C6, as stated, fails from `start = 2^53` on.  In a collection of `2^60`
tokens whose `tokenByIndex` call succeeds for the index `2^53` and fails for
`2^53 + 1`, the request `start=9007199254740992` has the range
`[2^53, 2^53 + 24)` and `2^53 + 1` is the first index that fails; but `i++`
leaves `i = 2^53` unchanged, so the loop body runs for the index `2^53` again
and again, never reaches `2^53 + 1`, and no response is sent. -/
theorem strategyA_index_stuck_at_two_pow_53 :
    (∀ tr, ∃ item, (stepA stuckIndexEnv tr (.fin 1) demoAddress (.fin (2 ^ 53))).1 = .ok item)
      ∧ (∀ tr, stuckIndexEnv.call tr (.fin 1) demoAddress
          (selTokenByIndex ++ pad32Hex (2 ^ 53 + 1)) = none)
      ∧ JsNum.min (bigIntToNumber (2 ^ 60))
          ((effStart bigStartQuery).add (effLimit bigStartQuery)) = .fin (2 ^ 53 + 24)
      ∧ (JsNum.fin (2 ^ 53)).add (.fin 1) = .fin (2 ^ 53)
      ∧ ∀ fuel, handleEvmApi stuckIndexEnv fuel "/api/evm/collection/tokens".toList
          bigStartQuery = none := by
  have hstop : JsNum.min (bigIntToNumber (2 ^ 60))
      ((effStart bigStartQuery).add (effLimit bigStartQuery)) = .fin (2 ^ 53 + 24) := by
    decide
  refine ⟨stuckIndexEnv_stepA, fun _ => rfl, hstop, by decide, fun fuel => ?_⟩
  have hcall : ethCall stuckIndexEnv [] (.fin 1) demoAddress selTotalSupply
      = (.ok ('0' :: 'x' :: pad32Hex (2 ^ 60)),
          [.ethCall (.fin 1) demoAddress selTotalSupply]) := by
    decide
  have hdec : decodeUint256 ('0' :: 'x' :: pad32Hex (2 ^ 60)) = .ok (2 ^ 60) := by decide
  have hstart : effStart bigStartQuery = .fin (2 ^ 53) := by decide
  have haddr : toLowerCase (bigStartQuery.address.getD []) = demoAddress := by decide
  have hvalid : isHexAddress demoAddress = true := by decide
  have hc : bigStartQuery.chainId.getD (.fin 1) = .fin 1 := rfl
  have hchain : supportedChain (.fin 1) = true := by decide
  have hne : ¬ ("/api/evm/collection/tokens".toList = "/api/evm/collection/info".toList) := by
    decide
  have hloop := loopA_stuck (.fin (2 ^ 53 + 24)) (by decide) fuel []
    [.ethCall (.fin 1) demoAddress selTotalSupply]
  unfold handleEvmApi
  simp only [hc, hchain, haddr, hvalid, hne, Bool.not_true, Bool.false_eq_true, if_false, if_true]
  unfold tokensEndpoint
  simp only [hcall, hdec, hstop]
  rw [hstart, hloop]

/-! ## Lemmas on histories -/

theorem ExtendsByReads.refl (tr : List Req) : ExtendsByReads tr tr :=
  ⟨[], by simp, by simp⟩

theorem ExtendsByReads.trans {t₁ t₂ t₃ : List Req} (h₁ : ExtendsByReads t₁ t₂)
    (h₂ : ExtendsByReads t₂ t₃) : ExtendsByReads t₁ t₃ := by
  obtain ⟨e₁, rfl, he₁⟩ := h₁
  obtain ⟨e₂, rfl, he₂⟩ := h₂
  refine ⟨e₁ ++ e₂, by simp, ?_⟩
  intro x hx
  rcases List.mem_append.mp hx with h | h
  · exact he₁ x h
  · exact he₂ x h

theorem ExtendsByReads.snoc (tr : List Req) (x : Req) (hx : x.isRead = true) :
    ExtendsByReads tr (tr ++ [x]) :=
  ⟨[x], rfl, by simpa using hx⟩

theorem ExtendsByReads.countGetLogs_eq {tr tr' : List Req} (h : ExtendsByReads tr tr') :
    countGetLogs tr' = countGetLogs tr := by
  obtain ⟨ext, rfl, hext⟩ := h
  have : ext.filter Req.isGetLogs = [] := by
    rw [List.filter_eq_nil_iff]
    intro x hx
    have := hext x hx
    cases x <;> simp_all [Req.isRead, Req.isGetLogs]
  simp [countGetLogs, List.filter_append, this]

theorem ExtendsByReads.mem_iff_of_not_read {tr tr' : List Req} (h : ExtendsByReads tr tr')
    (x : Req) (hx : x.isRead = false) : x ∈ tr' ↔ x ∈ tr := by
  obtain ⟨ext, rfl, hext⟩ := h
  constructor
  · intro hm
    rcases List.mem_append.mp hm with hm | hm
    · exact hm
    · rw [hext x hm] at hx
      cases hx
  · intro hm
    exact List.mem_append_left _ hm

theorem ethCall_extends (env : Env) (tr : List Req) (c : JsNum) (a d : Str) :
    ExtendsByReads tr (ethCall env tr c a d).2 := by
  rw [ethCall_trace]
  exact ExtendsByReads.snoc tr _ rfl

theorem fetchTokenMetadata_extends (env : Env) (tr : List Req) (u : Str) :
    ExtendsByReads tr (fetchTokenMetadata env tr u).2 := by
  unfold fetchTokenMetadata
  simp only
  split
  · exact ExtendsByReads.refl tr
  · split <;> exact ExtendsByReads.snoc tr _ rfl

theorem recordA_extends (env : Env) (tr : List Req) (c : JsNum) (a : Str) (t : Int) :
    ExtendsByReads tr (recordA env tr c a t).2 := by
  unfold recordA
  rw [encodeUint256Hex_big]
  simp only
  have hc := ethCall_extends env tr c a (selTokenURI ++ pad32Hex t)
  generalize ethCall env tr c a (selTokenURI ++ pad32Hex t) = p at hc ⊢
  obtain ⟨res, tr₁⟩ := p
  simp only at hc ⊢
  cases res with
  | error e => exact hc
  | ok uriHex =>
    simp only
    generalize decodeString uriHex = du
    cases du with
    | error e => exact hc
    | ok uri =>
      simp only
      have hm := fetchTokenMetadata_extends env tr₁ uri
      split <;> exact hc.trans hm

theorem recordB_extends (env : Env) (tr : List Req) (c : JsNum) (a : Str) (t : Int)
    (key : Str) : ExtendsByReads tr (recordB env tr c a t key).2 := by
  unfold recordB
  rw [encodeUint256Hex_big]
  simp only
  have hc := ethCall_extends env tr c a (selTokenURI ++ pad32Hex t)
  generalize ethCall env tr c a (selTokenURI ++ pad32Hex t) = p at hc ⊢
  obtain ⟨res, tr₁⟩ := p
  simp only at hc ⊢
  cases res with
  | error e => exact hc
  | ok uriHex =>
    simp only
    generalize decodeString uriHex = du
    cases du with
    | error e => exact hc
    | ok uri =>
      simp only
      have hm := fetchTokenMetadata_extends env tr₁ uri
      split <;> exact hc.trans hm

theorem recordB_id (env : Env) (tr tr' : List Req) (c : JsNum) (a : Str) (t : Int)
    (key : Str) (item : Item) (h : recordB env tr c a t key = (.ok item, tr')) :
    item.id = key := by
  unfold recordB at h
  rw [encodeUint256Hex_big] at h
  simp only at h
  generalize ethCall env tr c a (selTokenURI ++ pad32Hex t) = p at h
  obtain ⟨res, tr₁⟩ := p
  cases res with
  | error e => simp at h
  | ok uriHex =>
    simp only at h
    generalize decodeString uriHex = du at h
    cases du with
    | error e => simp at h
    | ok uri =>
      simp only at h
      split at h
      · simp at h
      · simp only [Prod.mk.injEq, Except.ok.injEq] at h
        rw [← h.1]

theorem stepA_extends (env : Env) (tr : List Req) (c : JsNum) (a : Str) (i : JsNum) :
    ExtendsByReads tr (stepA env tr c a i).2 := by
  unfold stepA
  generalize encodeUint256Hex (.num i) = enc
  cases enc with
  | error e => exact ExtendsByReads.refl tr
  | ok arg =>
    simp only
    have hc := ethCall_extends env tr c a (selTokenByIndex ++ arg)
    generalize ethCall env tr c a (selTokenByIndex ++ arg) = p at hc ⊢
    obtain ⟨res, tr₁⟩ := p
    simp only at hc ⊢
    cases res with
    | error e => exact hc
    | ok tokenIdHex =>
      simp only
      generalize stringToBigInt ('0' :: 'x' :: tokenIdHex.drop 2) = dt
      cases dt with
      | error e => exact hc
      | ok t => exact hc.trans (recordA_extends env tr₁ c a t)

theorem loopA_extends (env : Env) (c : JsNum) (a : Str) (stop : JsNum) (fuel : Nat) :
    ∀ (i : JsNum) (items : List Item) (tr : List Req) (r : EnumResult),
      loopA env c a stop fuel i items tr = some r → ExtendsByReads tr r.trace := by
  induction fuel with
  | zero =>
    intro i items tr r h
    simp only [loopA] at h
    split at h
    · cases h
    · cases h; exact ExtendsByReads.refl tr
  | succ f ih =>
    intro i items tr r h
    simp only [loopA] at h
    split at h
    · have hs := stepA_extends env tr c a i
      generalize stepA env tr c a i = p at hs h
      obtain ⟨res, tr₁⟩ := p
      cases res with
      | error e => simp only [Option.some.injEq] at h; subst h; exact hs
      | ok item => exact hs.trans (ih _ _ _ _ h)
    · cases h; exact ExtendsByReads.refl tr

/-! ## Lemmas on Strategy B -/

theorem JsNum.ge_ofNat_fin (n : Nat) (y : ℚ) :
    (JsNum.ofNat n).ge (.fin y) = decide (y ≤ (n : ℚ)) := rfl

theorem JsNum.lt_ofNat_fin (n : Nat) (y : ℚ) :
    (JsNum.ofNat n).lt (.fin y) = decide ((n : ℚ) < y) := rfl

theorem JsNum.lt_nan (x : JsNum) : x.lt .nan = false := by
  cases x <;> rfl

/-- One window of logs: the history grows by reads only, the invariant is
kept, and entered below the limit the scan leaves less than one item above
it. -/
theorem scanLogs_spec (env : Env) (c : JsNum) (a : Str) (limit : JsNum) (logs : List Log) :
    ∀ st : ScanState,
      ExtendsByReads st.trace (scanLogs env c a limit logs st).trace
        ∧ (ScanInv st → ScanInv (scanLogs env c a limit logs st))
        ∧ (∀ y, limit = .fin y → (st.items.length : ℚ) < y →
            ((scanLogs env c a limit logs st).items.length : ℚ) < y + 1) := by
  induction logs with
  | nil =>
    intro st
    refine ⟨ExtendsByReads.refl _, fun h => h, fun y _ h => ?_⟩
    simp only [scanLogs]
    linarith
  | cons log rest ih =>
    intro st
    have keep : ExtendsByReads st.trace st.trace ∧ (ScanInv st → ScanInv st)
        ∧ (∀ y, limit = .fin y → (st.items.length : ℚ) < y →
            (st.items.length : ℚ) < y + 1) :=
      ⟨ExtendsByReads.refl _, fun h => h, fun y _ h => by linarith⟩
    simp only [scanLogs]
    split
    · exact ih st
    · rename_i idHex _
      split
      · exact ih st
      · generalize stringToBigInt idHex = parsed
        cases parsed with
        | error e => exact keep
        | ok tokenId =>
          simp only
          split
          · exact ih st
          · rename_i hnew
            have hext := recordB_extends env st.trace c a tokenId (bigIntToString tokenId)
            have hid := recordB_id env st.trace
              (recordB env st.trace c a tokenId (bigIntToString tokenId)).2 c a tokenId
              (bigIntToString tokenId)
            generalize recordB env st.trace c a tokenId (bigIntToString tokenId) = p at hext hid ⊢
            obtain ⟨res, tr₁⟩ := p
            have hnotin : bigIntToString tokenId ∉ st.collected := by
              simpa using hnew
            cases res with
            | error e =>
              simp only
              obtain ⟨h1, h2, h3⟩ := ih ⟨bigIntToString tokenId :: st.collected, st.items, tr₁⟩
              refine ⟨hext.trans h1, fun hinv => h2 ⟨hinv.1, fun it hit => ?_⟩, h3⟩
              exact List.mem_cons_of_mem _ (hinv.2 it hit)
            | ok item =>
              simp only
              have hitem : item.id = bigIntToString tokenId := hid item rfl
              have hinv' : ScanInv st → ScanInv
                  ⟨bigIntToString tokenId :: st.collected, st.items ++ [item], tr₁⟩ := by
                intro hinv
                constructor
                · simp only [List.map_append, List.map_cons, List.map_nil]
                  rw [List.nodup_append]
                  refine ⟨hinv.1, by simp, ?_⟩
                  intro x hx hx'
                  simp only [List.mem_singleton] at hx'
                  obtain ⟨it, hit, rfl⟩ := List.mem_map.mp hx
                  apply hnotin
                  rw [← hitem, ← hx']
                  exact hinv.2 it hit
                · intro it hit
                  simp only [List.mem_append, List.mem_singleton] at hit
                  rcases hit with hit | rfl
                  · exact List.mem_cons_of_mem _ (hinv.2 it hit)
                  · rw [hitem]; exact List.mem_cons_self _ _
              split
              · refine ⟨hext, hinv', fun y _ hlt => ?_⟩
                simp only [List.length_append, List.length_singleton, Nat.cast_add, Nat.cast_one]
                linarith
              · rename_i hge
                obtain ⟨h1, h2, h3⟩ :=
                  ih ⟨bigIntToString tokenId :: st.collected, st.items ++ [item], tr₁⟩
                refine ⟨hext.trans h1, fun hinv => h2 (hinv' hinv), fun y hy _ => ?_⟩
                apply h3 y hy
                rw [hy, JsNum.ge_ofNat_fin] at hge
                simpa using hge

/-- The whole scan: the invariant is kept, the old history is a prefix of the
new one, and the number of items stays below the limit plus one. -/
theorem loopB_spec (env : Env) (c : JsNum) (a : Str) (limit latest window maxBack : JsNum)
    (fuel : Nat) :
    ∀ (from_ : JsNum) (st st' : ScanState),
      loopB env c a limit latest window maxBack fuel from_ st = some st' →
      (ScanInv st → ScanInv st')
        ∧ (∃ ext, st'.trace = st.trace ++ ext)
        ∧ (∀ y, limit = .fin y → (st.items.length = 0 ∨ (st.items.length : ℚ) < y + 1) →
            (st'.items.length = 0 ∨ (st'.items.length : ℚ) < y + 1))
        ∧ (limit = .nan → st'.items = st.items) := by
  induction fuel with
  | zero =>
    intro from_ st st' h
    simp only [loopB] at h
    split at h
    · cases h
    · cases h
      exact ⟨fun h => h, ⟨[], by simp⟩, fun _ _ h => h, fun _ => rfl⟩
  | succ f ih =>
    intro from_ st st' h
    simp only [loopB] at h
    split at h
    · rename_i hcond
      simp only [Bool.and_eq_true] at hcond
      have hlim : ∀ y, limit = .fin y → (st.items.length : ℚ) < y := by
        intro y hy
        have := hcond.2
        rw [hy, JsNum.lt_ofNat_fin] at this
        simpa using this
      have hnan : limit ≠ .nan := by
        intro hn
        have := hcond.2
        rw [hn, JsNum.lt_nan] at this
        cases this
      generalize env.getLogs st.trace c a from_ (from_.add window) = answer at h
      cases answer with
      | none =>
        simp only at h
        obtain ⟨h1, ⟨ext, h2⟩, h3, h4⟩ := ih _ _ _ h
        refine ⟨fun hinv => h1 hinv,
          ⟨Req.getLogs c a from_ (from_.add window) :: ext, by rw [h2]; simp⟩,
          fun y hy hp => h3 y hy hp, fun hn => absurd hn hnan⟩
      | some logs =>
        simp only at h
        obtain ⟨h1, ⟨ext, h2⟩, h3, h4⟩ := ih _ _ _ h
        obtain ⟨⟨ext', s1, _⟩, s2, s3⟩ := scanLogs_spec env c a limit logs
          ⟨st.collected, st.items, st.trace ++ [.getLogs c a from_ (from_.add window)]⟩
        refine ⟨fun hinv => h1 (s2 hinv),
          ⟨Req.getLogs c a from_ (from_.add window) :: (ext' ++ ext), ?_⟩, fun y hy _ => ?_,
          fun hn => absurd hn hnan⟩
        · rw [h2, s1]; simp
        · exact h3 y hy (Or.inr (s3 y hy (hlim y hy)))
    · cases h
      exact ⟨fun h => h, ⟨[], by simp⟩, fun _ _ h => h, fun _ => rfl⟩

/-- The number of windows, for a height `L` from 0 to `2^53`, where the block
numbers of the scan are exact: entered at `from_` with
`from_ - (latest - maxBack)` at most `n` windows wide, the scan ends within
`n` rounds and issues at most `n` `eth_getLogs` requests. -/
theorem loopB_count (env : Env) (c : JsNum) (a : Str) (limit : JsNum) (L : Int) (w m : Nat)
    (hL0 : 0 ≤ L) (hL : L ≤ 2 ^ 53) (hw : w ≤ 5000) (hm : m ≤ 200000) :
    ∀ (n fuel : Nat) (from_ : Int) (st : ScanState), n ≤ fuel →
      from_ - (L - m) ≤ n * w → L - m - w ≤ from_ → from_ ≤ L →
      ∃ st', loopB env c a limit (.fin (L : ℚ)) (.fin (w : ℚ)) (.fin (m : ℚ)) fuel
            (.fin (from_ : ℚ)) st = some st'
        ∧ countGetLogs st'.trace ≤ countGetLogs st.trace + n := by
  have hLm : (JsNum.fin (L : ℚ)).sub (.fin (m : ℚ)) = .fin (((L - m : Int)) : ℚ) := by
    have := JsNum.sub_int L (m : Int) (by omega)
    rwa [Int.cast_natCast] at this
  intro n
  induction n with
  | zero =>
    intro fuel from_ st _ hb _ _
    have hcond : ((JsNum.fin (L : ℚ)).sub (.fin (m : ℚ))).lt (.fin (from_ : ℚ)) = false := by
      rw [hLm]
      simp only [JsNum.lt, decide_eq_false_iff_not, not_lt]
      simp only [Nat.cast_zero, zero_mul] at hb
      exact_mod_cast (by omega : from_ ≤ L - m)
    refine ⟨st, ?_, by simp⟩
    cases fuel <;> simp [loopB, hcond]
  | succ n ih =>
    intro fuel from_ st hfuel hb hlow hhigh
    obtain ⟨f, rfl⟩ : ∃ f, fuel = f + 1 := ⟨fuel - 1, by omega⟩
    simp only [loopB]
    split
    · rename_i hcond
      have hgt : L - m < from_ := by
        simp only [Bool.and_eq_true] at hcond
        have := hcond.1
        rw [hLm] at this
        simp only [JsNum.lt, decide_eq_true_eq] at this
        exact_mod_cast this
      have hb' : (from_ - w) - (L - m) ≤ n * w := by
        push_cast at hb
        linarith
      have hsub : (JsNum.fin (from_ : ℚ)).sub (.fin (w : ℚ))
          = .fin (((from_ - w : Int)) : ℚ) := by
        have := JsNum.sub_int from_ (w : Int) (by omega)
        rwa [Int.cast_natCast] at this
      generalize env.getLogs st.trace c a (.fin (from_ : ℚ))
        ((JsNum.fin (from_ : ℚ)).add (.fin (w : ℚ))) = answer
      cases answer with
      | none =>
        simp only [hsub]
        obtain ⟨st', h1, h2⟩ := ih f (from_ - w)
          ⟨st.collected, st.items,
            st.trace ++ [.getLogs c a (.fin (from_ : ℚ))
              ((JsNum.fin (from_ : ℚ)).add (.fin (w : ℚ)))]⟩
          (by omega) hb' (by omega) (by omega)
        refine ⟨st', h1, le_trans h2 ?_⟩
        simp [countGetLogs, List.filter_append, Req.isGetLogs]
        omega
      | some logs =>
        simp only [hsub]
        obtain ⟨hext, _, _⟩ := scanLogs_spec env c a limit logs
          ⟨st.collected, st.items,
            st.trace ++ [.getLogs c a (.fin (from_ : ℚ))
              ((JsNum.fin (from_ : ℚ)).add (.fin (w : ℚ)))]⟩
        obtain ⟨st', h1, h2⟩ := ih f (from_ - w)
          (scanLogs env c a limit logs ⟨st.collected, st.items,
            st.trace ++ [.getLogs c a (.fin (from_ : ℚ))
              ((JsNum.fin (from_ : ℚ)).add (.fin (w : ℚ)))]⟩)
          (by omega) hb' (by omega) (by omega)
        refine ⟨st', h1, le_trans h2 ?_⟩
        rw [hext.countGetLogs_eq]
        simp [countGetLogs, List.filter_append, Req.isGetLogs]
        omega
    · exact ⟨st, rfl, by omega⟩

theorem JsNum.lt_inf_false (x : JsNum) : x.lt (.inf false) = false := by
  cases x <;> simp [JsNum.lt]

/-- The loop of Strategy A does not run when nothing is below the end of the
range. -/
theorem loopA_empty (env : Env) (c : JsNum) (a : Str) (stop : JsNum) (fuel : Nat) (i : JsNum)
    (items : List Item) (tr : List Req) (h : i.lt stop = false) :
    loopA env c a stop fuel i items tr = some ⟨items, false, tr⟩ := by
  cases fuel <;> simp [loopA, h]

theorem loopA_nan_stop (env : Env) (c : JsNum) (a : Str) (fuel : Nat) (i : JsNum)
    (items : List Item) (tr : List Req) :
    loopA env c a .nan fuel i items tr = some ⟨items, false, tr⟩ :=
  loopA_empty env c a .nan fuel i items tr (JsNum.lt_nan i)

theorem loopA_nan_start (env : Env) (c : JsNum) (a : Str) (stop : JsNum) (fuel : Nat)
    (items : List Item) (tr : List Req) :
    loopA env c a stop fuel .nan items tr = some ⟨items, false, tr⟩ :=
  loopA_empty env c a stop fuel .nan items tr rfl

/-- The loop of Strategy A ends within `N` rounds when it starts at an integer
`s` and the end of the range is at most `s + N ≤ 2^53`. -/
theorem loopA_terminates (env : Env) (c : JsNum) (a : Str) (s N : Nat) (hs : s + N ≤ 2 ^ 53)
    (e : ℚ) (he : e ≤ ((s + N : Nat) : ℚ)) :
    ∀ (fuel j : Nat) (items : List Item) (tr : List Req), N ≤ j + fuel → j ≤ N →
      ∃ r, loopA env c a (.fin e) fuel (.fin ((s + j : Nat) : ℚ)) items tr = some r := by
  intro fuel
  induction fuel with
  | zero =>
    intro j items tr hj hjN
    have hjeq : j = N := by omega
    subst hjeq
    exact ⟨_, loopA_empty env c a _ 0 _ items tr
      (by simp only [JsNum.lt, decide_eq_false_iff_not, not_lt]; exact he)⟩
  | succ f ih =>
    intro j items tr hj hjN
    simp only [loopA]
    split
    · rename_i hcond
      have hlt : ((s + j : Nat) : ℚ) < ((s + N : Nat) : ℚ) := by
        simp only [JsNum.lt, decide_eq_true_eq] at hcond
        exact lt_of_lt_of_le hcond he
      have hjlt : j < N := by
        have : s + j < s + N := by exact_mod_cast hlt
        omega
      generalize stepA env tr c a (.fin ((s + j : Nat) : ℚ)) = p
      obtain ⟨res, tr₁⟩ := p
      cases res with
      | error err => exact ⟨_, rfl⟩
      | ok item =>
        simp only
        rw [JsNum.add_fin_one (s + j) (by omega)]
        exact ih (j + 1) _ _ (by omega) (by omega)
    · exact ⟨_, rfl⟩

/-- The effective limit is `NaN` or lies in `[1, 50]`. -/
theorem effLimit_range (q : Query) :
    effLimit q = .nan ∨ ∃ y : ℚ, effLimit q = .fin y ∧ 1 ≤ y ∧ y ≤ 50 := by
  unfold effLimit
  cases q.limit with
  | none =>
    right
    exact ⟨24, by simp [JsNum.max, JsNum.min]; norm_num, by norm_num, by norm_num⟩
  | some v =>
    cases v with
    | nan => left; rfl
    | fin z =>
      right
      refine ⟨min 50 (max 1 z), rfl, ?_, min_le_left _ _⟩
      exact le_min (by norm_num) (le_max_left _ _)
    | inf p =>
      right
      cases p with
      | true => exact ⟨50, rfl, by norm_num, le_refl _⟩
      | false => exact ⟨1, by simp [JsNum.max, JsNum.min], le_refl _, by norm_num⟩

/-- The effective start is `NaN`, non-negative, or `+Infinity`. -/
theorem effStart_range (q : Query) :
    effStart q = .nan ∨ (∃ x : ℚ, effStart q = .fin x ∧ 0 ≤ x) ∨ effStart q = .inf true := by
  unfold effStart
  cases q.start with
  | none => right; left; exact ⟨0, by simp [JsNum.max], le_refl _⟩
  | some v =>
    cases v with
    | nan => left; rfl
    | fin z => right; left; exact ⟨max 0 z, rfl, le_max_left _ _⟩
    | inf p =>
      cases p with
      | true => right; right; rfl
      | false => right; left; exact ⟨0, rfl, le_refl _⟩

/-- The end of the range of Strategy A for an integer start `s` with
`s + 50 ≤ 2^53`: nothing is below it, or it is at most `s + N` for an integer
`N ≤ 50` that is less than the effective limit plus one. -/
theorem stop_range (q : Query) (total : JsNum) (s : Nat) (hs : s + 50 ≤ 2 ^ 53)
    (hstart : effStart q = .fin (s : ℚ)) :
    (∀ i : JsNum, i.lt (JsNum.min total ((effStart q).add (effLimit q))) = false)
      ∨ ∃ (e : ℚ) (N : Nat), JsNum.min total ((effStart q).add (effLimit q)) = .fin e
          ∧ e ≤ ((s + N : Nat) : ℚ) ∧ N ≤ 50 ∧ ∀ y, effLimit q = .fin y → (N : ℚ) < y + 1 := by
  rw [hstart]
  rcases effLimit_range q with hl | ⟨y, hl, hy1, hy50⟩
  · left
    intro i
    rw [hl]
    have : JsNum.min total ((JsNum.fin (s : ℚ)).add .nan) = .nan := by
      cases total <;> rfl
    rw [this]
    exact JsNum.lt_nan i
  · rw [hl]
    have hy0 : (0 : ℚ) ≤ y := by linarith
    have hN50 : ⌈y⌉₊ ≤ 50 := Nat.ceil_le.mpr (by exact_mod_cast hy50)
    have hNy : (⌈y⌉₊ : ℚ) < y + 1 := Nat.ceil_lt_add_one hy0
    obtain ⟨v, hv, _, hvle, _⟩ := toDouble_le_nat ((s : ℚ) + y)
      (by have : (0 : ℚ) ≤ (s : ℚ) := Nat.cast_nonneg s; linarith) (s + ⌈y⌉₊) (by omega)
      (by
        push_cast
        have := Nat.le_ceil y
        linarith)
    have hadd : (JsNum.fin (s : ℚ)).add (.fin y) = .fin v := by
      simp only [JsNum.add, hv]
    rw [hadd]
    cases total with
    | nan =>
      left
      intro i
      exact JsNum.lt_nan i
    | fin t =>
      right
      refine ⟨min t v, ⌈y⌉₊, rfl, le_trans (min_le_right _ _) hvle, hN50, fun y' hy' => ?_⟩
      cases hy'
      exact hNy
    | inf p =>
      cases p with
      | true =>
        right
        refine ⟨v, ⌈y⌉₊, rfl, hvle, hN50, fun y' hy' => ?_⟩
        cases hy'
        exact hNy
      | false =>
        left
        intro i
        exact JsNum.lt_inf_false i

/-- The loop of Strategy A from an integer start `s` collects at most `N`
items when the end of the range is at most `s + N ≤ 2^53`. -/
theorem loopA_length (env : Env) (c : JsNum) (a : Str) (s N : Nat) (hs : s + N ≤ 2 ^ 53)
    (e : ℚ) (he : e ≤ ((s + N : Nat) : ℚ)) (fuel : Nat) :
    ∀ (items : List Item) (tr : List Req) (r : EnumResult),
      loopA env c a (.fin e) fuel (.fin ((s + items.length : Nat) : ℚ)) items tr = some r →
      items.length ≤ N → r.items.length ≤ N := by
  induction fuel with
  | zero =>
    intro items tr r h hp
    simp only [loopA] at h
    split at h
    · cases h
    · cases h; exact hp
  | succ f ih =>
    intro items tr r h hp
    simp only [loopA] at h
    split at h
    · rename_i hcond
      have hlt : ((s + items.length : Nat) : ℚ) < ((s + N : Nat) : ℚ) := by
        simp only [JsNum.lt, decide_eq_true_eq] at hcond
        exact lt_of_lt_of_le hcond he
      have hjlt : items.length < N := by
        have : s + items.length < s + N := by exact_mod_cast hlt
        omega
      generalize stepA env tr c a (.fin ((s + items.length : Nat) : ℚ)) = p at h
      obtain ⟨res, tr₁⟩ := p
      cases res with
      | error err => cases h; exact hp
      | ok item =>
        simp only at h
        rw [JsNum.add_fin_one (s + items.length) (by omega)] at h
        have hlen : s + items.length + 1 = s + (items ++ [item]).length := by simp [Nat.add_assoc]
        rw [hlen] at h
        apply ih _ _ _ h
        simp only [List.length_append, List.length_singleton]
        omega
    · cases h; exact hp

/-- Whether the fallback branch is taken after Strategy A. -/
theorem fallback_condition (r : EnumResult) (q : Query) :
    (r.items.length = 0 && (r.enumerableFailed || q.scan == some ['1'])) = true
      ↔ (r.items = [] ∧ (r.enumerableFailed = true ∨ q.scan = some ['1'])) := by
  simp [List.length_eq_zero]

/-- The shape of a run of the tokens endpoint. -/
theorem tokensEndpoint_cases (env : Env) (fuel : Nat) (c : JsNum) (a : Str) (q : Query)
    (tr : List Req) (resp : Response) (trace : List Req)
    (h : tokensEndpoint env fuel c a q tr = some (resp, trace)) :
    (resp = tokensFailure ∧ ExtendsByReads tr trace)
      ∨ ∃ totalHex tr₁ T r, ethCall env tr c a selTotalSupply = (.ok totalHex, tr₁)
          ∧ decodeUint256 totalHex = .ok T
          ∧ loopA env c a (JsNum.min (bigIntToNumber T) ((effStart q).add (effLimit q))) fuel
              (effStart q) [] tr₁ = some r
          ∧ ((¬ (r.items = [] ∧ (r.enumerableFailed = true ∨ q.scan = some ['1']))
                ∧ resp = ⟨200, .tokens r.items (bigIntToNumber T) none⟩ ∧ trace = r.trace)
              ∨ ((r.items = [] ∧ (r.enumerableFailed = true ∨ q.scan = some ['1']))
                ∧ fallbackScan env fuel c a q r.trace = some (resp, trace))) := by
  unfold tokensEndpoint at h
  have hext := ethCall_extends env tr c a selTotalSupply
  generalize hcall : ethCall env tr c a selTotalSupply = p at h hext
  obtain ⟨res, tr₁⟩ := p
  cases res with
  | error e =>
    simp only [Option.some.injEq, Prod.mk.injEq] at h
    left
    exact ⟨h.1.symm, h.2 ▸ hext⟩
  | ok totalHex =>
    simp only at h
    generalize hdec : decodeUint256 totalHex = dec at h
    cases dec with
    | error e =>
      simp only [Option.some.injEq, Prod.mk.injEq] at h
      left
      exact ⟨h.1.symm, h.2 ▸ hext⟩
    | ok T =>
      simp only at h
      generalize hloop : loopA env c a (JsNum.min (bigIntToNumber T)
        ((effStart q).add (effLimit q))) fuel (effStart q) [] tr₁ = lr at h
      cases lr with
      | none => cases h
      | some r =>
        simp only at h
        right
        refine ⟨totalHex, tr₁, T, r, rfl, hdec, hloop, ?_⟩
        split at h
        · rename_i hc
          exact Or.inr ⟨(fallback_condition r q).mp hc, h⟩
        · rename_i hc
          simp only [Option.some.injEq, Prod.mk.injEq] at h
          exact Or.inl ⟨fun hh => hc ((fallback_condition r q).mpr hh), h.1.symm, h.2.symm⟩

/-- The shape of a run of the fallback branch. -/
theorem fallbackScan_cases (env : Env) (fuel : Nat) (c : JsNum) (a : Str) (q : Query)
    (tr : List Req) (resp : Response) (trace : List Req)
    (h : fallbackScan env fuel c a q tr = some (resp, trace)) :
    (resp = tokensFailure ∧ trace = tr ++ [.blockNumber c]
        ∧ (env.blockNumber tr c = none
          ∨ ∃ latestHex e, env.blockNumber tr c = some latestHex
              ∧ stringToBigInt latestHex = .error e))
      ∨ ∃ latestHex latest st, env.blockNumber tr c = some latestHex
          ∧ stringToBigInt latestHex = .ok latest
          ∧ loopB env c a (effLimit q) (bigIntToNumber latest) (effWindow q) (effMaxBack q) fuel
              ((bigIntToNumber latest).sub (effWindow q)) ⟨[], [], tr ++ [.blockNumber c]⟩
              = some st
          ∧ resp = ⟨200, .tokens st.items (JsNum.ofNat st.items.length) (some "scan".toList)⟩
          ∧ trace = st.trace := by
  unfold fallbackScan at h
  generalize hbn : env.blockNumber tr c = bn at h
  cases bn with
  | none =>
    simp only [Option.some.injEq, Prod.mk.injEq] at h
    exact Or.inl ⟨h.1.symm, h.2.symm, Or.inl rfl⟩
  | some latestHex =>
    simp only at h
    generalize hp : stringToBigInt latestHex = parsed at h
    cases parsed with
    | error e =>
      simp only [Option.some.injEq, Prod.mk.injEq] at h
      exact Or.inl ⟨h.1.symm, h.2.symm, Or.inr ⟨latestHex, e, rfl, hp⟩⟩
    | ok latest =>
      simp only at h
      generalize hl : loopB env c a (effLimit q) (bigIntToNumber latest) (effWindow q)
        (effMaxBack q) fuel ((bigIntToNumber latest).sub (effWindow q))
        ⟨[], [], tr ++ [.blockNumber c]⟩ = lr at h
      cases lr with
      | none => cases h
      | some st =>
        simp only [Option.some.injEq, Prod.mk.injEq] at h
        exact Or.inr ⟨latestHex, latest, st, rfl, hp, hl, h.1.symm, h.2.symm⟩

/-! ## The tokens endpoint -/

set_option maxRecDepth 100000 in
unseal Rat.add Rat.sub Rat.mul Rat.inv in
/-- C7: with a total supply of 0 and `scan=1` Strategy A yields no item and
the fallback is entered (`eth_blockNumber` is requested), but that request
fails and the response is 500, without the marker `fallback = "scan"` that
an entered fallback is to carry. -/
theorem fallback_entered_without_marker :
    (tokensEndpoint (demoEnv 0 plainMeta none noLogs) 50 (.fin 1) demoAddress scanQuery []).map
        (fun r => (r.1.status, r.1.fallback, r.2))
      = some (500, none,
          [.ethCall (.fin 1) demoAddress selTotalSupply, .blockNumber (.fin 1)]) := by
  decide

/-- The selection of the fallback: after Strategy A has returned its result
`r`, the fallback is entered (an `eth_blockNumber` request is issued) if and only if `r` has no
item and either `r` recorded a failure or the request carried `scan=1`.  In
every other case the response is 200 with the items and the total of
Strategy A and no fallback marker.  When the fallback is entered and
`eth_blockNumber` answers with a height that `BigInt` accepts, a response, if
the scan ends, is 200 and carries `fallback = "scan"`. -/
theorem fallback_selection (env : Env) (fuel : Nat) (c : JsNum) (a : Str) (q : Query)
    (tr₁ : List Req) (totalHex : Str) (T : Int) (r : EnumResult)
    (htotal : ethCall env [] c a selTotalSupply = (.ok totalHex, tr₁))
    (hdec : decodeUint256 totalHex = .ok T)
    (hloop : loopA env c a (JsNum.min (bigIntToNumber T) ((effStart q).add (effLimit q))) fuel
      (effStart q) [] tr₁ = some r) :
    (¬ (r.items = [] ∧ (r.enumerableFailed = true ∨ q.scan = some ['1'])) →
        tokensEndpoint env fuel c a q []
            = some (⟨200, .tokens r.items (bigIntToNumber T) none⟩, r.trace)
          ∧ Req.blockNumber c ∉ r.trace)
      ∧ ((r.items = [] ∧ (r.enumerableFailed = true ∨ q.scan = some ['1'])) →
        ∀ resp trace, tokensEndpoint env fuel c a q [] = some (resp, trace) →
          Req.blockNumber c ∈ trace
            ∧ ∀ latestHex latest, env.blockNumber r.trace c = some latestHex →
                stringToBigInt latestHex = .ok latest →
                resp.status = 200 ∧ resp.fallback = some "scan".toList) := by
  have hunfold : tokensEndpoint env fuel c a q []
      = if r.items.length = 0 && (r.enumerableFailed || q.scan == some ['1']) then
          fallbackScan env fuel c a q r.trace
        else some (⟨200, .tokens r.items (bigIntToNumber T) none⟩, r.trace) := by
    unfold tokensEndpoint
    simp only [htotal, hdec, hloop]
  constructor
  · intro hno
    have hc : ¬ ((r.items.length = 0 && (r.enumerableFailed || q.scan == some ['1'])) = true) :=
      fun h => hno ((fallback_condition r q).mp h)
    refine ⟨by rw [hunfold, if_neg hc], ?_⟩
    have h₁ : ExtendsByReads [] tr₁ := by
      have := ethCall_extends env [] c a selTotalSupply
      rwa [htotal] at this
    have h₂ := h₁.trans (loopA_extends env c a _ fuel _ _ _ _ hloop)
    rw [h₂.mem_iff_of_not_read (Req.blockNumber c) rfl]
    simp
  · intro hyes resp trace hresp
    rw [hunfold, if_pos ((fallback_condition r q).mpr hyes)] at hresp
    rcases fallbackScan_cases env fuel c a q r.trace resp trace hresp with
      ⟨_, htrace, hbn⟩ | ⟨latestHex, latest, st, hbn, hparse, hscan, hr, htrace⟩
    · refine ⟨by rw [htrace]; simp, ?_⟩
      intro latestHex latest h1 h2
      rcases hbn with hbn | ⟨lh, e, hbn, hp⟩
      · rw [hbn] at h1; cases h1
      · rw [hbn] at h1
        cases h1
        rw [hp] at h2
        cases h2
    · obtain ⟨_, ⟨ext, hext⟩, _, _⟩ := loopB_spec env c a _ _ _ _ fuel _ _ _ hscan
      refine ⟨by rw [htrace, hext]; simp, fun _ _ _ _ => ?_⟩
      rw [hr]
      exact ⟨rfl, rfl⟩

set_option maxRecDepth 100000 in
unseal Rat.add Rat.sub Rat.mul Rat.inv in
/-- An empty collection scanned with `scan=1` at block height 16. -/
theorem fallback_selection_witness :
    (¬ (([] : List Item) = [] ∧ (false = true ∨ scanQuery.scan = some ['1'])) →
        tokensEndpoint (demoEnv 0 plainMeta (some "0x10".toList) noLogs) 50 (.fin 1) demoAddress
            scanQuery []
          = some (⟨200, .tokens [] (bigIntToNumber 0) none⟩,
              [.ethCall (.fin 1) demoAddress selTotalSupply])
          ∧ Req.blockNumber (.fin 1) ∉ [Req.ethCall (.fin 1) demoAddress selTotalSupply])
      ∧ ((([] : List Item) = [] ∧ (false = true ∨ scanQuery.scan = some ['1'])) →
        ∀ resp trace, tokensEndpoint (demoEnv 0 plainMeta (some "0x10".toList) noLogs) 50 (.fin 1)
            demoAddress scanQuery [] = some (resp, trace) →
          Req.blockNumber (.fin 1) ∈ trace
            ∧ ∀ latestHex latest,
                (demoEnv 0 plainMeta (some "0x10".toList) noLogs).blockNumber
                  [.ethCall (.fin 1) demoAddress selTotalSupply] (.fin 1) = some latestHex →
                stringToBigInt latestHex = .ok latest →
                resp.status = 200 ∧ resp.fallback = some "scan".toList) :=
  fallback_selection (demoEnv 0 plainMeta (some "0x10".toList) noLogs) 50 (.fin 1) demoAddress
    scanQuery [.ethCall (.fin 1) demoAddress selTotalSupply] ('0' :: 'x' :: pad32Hex 0) 0
    ⟨[], false, [.ethCall (.fin 1) demoAddress selTotalSupply]⟩ rfl (by decide) rfl


/-- C8: whatever logs the windows of the scan return, a response that
carries the marker of Strategy B holds at most one record per token id: the
ids of its items are pairwise distinct. -/
theorem fallback_ids_distinct (env : Env) (fuel : Nat) (c : JsNum) (a : Str) (q : Query)
    (tr : List Req) (resp : Response) (trace : List Req)
    (h : tokensEndpoint env fuel c a q tr = some (resp, trace))
    (hfb : resp.fallback = some "scan".toList) :
    (resp.items.map (fun it => it.id)).Nodup := by
  rcases tokensEndpoint_cases env fuel c a q tr resp trace h with
    ⟨hr, _⟩ | ⟨totalHex, tr₁, T, r, _, _, _, ⟨_, hr, _⟩ | ⟨_, hscan⟩⟩
  · rw [hr] at hfb; cases hfb
  · rw [hr] at hfb; cases hfb
  · rcases fallbackScan_cases env fuel c a q r.trace resp trace hscan with
      ⟨hr, _, _⟩ | ⟨latestHex, latest, st, _, _, hloop, hr, _⟩
    · rw [hr] at hfb; cases hfb
    · obtain ⟨hinv, _, _, _⟩ := loopB_spec env c a _ _ _ _ fuel _ _ _ hloop
      rw [hr]
      exact (hinv ⟨List.nodup_nil, fun it hit => by cases hit⟩).1

set_option maxRecDepth 100000 in
unseal Rat.add Rat.sub Rat.mul Rat.inv in
/-- Nineteen windows that each return the ids 7, 7 and 9: the ids returned are 7 and 9. -/
theorem fallback_ids_distinct_witness :
    ∃ resp trace,
      tokensEndpoint (demoEnv 0 plainMeta (some "0x100000".toList) repeatedLogs) 50 (.fin 1)
          demoAddress scanQuery [] = some (resp, trace)
        ∧ resp.items.map (fun it => it.id) = [['7'], ['9']]
        ∧ (resp.items.map (fun it => it.id)).Nodup := by
  have hfacts :
      (tokensEndpoint (demoEnv 0 plainMeta (some "0x100000".toList) repeatedLogs) 50 (.fin 1)
          demoAddress scanQuery []).map
          (fun r => (r.1.fallback, r.1.items.map (fun it => it.id)))
        = some (some "scan".toList, [['7'], ['9']]) := by
    decide
  cases h : tokensEndpoint (demoEnv 0 plainMeta (some "0x100000".toList) repeatedLogs) 50
      (.fin 1) demoAddress scanQuery [] with
  | none =>
    rw [h] at hfacts
    cases hfacts
  | some p =>
    obtain ⟨resp, trace⟩ := p
    rw [h] at hfacts
    simp only [Option.map_some', Option.some.injEq, Prod.mk.injEq] at hfacts
    exact ⟨resp, trace, rfl, hfacts.2,
      fallback_ids_distinct _ 50 (.fin 1) demoAddress scanQuery [] resp trace h hfacts.1⟩

theorem countGetLogs_snoc_blockNumber (tr : List Req) (c : JsNum) :
    countGetLogs (tr ++ [.blockNumber c]) = countGetLogs tr := by
  simp [countGetLogs, List.filter_append, Req.isGetLogs]

/-- The fallback branch with a positive window and a height from 0 to `2^53`:
it ends within `maxBack / window` rounds and issues at most that many
`eth_getLogs` requests. -/
theorem fallbackScan_getLogs_le (env : Env) (c : JsNum) (a : Str) (q : Query) (w m : Nat)
    (hw : 0 < w) (hw' : w ≤ 5000) (hm : m ≤ 200000) (hqw : effWindow q = .fin (w : ℚ))
    (hqm : effMaxBack q = .fin (m : ℚ))
    (hheight : ∀ tr latestHex latest, env.blockNumber tr c = some latestHex →
      stringToBigInt latestHex = .ok latest → 0 ≤ latest ∧ latest ≤ 2 ^ 53)
    (fuel : Nat) (hfuel : m / w ≤ fuel) (tr : List Req) :
    ∃ resp trace, fallbackScan env fuel c a q tr = some (resp, trace)
      ∧ countGetLogs trace ≤ countGetLogs tr + m / w := by
  unfold fallbackScan
  cases hbn : env.blockNumber tr c with
  | none => exact ⟨_, _, rfl, by rw [countGetLogs_snoc_blockNumber]; exact Nat.le_add_right _ _⟩
  | some latestHex =>
    simp only
    cases hparse : stringToBigInt latestHex with
    | error e => exact ⟨_, _, rfl, by rw [countGetLogs_snoc_blockNumber]; exact Nat.le_add_right _ _⟩
    | ok latest =>
      obtain ⟨h0, h53⟩ := hheight tr latestHex latest hbn hparse
      simp only [hqw, hqm]
      have hlat : bigIntToNumber latest = .fin (latest : ℚ) :=
        bigIntToNumber_safe latest (by omega)
      have hsub : (JsNum.fin (latest : ℚ)).sub (.fin (w : ℚ))
          = .fin (((latest - w : Int)) : ℚ) := by
        have := JsNum.sub_int latest (w : Int) (by omega)
        rwa [Int.cast_natCast] at this
      have hbudget : (latest - w) - (latest - (m : Int)) ≤ ((m / w : Nat) : Int) * w := by
        have h1 : m < (m / w + 1) * w := by
          have := Nat.div_add_mod m w
          have := Nat.mod_lt m hw
          nlinarith
        have h2 : (m : Int) < ((m / w : Nat) + 1 : Int) * w := by exact_mod_cast h1
        linarith
      obtain ⟨st, hst, hcount⟩ := loopB_count env c a (effLimit q) latest w m h0 h53 hw' hm
        (m / w) fuel (latest - w) ⟨[], [], tr ++ [.blockNumber c]⟩ hfuel
        (by exact_mod_cast hbudget) (by omega) (by omega)
      rw [hlat, hsub, hst]
      refine ⟨_, _, rfl, ?_⟩
      rw [countGetLogs_snoc_blockNumber] at hcount
      exact hcount

/-- C9, amended: for every answer of the network in which the latest block
height lies between 0 and `2^53` (also when the limit is never reached and
every window is empty or fails), every positive integer effective window
`w ≤ 5000` and every integer effective `maxBack` `m` with `0 ≤ m ≤ 200000`,
the fallback scan, entered with any history, ends within `m / w` rounds and
issues at most `m / w` `eth_getLogs` requests; and the history of every
response of the tokens endpoint holds at most `m / w` such requests. -/
theorem fallback_scan_window_bound (env : Env) (c : JsNum) (a : Str) (q : Query) (w m : Nat)
    (hw : 0 < w) (hw' : w ≤ 5000) (hm : m ≤ 200000) (hqw : effWindow q = .fin (w : ℚ))
    (hqm : effMaxBack q = .fin (m : ℚ))
    (hheight : ∀ tr latestHex latest, env.blockNumber tr c = some latestHex →
      stringToBigInt latestHex = .ok latest → 0 ≤ latest ∧ latest ≤ 2 ^ 53)
    (fuel : Nat) (hfuel : m / w ≤ fuel) :
    (∀ tr, ∃ resp trace, fallbackScan env fuel c a q tr = some (resp, trace)
        ∧ countGetLogs trace ≤ countGetLogs tr + m / w)
      ∧ ∀ resp trace, tokensEndpoint env fuel c a q [] = some (resp, trace) →
          countGetLogs trace ≤ m / w := by
  have hscan := fallbackScan_getLogs_le env c a q w m hw hw' hm hqw hqm hheight fuel hfuel
  refine ⟨hscan, fun resp trace h => ?_⟩
  rcases tokensEndpoint_cases env fuel c a q [] resp trace h with
    ⟨_, hext⟩ | ⟨totalHex, tr₁, T, r, hcall, _, hloop, ⟨_, _, htrace⟩ | ⟨_, hfb⟩⟩
  · rw [hext.countGetLogs_eq]
    exact Nat.zero_le _
  · have h₁ : ExtendsByReads [] tr₁ := by
      have := ethCall_extends env [] c a selTotalSupply
      rwa [hcall] at this
    have h₂ := h₁.trans (loopA_extends env c a _ fuel _ _ _ _ hloop)
    rw [htrace, h₂.countGetLogs_eq]
    exact Nat.zero_le _
  · have h₁ : ExtendsByReads [] tr₁ := by
      have := ethCall_extends env [] c a selTotalSupply
      rwa [hcall] at this
    have h₂ := h₁.trans (loopA_extends env c a _ fuel _ _ _ _ hloop)
    obtain ⟨resp', trace', hresp, hcount⟩ := hscan r.trace
    rw [hfb] at hresp
    simp only [Option.some.injEq, Prod.mk.injEq] at hresp
    rw [hresp.2, h₂.countGetLogs_eq] at *
    simpa [countGetLogs] using hcount

set_option maxRecDepth 100000 in
unseal Rat.add Rat.sub Rat.mul Rat.inv in
/-- The request `scan=1` with the default window 5000 and the default
`maxBack` 100000, at the height `0x100000` with no readable window: at most
20 requests. -/
theorem fallback_scan_window_bound_witness :
    (∀ tr, ∃ resp trace,
        fallbackScan (demoEnv 0 plainMeta (some "0x100000".toList) noLogs) 50 (.fin 1)
          demoAddress scanQuery tr = some (resp, trace)
        ∧ countGetLogs trace ≤ countGetLogs tr + 100000 / 5000)
      ∧ ∀ resp trace,
          tokensEndpoint (demoEnv 0 plainMeta (some "0x100000".toList) noLogs) 50 (.fin 1)
            demoAddress scanQuery [] = some (resp, trace) →
          countGetLogs trace ≤ 100000 / 5000 :=
  fallback_scan_window_bound (demoEnv 0 plainMeta (some "0x100000".toList) noLogs) (.fin 1)
    demoAddress scanQuery 5000 100000 (by decide) (by decide) (by decide) (by decide)
    (by decide)
    (fun tr latestHex latest h1 h2 => by
      have : latestHex = "0x100000".toList := by
        simp only [demoEnv, Option.some.injEq] at h1
        exact h1.symm
      subst this
      have hv : stringToBigInt "0x100000".toList = .ok 1048576 := by decide
      rw [hv] at h2
      cases h2
      decide)
    50 (by decide)

/-- A scan whose window start does not move: when `from - window` gives
`from` back and no window of logs can be read, the loop is still running
after any number of rounds. -/
theorem loopB_never_moves (env : Env) (c : JsNum) (a : Str) (limit : ℚ)
    (latest window maxBack from_ : JsNum)
    (hlogs : ∀ tr x y, env.getLogs tr c a x y = none) (hl : 0 < limit)
    (hfix : from_.sub window = from_) (hcond : (latest.sub maxBack).lt from_ = true) :
    ∀ (fuel : Nat) (st : ScanState), st.items = [] →
      loopB env c a (.fin limit) latest window maxBack fuel from_ st = none := by
  have hboth : ∀ st : ScanState, st.items = [] →
      ((latest.sub maxBack).lt from_ && (JsNum.ofNat st.items.length).lt (.fin limit)) = true := by
    intro st hst
    rw [hcond, hst]
    simp [JsNum.ofNat, JsNum.lt, hl]
  intro fuel
  induction fuel with
  | zero =>
    intro st hst
    simp only [loopB, hboth st hst, if_true]
  | succ f ih =>
    intro st hst
    simp only [loopB, hboth st hst, if_true, hlogs, hfix]
    exact ih _ hst

set_option maxRecDepth 100000 in
unseal Rat.add Rat.sub Rat.mul Rat.inv in
/-- C9, as stated, fails for large heights.  At the block height `2^67`, with
the default window 5000 and the default `maxBack` 100000, `latest - window`
rounds back to `2^67` and `from -= window` leaves `from` unchanged: when no
window of logs can be read, the scan issues `eth_getLogs` requests without
end instead of at most 20, and no response is sent. -/
theorem scan_at_height_two_pow_67_never_ends :
    stringToBigInt "0x80000000000000000".toList = .ok (2 ^ 67)
      ∧ bigIntToNumber (2 ^ 67) = .fin (2 ^ 67)
      ∧ (JsNum.fin (2 ^ 67)).sub (.fin 5000) = .fin (2 ^ 67)
      ∧ ∀ fuel, handleEvmApi (demoEnv 0 plainMeta (some "0x80000000000000000".toList) noLogs)
          fuel "/api/evm/collection/tokens".toList scanQuery = none := by
  have hbig : stringToBigInt "0x80000000000000000".toList = .ok (2 ^ 67) := by decide
  have hlat : bigIntToNumber (2 ^ 67) = .fin (2 ^ 67) := by decide
  have hsub : (JsNum.fin (2 ^ 67)).sub (.fin 5000) = .fin (2 ^ 67) := by decide
  refine ⟨hbig, hlat, hsub, fun fuel => ?_⟩
  have hcall : ethCall (demoEnv 0 plainMeta (some "0x80000000000000000".toList) noLogs) []
      (.fin 1) demoAddress selTotalSupply
      = (.ok ('0' :: 'x' :: pad32Hex 0), [.ethCall (.fin 1) demoAddress selTotalSupply]) := by
    decide
  have hdec : decodeUint256 ('0' :: 'x' :: pad32Hex 0) = .ok 0 := by decide
  have hstart : effStart scanQuery = .fin 0 := by decide
  have hlim : effLimit scanQuery = .fin 24 := by decide
  have hstop : JsNum.min (bigIntToNumber 0) ((JsNum.fin 0).add (.fin 24)) = .fin 0 := by decide
  have hwin : effWindow scanQuery = .fin 5000 := by decide
  have hback : effMaxBack scanQuery = .fin 100000 := by decide
  have haddr : toLowerCase (scanQuery.address.getD []) = demoAddress := by decide
  have hvalid : isHexAddress demoAddress = true := by decide
  have hchain : supportedChain (.fin 1) = true := by decide
  have hc : scanQuery.chainId.getD (.fin 1) = .fin 1 := rfl
  have hne : ¬ ("/api/evm/collection/tokens".toList = "/api/evm/collection/info".toList) := by
    decide
  have hloop := loopB_never_moves (demoEnv 0 plainMeta (some "0x80000000000000000".toList) noLogs)
    (.fin 1) demoAddress 24 (.fin (2 ^ 67)) (.fin 5000) (.fin 100000) (.fin (2 ^ 67))
    (fun _ _ _ => rfl) (by norm_num) hsub (by decide) fuel
    ⟨[], [], [.ethCall (.fin 1) demoAddress selTotalSupply] ++ [.blockNumber (.fin 1)]⟩ rfl
  have htok : tokensEndpoint (demoEnv 0 plainMeta (some "0x80000000000000000".toList) noLogs)
      fuel (.fin 1) demoAddress scanQuery [] = none := by
    unfold tokensEndpoint
    simp only [hcall, hdec, hstart, hlim, hstop]
    rw [loopA_empty _ _ _ _ _ _ _ _ (by decide)]
    have hscan : scanQuery.scan = some ['1'] := rfl
    simp only [hscan, List.length_nil, beq_self_eq_true, Bool.or_true, decide_True,
      Bool.and_self, if_true]
    unfold fallbackScan
    have hbn : (demoEnv 0 plainMeta (some "0x80000000000000000".toList) noLogs).blockNumber
        [.ethCall (.fin 1) demoAddress selTotalSupply] (.fin 1)
        = some "0x80000000000000000".toList := rfl
    simp only [hbn, hbig, hwin, hback, hlim, hlat, hsub]
    rw [hloop]
  unfold handleEvmApi
  simp only [hc, hchain, haddr, hvalid, hne, Bool.not_true, Bool.false_eq_true, if_false]
  exact htok

set_option maxRecDepth 100000 in
unseal Rat.add Rat.sub Rat.mul Rat.inv in
/-- At the height `0x100000` the default scan issues 19 `eth_getLogs`
requests, for the windows that start 5000 to 95000 blocks back, and answers
200. -/
theorem default_scan_issues_nineteen_requests :
    (tokensEndpoint (demoEnv 0 plainMeta (some "0x100000".toList) noLogs) 50 (.fin 1)
        demoAddress scanQuery []).map (fun r => (r.1.status, countGetLogs r.2))
      = some (200, 19) := by
  decide

/-- The number of items of a response of the tokens endpoint, against the
effective limit, for an integer start `s` with `s + 50 ≤ 2^53`. -/
theorem tokensEndpoint_items_bound (env : Env) (fuel : Nat) (c : JsNum) (a : Str) (q : Query)
    (tr : List Req) (resp : Response) (trace : List Req)
    (h : tokensEndpoint env fuel c a q tr = some (resp, trace))
    (s : Nat) (hstart : effStart q = .fin (s : ℚ)) (hs : s + 50 ≤ 2 ^ 53) :
    (effLimit q = .nan → resp.items = [])
      ∧ (∀ y, effLimit q = .fin y → (resp.items.length = 0 ∨ (resp.items.length : ℚ) < y + 1)) := by
  rcases tokensEndpoint_cases env fuel c a q tr resp trace h with
    ⟨hr, _⟩ | ⟨totalHex, tr₁, T, r, _, _, hloop, ⟨_, hr, _⟩ | ⟨_, hscan⟩⟩
  · rw [hr]
    exact ⟨fun _ => rfl, fun _ _ => Or.inl rfl⟩
  · have hitems : resp.items = r.items := by rw [hr]; rfl
    rw [hitems]
    rcases stop_range q (bigIntToNumber T) s hs hstart with hnone | ⟨e, N, he, hle, hN, hy⟩
    · rw [loopA_empty _ _ _ _ _ _ _ _ (hnone _)] at hloop
      cases hloop
      exact ⟨fun _ => rfl, fun _ _ => Or.inl rfl⟩
    · rw [he, hstart] at hloop
      have hlen := loopA_length env c a s N (by omega) e hle fuel [] tr₁ r
        (by simpa using hloop) (Nat.zero_le _)
      constructor
      · intro hn
        rw [hn, hstart] at he
        have : JsNum.min (bigIntToNumber T) ((JsNum.fin (s : ℚ)).add .nan) = .nan := by
          cases bigIntToNumber T <;> rfl
        rw [this] at he
        cases he
      · intro y' hy'
        right
        have h1 : (r.items.length : ℚ) ≤ (N : ℚ) := by exact_mod_cast hlen
        exact lt_of_le_of_lt h1 (hy y' hy')
  · rcases fallbackScan_cases env fuel c a q r.trace resp trace hscan with
      ⟨hr, _, _⟩ | ⟨latestHex, latest, st, _, _, hloop, hr, _⟩
    · rw [hr]
      exact ⟨fun _ => rfl, fun _ _ => Or.inl rfl⟩
    · obtain ⟨_, _, hbound, hnan⟩ := loopB_spec env c a _ _ _ _ fuel _ _ _ hloop
      have hitems : resp.items = st.items := by rw [hr]; rfl
      rw [hitems]
      exact ⟨fun hn => hnan hn, fun y hy => hbound y hy (Or.inl rfl)⟩

theorem infoEndpoint_items (env : Env) (c : JsNum) (a : Str) (tr : List Req) :
    (infoEndpoint env c a tr).1.items = [] := by
  unfold infoEndpoint
  simp only
  split
  · rfl
  · split
    · rfl
    · split
      · rfl
      · split <;> rfl

set_option maxRecDepth 100000 in
unseal Rat.add Rat.sub Rat.mul Rat.inv in
/-- C10, as stated, fails: with `limit=1.5` the effective limit is 1.5 and
the 200 response of Strategy A, on a collection of two tokens, holds two
items, which exceeds the effective limit. -/
theorem two_items_for_limit_one_and_a_half :
    effLimit fractionalLimitQuery = .fin (3 / 2)
      ∧ (handleEvmApi (demoEnv 2 plainMeta none noLogs) 50 "/api/evm/collection/tokens".toList
          fractionalLimitQuery).map (fun r => (r.1.status, r.1.items.length, r.1.fallback))
        = some (200, 2, none)
      ∧ (3 / 2 : ℚ) < (2 : Nat) := by
  decide

/-- C10, amended: for every request whose effective start is an integer `s`
with `s + 50 ≤ 2^53` (as it is when `start` is absent), the number of items of
a response of the tokens endpoint, from Strategy A or from Strategy B, is
less than the effective limit plus one, so it never exceeds the effective
limit rounded up to an integer (nor the effective limit itself when that is
an integer), and never exceeds 50; it is zero when the effective limit is
`NaN`. -/
theorem items_within_limit (env : Env) (fuel : Nat) (pathname : Str) (q : Query)
    (resp : Response) (trace : List Req)
    (h : handleEvmApi env fuel pathname q = some (resp, trace))
    (s : Nat) (hstart : effStart q = .fin (s : ℚ)) (hs : s + 50 ≤ 2 ^ 53) :
    resp.items.length ≤ 50
      ∧ (effLimit q = .nan → resp.items = [])
      ∧ (∀ y : ℚ, effLimit q = .fin y → (resp.items.length : ℚ) < y + 1)
      ∧ (∀ l : Nat, effLimit q = .fin (l : ℚ) → resp.items.length ≤ l) := by
  have key : (effLimit q = .nan → resp.items = [])
      ∧ (∀ y, effLimit q = .fin y →
          (resp.items.length = 0 ∨ (resp.items.length : ℚ) < y + 1)) := by
    unfold handleEvmApi at h
    simp only at h
    split at h
    · cases h; exact ⟨fun _ => rfl, fun _ _ => Or.inl rfl⟩
    · split at h
      · split at h
        · cases h; exact ⟨fun _ => rfl, fun _ _ => Or.inl rfl⟩
        · simp only [Option.some.injEq] at h
          have hitems : resp.items = [] := by
            have := infoEndpoint_items env (q.chainId.getD (.fin 1))
              (toLowerCase (q.address.getD [])) []
            rw [h] at this
            exact this
          rw [hitems]
          exact ⟨fun _ => rfl, fun _ _ => Or.inl rfl⟩
      · split at h
        · split at h
          · cases h; exact ⟨fun _ => rfl, fun _ _ => Or.inl rfl⟩
          · exact tokensEndpoint_items_bound env fuel _ _ q [] resp trace h s hstart hs
        · cases h; exact ⟨fun _ => rfl, fun _ _ => Or.inl rfl⟩
  have hlt : ∀ y : ℚ, effLimit q = .fin y → (resp.items.length : ℚ) < y + 1 := by
    intro y hy
    rcases key.2 y hy with h0 | h1
    · rcases effLimit_range q with hn | ⟨y', hy', h1', _⟩
      · rw [hn] at hy; cases hy
      · rw [hy] at hy'
        cases hy'
        rw [h0]
        simp only [Nat.cast_zero]
        linarith
    · exact h1
  refine ⟨?_, key.1, hlt, ?_⟩
  · rcases effLimit_range q with hn | ⟨y, hy, _, h50⟩
    · rw [key.1 hn]
      simp
    · have := hlt y hy
      have h51 : (resp.items.length : ℚ) < 51 := by linarith
      have : resp.items.length < 51 := by exact_mod_cast h51
      omega
  · intro l hl
    have := hlt l hl
    have : resp.items.length < l + 1 := by exact_mod_cast this
    omega

set_option maxRecDepth 100000 in
unseal Rat.add Rat.sub Rat.mul Rat.inv in
/-- Two tokens listed with `limit=1.5` from the start 0: the two items are
below the bounds. -/
theorem items_within_limit_witness :
    ∃ resp trace,
      handleEvmApi (demoEnv 2 plainMeta none noLogs) 50 "/api/evm/collection/tokens".toList
          fractionalLimitQuery = some (resp, trace)
        ∧ resp.items.length = 2
        ∧ (resp.items.length ≤ 50
          ∧ (effLimit fractionalLimitQuery = .nan → resp.items = [])
          ∧ (∀ y : ℚ, effLimit fractionalLimitQuery = .fin y → (resp.items.length : ℚ) < y + 1)
          ∧ (∀ l : Nat, effLimit fractionalLimitQuery = .fin (l : ℚ) → resp.items.length ≤ l)) := by
  have hfacts :
      (handleEvmApi (demoEnv 2 plainMeta none noLogs) 50 "/api/evm/collection/tokens".toList
          fractionalLimitQuery).map (fun r => r.1.items.length) = some 2 := by
    decide
  cases h : handleEvmApi (demoEnv 2 plainMeta none noLogs) 50
      "/api/evm/collection/tokens".toList fractionalLimitQuery with
  | none =>
    rw [h] at hfacts
    cases hfacts
  | some p =>
    obtain ⟨resp, trace⟩ := p
    rw [h] at hfacts
    simp only [Option.map_some', Option.some.injEq] at hfacts
    exact ⟨resp, trace, rfl, hfacts,
      items_within_limit _ 50 "/api/evm/collection/tokens".toList fractionalLimitQuery resp trace h
        0 (by decide) (by decide)⟩

/-! ## Parameters of the tokens endpoint -/

unseal Rat.add Rat.sub Rat.mul Rat.inv in
/-- C11, as stated, fails: `limit=1.5` gives the effective limit 1.5, which
is not an integer. -/
theorem effLimit_fractional :
    effLimit fractionalLimitQuery = .fin (3 / 2) ∧ ¬ ∃ n : Int, (3 / 2 : ℚ) = (n : ℚ) := by
  refine ⟨by decide, ?_⟩
  rintro ⟨n, hn⟩
  have h2 : (3 : ℚ) = 2 * (n : ℚ) := by linarith
  have h3 : (3 : Int) = 2 * n := by exact_mod_cast h2
  omega

/-- A limit or a start that is not numeric converts to `NaN`, and the
effective value is then `NaN`: the default 24 applies to an absent or empty
parameter only. -/
theorem effLimit_effStart_nan (q : Query) :
    (q.limit = some .nan → effLimit q = .nan) ∧ (q.start = some .nan → effStart q = .nan) := by
  constructor
  · intro h
    simp [effLimit, h, JsNum.max, JsNum.min]
  · intro h
    simp [effStart, h, JsNum.max]

/-- C11, amended: in the tokens endpoint an absent or empty limit gives the
effective limit 24, and a numeric limit `z` gives `min(50, max(1, z))`, a
number in `[1, 50]` that is an integer whenever `z` is one; an absent or empty
start gives 0 and a numeric start `z` gives `max(0, z) ≥ 0`. -/
theorem effLimit_effStart_spec (q : Query) (z : ℚ) (n : Int) :
    effLimit { q with limit := none } = .fin 24
      ∧ (effLimit { q with limit := some (.fin z) } = .fin (min 50 (max 1 z))
          ∧ 1 ≤ min 50 (max 1 z) ∧ min 50 (max 1 z) ≤ 50)
      ∧ (∃ l : Int, effLimit { q with limit := some (.fin (n : ℚ)) } = .fin (l : ℚ)
          ∧ 1 ≤ l ∧ l ≤ 50)
      ∧ effStart { q with start := none } = .fin 0
      ∧ (effStart { q with start := some (.fin z) } = .fin (max 0 z) ∧ 0 ≤ max 0 z) := by
  refine ⟨?_, ⟨?_, ?_, min_le_left _ _⟩, ?_, ?_, ?_, le_max_left _ _⟩
  · simp only [effLimit, Option.getD_none, JsNum.max, JsNum.min]
    norm_num
  · simp only [effLimit, Option.getD_some, JsNum.max, JsNum.min]
  · exact le_min (by norm_num) (le_max_left _ _)
  · refine ⟨min 50 (max 1 n), ?_, le_min (by norm_num) (le_max_left _ _), min_le_left _ _⟩
    simp only [effLimit, Option.getD_some, JsNum.max, JsNum.min]
    push_cast
    rfl
  · simp [effStart, JsNum.max]
  · simp only [effStart, Option.getD_some, JsNum.max]

/-! ## Metadata helpers -/

/-- C15, as stated, fails: for the path `ipfs/x` the text `ipfs://` followed
by the path is `ipfs://ipfs/x`, which takes the first branch and maps to
`https://ipfs.io/ipfs/x`, not to `https://ipfs.io/ipfs/` followed by the
path. -/
theorem ipfsToHttp_path_starting_with_ipfs :
    ipfsToHttp ("ipfs://".toList ++ "ipfs/x".toList) = "https://ipfs.io/ipfs/x".toList
      ∧ "https://ipfs.io/ipfs/x".toList ≠ "https://ipfs.io/ipfs/".toList ++ "ipfs/x".toList := by
  decide

/-- C15, amended: for every path `p`, `ipfsToHttp` maps `ipfs://ipfs/` + `p`
to `https://ipfs.io/ipfs/` + `p`, and maps `ipfs://` + `p` to the same URL
when `p` does not itself start with `ipfs/`; every non-empty string that does
not start with `ipfs://` is returned unchanged; the empty string is returned
empty. -/
theorem ipfsToHttp_spec (p : Str) :
    ipfsToHttp ("ipfs://ipfs/".toList ++ p) = "https://ipfs.io/ipfs/".toList ++ p
      ∧ (startsWith p "ipfs/".toList = false →
          ipfsToHttp ("ipfs://".toList ++ p) = "https://ipfs.io/ipfs/".toList ++ p)
      ∧ (p ≠ [] → startsWith p "ipfs://".toList = false → ipfsToHttp p = p)
      ∧ ipfsToHttp [] = [] := by
  refine ⟨?_, ?_, ?_, rfl⟩
  · simp [ipfsToHttp, startsWith, List.isPrefixOf]
  · intro h
    have h1 : startsWith ("ipfs://".toList ++ p) "ipfs://ipfs/".toList = false := by
      simpa [startsWith, List.isPrefixOf] using h
    have h2 : startsWith ("ipfs://".toList ++ p) "ipfs://".toList = true := by
      simp [startsWith, List.isPrefixOf]
    simp only [ipfsToHttp, h1, h2]
    simp
  · intro hne h
    have h1 : startsWith p "ipfs://ipfs/".toList = false := by
      cases hp : startsWith p "ipfs://ipfs/".toList with
      | false => rfl
      | true =>
        have : startsWith p "ipfs://".toList = true := by
          simp only [startsWith] at hp ⊢
          obtain ⟨t, rfl⟩ := List.isPrefixOf_iff_prefix.mp hp
          simp [List.isPrefixOf]
        rw [this] at h
        cases h
    have hne' : p.isEmpty = false := by
      cases p with
      | nil => exact absurd rfl hne
      | cons a t => rfl
    simp only [ipfsToHttp, hne', h1, h, Bool.false_eq_true, if_false]

/-- The path `bafy/1.json` and the URL `https://a/b`. -/
theorem ipfsToHttp_spec_witness :
    ipfsToHttp ("ipfs://ipfs/".toList ++ "bafy/1.json".toList)
        = "https://ipfs.io/ipfs/".toList ++ "bafy/1.json".toList
      ∧ ipfsToHttp ("ipfs://".toList ++ "bafy/1.json".toList)
        = "https://ipfs.io/ipfs/".toList ++ "bafy/1.json".toList
      ∧ ipfsToHttp "https://a/b".toList = "https://a/b".toList
      ∧ ipfsToHttp [] = [] :=
  ⟨(ipfsToHttp_spec "bafy/1.json".toList).1,
    (ipfsToHttp_spec "bafy/1.json".toList).2.1 (by decide),
    (ipfsToHttp_spec "https://a/b".toList).2.2.1 (by decide) (by decide),
    (ipfsToHttp_spec []).2.2.2⟩

/-! ## Failures of the tokens endpoint -/

/-- When the tokens endpoint answers 500: the `totalSupply` call failed, or
its result did not decode, or the fallback was entered and `eth_blockNumber`
failed or returned a text that `BigInt` rejects.  Every other response is
200. -/
theorem tokensEndpoint_status (env : Env) (fuel : Nat) (c : JsNum) (a : Str) (q : Query)
    (tr : List Req) (resp : Response) (trace : List Req)
    (h : tokensEndpoint env fuel c a q tr = some (resp, trace)) :
    resp.status = 200
      ∨ (resp.status = 500
          ∧ ((∃ e tr₁, ethCall env tr c a selTotalSupply = (.error e, tr₁))
            ∨ (∃ totalHex tr₁ e, ethCall env tr c a selTotalSupply = (.ok totalHex, tr₁)
                ∧ decodeUint256 totalHex = .error e)
            ∨ (∃ tr₂, trace = tr₂ ++ [.blockNumber c]
                ∧ (env.blockNumber tr₂ c = none
                  ∨ ∃ latestHex e, env.blockNumber tr₂ c = some latestHex
                      ∧ stringToBigInt latestHex = .error e)))) := by
  unfold tokensEndpoint at h
  generalize hcall : ethCall env tr c a selTotalSupply = p at h
  obtain ⟨res, tr₁⟩ := p
  cases res with
  | error e =>
    simp only [Option.some.injEq, Prod.mk.injEq] at h
    right
    exact ⟨by rw [← h.1]; rfl, Or.inl ⟨e, tr₁, rfl⟩⟩
  | ok totalHex =>
    simp only at h
    generalize hdec : decodeUint256 totalHex = dec at h
    cases dec with
    | error e =>
      simp only [Option.some.injEq, Prod.mk.injEq] at h
      right
      exact ⟨by rw [← h.1]; rfl, Or.inr (Or.inl ⟨totalHex, tr₁, e, rfl, hdec⟩)⟩
    | ok T =>
      simp only at h
      generalize loopA env c a (JsNum.min (bigIntToNumber T)
        ((effStart q).add (effLimit q))) fuel (effStart q) [] tr₁ = lr at h
      cases lr with
      | none => cases h
      | some r =>
        simp only at h
        split at h
        · rcases fallbackScan_cases env fuel c a q r.trace resp trace h with
            ⟨hr, htrace, hbn⟩ | ⟨_, _, st, _, _, _, hr, _⟩
          · right
            exact ⟨by rw [hr]; rfl, Or.inr (Or.inr ⟨r.trace, htrace, hbn⟩)⟩
          · left
            rw [hr]
        · simp only [Option.some.injEq, Prod.mk.injEq] at h
          left
          rw [← h.1]

set_option maxRecDepth 100000 in
unseal Rat.add Rat.sub Rat.mul Rat.inv in
/-- C12: the `totalSupply` read succeeds and decodes to 1, the
`tokenByIndex(0)` call fails, so that the fallback is entered, and
`eth_blockNumber` fails: the response is 500, not 200 with the empty list. -/
theorem blockNumber_failure_gives_500 :
    ethCall (totalOnlyEnv 1 none noLogs) [] (.fin 1) demoAddress selTotalSupply
        = (.ok ('0' :: 'x' :: pad32Hex 1), [.ethCall (.fin 1) demoAddress selTotalSupply])
      ∧ decodeUint256 ('0' :: 'x' :: pad32Hex 1) = .ok 1
      ∧ (handleEvmApi (totalOnlyEnv 1 none noLogs) 50 "/api/evm/collection/tokens".toList
          demoQuery).map (fun r => (r.1.status, r.1.items.length, r.2))
        = some (500, 0,
            [.ethCall (.fin 1) demoAddress selTotalSupply,
             .ethCall (.fin 1) demoAddress (selTokenByIndex ++ pad32Hex 0),
             .blockNumber (.fin 1)]) := by
  decide

/-! ## The info endpoint -/

/-- C13: in the info endpoint, when the `name`, `symbol` and `totalSupply`
calls succeed and their results decode, the response is 200 with the decoded
fields, and `enumerable` is true if and only if the `tokenByIndex(0)` probe
call succeeded; a failing probe leaves the response at 200. -/
theorem info_enumerable_iff_probe (env : Env) (c : JsNum) (a : Str) (tr tr₁ tr₂ tr₃ : List Req)
    (nameHex symbolHex totalHex name symbol : Str) (total : Int)
    (h₁ : ethCall env tr c a selName = (.ok nameHex, tr₁))
    (h₂ : ethCall env tr₁ c a selSymbol = (.ok symbolHex, tr₂))
    (h₃ : ethCall env tr₂ c a selTotalSupply = (.ok totalHex, tr₃))
    (d₁ : decodeString nameHex = .ok name) (d₂ : decodeString symbolHex = .ok symbol)
    (d₃ : decodeUint256 totalHex = .ok total) :
    ∃ enumerable trace,
      infoEndpoint env c a tr
          = (⟨200, .info a name symbol (bigIntToString total) enumerable⟩, trace)
        ∧ (enumerable = true
            ↔ ∃ r, (ethCall env tr₃ c a (selTokenByIndex ++ pad32Hex 0)).1 = .ok r) := by
  refine ⟨(ethCall env tr₃ c a (selTokenByIndex ++ pad32Hex 0)).1.isOk,
    (ethCall env tr₃ c a (selTokenByIndex ++ pad32Hex 0)).2, ?_, ?_⟩
  · unfold infoEndpoint
    simp only [h₁, h₂, h₃, d₁, d₂, d₃]
  · cases (ethCall env tr₃ c a (selTokenByIndex ++ pad32Hex 0)).1 with
    | error e => simp [Except.isOk, Except.toBool]
    | ok r => simp [Except.isOk, Except.toBool]

set_option maxRecDepth 100000 in
/-- The collection `Art` with a failing probe: 200 and `enumerable = false`. -/
theorem info_enumerable_iff_probe_witness :
    ∃ enumerable trace,
      infoEndpoint (infoEnv false) (.fin 1) demoAddress []
          = (⟨200, .info demoAddress "Art".toList "ART".toList (bigIntToString 3) enumerable⟩,
              trace)
        ∧ (enumerable = true
            ↔ ∃ r, (ethCall (infoEnv false)
                [.ethCall (.fin 1) demoAddress selName, .ethCall (.fin 1) demoAddress selSymbol,
                 .ethCall (.fin 1) demoAddress selTotalSupply]
                (.fin 1) demoAddress (selTokenByIndex ++ pad32Hex 0)).1 = .ok r) :=
  info_enumerable_iff_probe (infoEnv false) (.fin 1) demoAddress [] _ _ _ _ _ _
    "Art".toList "ART".toList 3 rfl rfl rfl (by decide) (by decide) (by decide)

/-! ## Validation of the chain and of the address -/

theorem supportedChain_iff (c : JsNum) :
    supportedChain c = true ↔ (c = .fin 1 ∨ c = .fin 8453 ∨ c = .fin 137) := by
  simp [supportedChain, or_assoc]

theorem char_eq_of_toNat_eq {c d : Char} (h : c.toNat = d.toNat) : c = d := by
  apply Char.ext
  apply UInt32.ext
  exact h

theorem toLower_cases (c : Char) :
    (65 ≤ c.toNat ∧ c.toNat ≤ 90 ∧ c.toLower.toNat = c.toNat + 32) ∨
      (¬ (65 ≤ c.toNat ∧ c.toNat ≤ 90) ∧ c.toLower = c) := by
  by_cases h : 65 ≤ c.toNat ∧ c.toNat ≤ 90
  · left
    refine ⟨h.1, h.2, ?_⟩
    have : c.toLower = Char.ofNat (c.toNat + 32) := by
      simp only [Char.toLower, ge_iff_le, h, and_self, if_true]
    rw [this]
    obtain ⟨h1, h2⟩ := h
    generalize c.toNat = n at h1 h2
    interval_cases n <;> rfl
  · right
    refine ⟨h, ?_⟩
    simp only [Char.toLower, ge_iff_le, h, if_false]

theorem toLower_eq_zero_iff (c : Char) : c.toLower = '0' ↔ c = '0' := by
  rcases toLower_cases c with ⟨h1, h2, h3⟩ | ⟨_, h⟩
  · constructor
    · intro h
      rw [h] at h3
      have : ('0' : Char).toNat = 48 := rfl
      omega
    · intro h
      rw [h] at h1
      have : ('0' : Char).toNat = 48 := rfl
      omega
  · rw [h]

theorem toLower_eq_x_iff (c : Char) : c.toLower = 'x' ↔ (c = 'x' ∨ c = 'X') := by
  have hx : ('x' : Char).toNat = 120 := rfl
  have hX : ('X' : Char).toNat = 88 := rfl
  rcases toLower_cases c with ⟨h1, h2, h3⟩ | ⟨hn, h⟩
  · constructor
    · intro h
      rw [h, hx] at h3
      right
      exact char_eq_of_toNat_eq (by rw [hX]; omega)
    · rintro (h | h)
      · rw [h, hx] at h2; omega
      · apply char_eq_of_toNat_eq
        rw [h3, h, hX, hx]
  · rw [h]
    constructor
    · intro h'; exact Or.inl h'
    · rintro (h' | h')
      · exact h'
      · rw [h', hX] at hn
        omega

theorem hexVal_toLower_isSome (c : Char) : (hexVal c.toLower).isSome = (hexVal c).isSome := by
  rcases toLower_cases c with ⟨h1, h2, h3⟩ | ⟨_, h⟩
  · unfold hexVal
    simp only [h3]
    by_cases h70 : c.toNat ≤ 70
    · have e1 : ¬ (48 ≤ c.toNat + 32 ∧ c.toNat + 32 ≤ 57) := by omega
      have e2 : (97 ≤ c.toNat + 32 ∧ c.toNat + 32 ≤ 102) := by omega
      have e3 : ¬ (48 ≤ c.toNat ∧ c.toNat ≤ 57) := by omega
      have e4 : ¬ (97 ≤ c.toNat ∧ c.toNat ≤ 102) := by omega
      have e5 : (65 ≤ c.toNat ∧ c.toNat ≤ 70) := by omega
      rw [if_neg e1, if_pos e2, if_neg e3, if_neg e4, if_pos e5]
      rfl
    · have e1 : ¬ (48 ≤ c.toNat + 32 ∧ c.toNat + 32 ≤ 57) := by omega
      have e2 : ¬ (97 ≤ c.toNat + 32 ∧ c.toNat + 32 ≤ 102) := by omega
      have e2' : ¬ (65 ≤ c.toNat + 32 ∧ c.toNat + 32 ≤ 70) := by omega
      have e3 : ¬ (48 ≤ c.toNat ∧ c.toNat ≤ 57) := by omega
      have e4 : ¬ (97 ≤ c.toNat ∧ c.toNat ≤ 102) := by omega
      have e5 : ¬ (65 ≤ c.toNat ∧ c.toNat ≤ 70) := by omega
      rw [if_neg e1, if_neg e2, if_neg e2', if_neg e3, if_neg e4, if_neg e5]
  · rw [h]

/-- The addresses that pass the check of the two endpoints: the prefix `0x`
or `0X`, then exactly 40 hex digits. -/
theorem isHexAddress_toLowerCase_iff (s : Str) :
    isHexAddress (toLowerCase s) = true
      ↔ ∃ x rest, s = '0' :: x :: rest ∧ (x = 'x' ∨ x = 'X') ∧ rest.length = 40
          ∧ ∀ c ∈ rest, (hexVal c).isSome = true := by
  have hall : ∀ rest : Str, (rest.map Char.toLower).all (fun c => (hexVal c).isSome)
      = rest.all (fun c => (hexVal c).isSome) := by
    intro rest
    induction rest with
    | nil => rfl
    | cons c cs ih => simp only [List.map_cons, List.all_cons, ih, hexVal_toLower_isSome]
  constructor
  · intro h
    match s, h with
    | [], h => simp [toLowerCase, isHexAddress] at h
    | [_], h => simp [toLowerCase, isHexAddress] at h
    | c₀ :: c₁ :: rest, h =>
      simp only [toLowerCase, List.map_cons] at h
      unfold isHexAddress at h
      split at h
      · rename_i r heq
        simp only [List.cons.injEq] at heq
        obtain ⟨h0, h1, hr⟩ := heq
        subst hr
        simp only [List.length_map, Bool.and_eq_true, decide_eq_true_eq, hall] at h
        refine ⟨c₁, rest, ?_, (toLower_eq_x_iff c₁).mp h1, h.1, ?_⟩
        · rw [(toLower_eq_zero_iff c₀).mp h0]
        · exact List.all_eq_true.mp h.2
      · cases h
  · rintro ⟨x, rest, rfl, hx, hlen, hhex⟩
    have h0 : ('0' : Char).toLower = '0' := rfl
    have h1 : x.toLower = 'x' := (toLower_eq_x_iff x).mpr hx
    simp only [toLowerCase, List.map_cons, h0, h1, isHexAddress, List.length_map, hlen, hall,
      decide_True, Bool.true_and]
    exact List.all_eq_true.mpr hhex

set_option maxRecDepth 100000 in
unseal Rat.add Rat.sub Rat.mul Rat.inv in
/-- C14, as stated, fails: the address `0X` followed by 40 hex digits is not
`0x` followed by 40 hex digits, yet both endpoints accept it, since the
address is lower-cased before it is checked, and issue RPC requests for it. -/
theorem upper_case_prefix_accepted :
    startsWith upperPrefixAddress ['0', 'x'] = false
      ∧ (handleEvmApi (demoEnv 0 plainMeta none noLogs) 50 "/api/evm/collection/tokens".toList
          upperPrefixQuery).map (fun r => (r.1.status, r.2))
        = some (200, [.ethCall (.fin 1) demoAddress selTotalSupply])
      ∧ (handleEvmApi (infoEnv true) 50 "/api/evm/collection/info".toList
          upperPrefixQuery).map (fun r => (r.1.status, r.2.length))
        = some (200, 4) := by
  decide

/-- C14, amended: for both the info and the tokens endpoint, every request
whose chainId is not one of 1, 8453, 137, or whose address (the empty text
when absent) is not `0x` or `0X` followed by exactly 40 hex digits, is
answered with status 400 and an error body, and no request is issued for
it. -/
theorem invalid_request_rejected (env : Env) (fuel : Nat) (pathname : Str) (q : Query)
    (hpath : pathname = "/api/evm/collection/info".toList
      ∨ pathname = "/api/evm/collection/tokens".toList)
    (hbad : (q.chainId.getD (.fin 1) ≠ .fin 1 ∧ q.chainId.getD (.fin 1) ≠ .fin 8453
        ∧ q.chainId.getD (.fin 1) ≠ .fin 137)
      ∨ ¬ ∃ x rest, q.address.getD [] = '0' :: x :: rest ∧ (x = 'x' ∨ x = 'X')
          ∧ rest.length = 40 ∧ ∀ c ∈ rest, (hexVal c).isSome = true) :
    ∃ message, handleEvmApi env fuel pathname q = some (⟨400, .error message⟩, []) := by
  unfold handleEvmApi
  simp only
  by_cases hc : supportedChain (q.chainId.getD (.fin 1)) = true
  · have haddr : isHexAddress (toLowerCase (q.address.getD [])) = false := by
      rcases hbad with ⟨h1, h2, h3⟩ | hbad
      · rcases (supportedChain_iff _).mp hc with h | h | h
        · exact absurd h h1
        · exact absurd h h2
        · exact absurd h h3
      · cases hx : isHexAddress (toLowerCase (q.address.getD [])) with
        | false => rfl
        | true => exact absurd ((isHexAddress_toLowerCase_iff _).mp hx) hbad
    rcases hpath with rfl | rfl
    · simp only [hc, haddr, Bool.not_true, Bool.false_eq_true, if_false, Bool.not_false, if_true]
      exact ⟨_, rfl⟩
    · have hne : ¬ ("/api/evm/collection/tokens".toList = "/api/evm/collection/info".toList) := by
        decide
      simp only [hc, haddr, hne, Bool.not_true, Bool.false_eq_true, if_false, Bool.not_false,
        if_true]
      exact ⟨_, rfl⟩
  · have hc' : supportedChain (q.chainId.getD (.fin 1)) = false := by
      cases hx : supportedChain (q.chainId.getD (.fin 1)) with
      | false => rfl
      | true => exact absurd hx hc
    simp only [hc', Bool.not_false, if_true]
    exact ⟨_, rfl⟩

/-- The address `not-an-address` on the tokens endpoint. -/
theorem invalid_request_rejected_witness :
    ∃ message, handleEvmApi (demoEnv 0 plainMeta none noLogs) 50
        "/api/evm/collection/tokens".toList
        ⟨none, some "not-an-address".toList, none, none, none, none, none⟩
      = some (⟨400, .error message⟩, []) :=
  invalid_request_rejected (demoEnv 0 plainMeta none noLogs) 50
    "/api/evm/collection/tokens".toList
    ⟨none, some "not-an-address".toList, none, none, none, none, none⟩ (Or.inr rfl)
    (Or.inr (by
      rintro ⟨x, rest, h, -⟩
      simp at h))

/-! ## The records of the two strategies -/

/-- The two image expressions agree unless `image_url_png` is the first
truthy field: when it is absent or falsy the third operand changes nothing. -/
theorem firstTruthy_without_png (a b c : Option Json) (dflt : Json)
    (hc : c = none ∨ ∃ v, c = some v ∧ v.truthy = false) :
    firstTruthy [a, b, c] dflt = firstTruthy [a, b] dflt := by
  have hlast : firstTruthy [c] dflt = dflt := by
    rcases hc with rfl | ⟨v, rfl, hv⟩
    · rfl
    · simp [firstTruthy, hv]
  cases a with
  | none =>
    cases b with
    | none => simpa [firstTruthy] using hlast
    | some y =>
      by_cases hy : y.truthy = true
      · simp [firstTruthy, hy]
      · simp only [firstTruthy, hy, Bool.false_eq_true, if_false]
        exact hlast
  | some x =>
    by_cases hx : x.truthy = true
    · simp [firstTruthy, hx]
    · cases b with
      | none =>
        simp only [firstTruthy, hx, Bool.false_eq_true, if_false]
        exact hlast
      | some y =>
        by_cases hy : y.truthy = true
        · simp [firstTruthy, hx, hy]
        · simp only [firstTruthy, hx, hy, Bool.false_eq_true, if_false]
          exact hlast

/-- The two record builders issue the same requests and fail together up to
the image expression; when both build a record, the records agree on every
field but the image. -/
theorem recordA_recordB_fields (env : Env) (tr : List Req) (c : JsNum) (a : Str) (t : Int)
    (x y : Item) (hx : (recordA env tr c a t).1 = .ok x)
    (hy : (recordB env tr c a t (bigIntToString t)).1 = .ok y) :
    x.kind = y.kind ∧ x.id = y.id ∧ x.name = y.name ∧ x.chain = y.chain
      ∧ x.verified = y.verified ∧ x.priceEth = y.priceEth ∧ x.collection = y.collection
      ∧ x.attributes = y.attributes
      ∧ (recordA env tr c a t).2 = (recordB env tr c a t (bigIntToString t)).2 := by
  unfold recordA at hx ⊢
  unfold recordB at hy ⊢
  cases henc : encodeUint256Hex (.big t) with
  | error e => rw [henc] at hx; cases hx
  | ok arg =>
    rw [henc] at hx hy
    simp only at hx hy ⊢
    generalize ethCall env tr c a (selTokenURI ++ arg) = p at hx hy ⊢
    obtain ⟨res, tr₁⟩ := p
    cases res with
    | error e => cases hx
    | ok uriHex =>
      simp only at hx hy ⊢
      cases hdec : decodeString uriHex with
      | error e => rw [hdec] at hx; cases hx
      | ok tokenUri =>
        rw [hdec] at hx hy
        simp only at hx hy ⊢
        generalize fetchTokenMetadata env tr₁ tokenUri = m at hx hy ⊢
        obtain ⟨meta, tr₂⟩ := m
        simp only at hx hy ⊢
        generalize ipfsToHttpValue (firstTruthy [getProp meta "image".toList,
          getProp meta "image_url".toList, getProp meta "image_url_png".toList] (.str [])) = ia
          at hx ⊢
        generalize ipfsToHttpValue (firstTruthy [getProp meta "image".toList,
          getProp meta "image_url".toList] (.str [])) = ib at hy ⊢
        cases ia with
        | error e => cases hx
        | ok imageA =>
          cases ib with
          | error e => cases hy
          | ok imageB =>
            simp only [Except.ok.injEq] at hx hy
            subst hx
            subst hy
            exact ⟨rfl, rfl, rfl, rfl, rfl, rfl, rfl, rfl, rfl⟩

set_option maxRecDepth 100000 in
/-- C16 fails on metadata whose only image field is `image_url_png`: for the
token 7 of a collection serving `\x7b"image_url_png": "https://x/y.png"\x7d`,
Strategy A builds a record whose image is that URL, and Strategy B builds a
record whose image is the empty text. -/
theorem image_url_png_only_in_strategyA :
    ∃ x y trA trB,
      recordA (demoEnv 1 pngOnlyMeta none noLogs) [] (.fin 1) demoAddress 7 = (.ok x, trA)
        ∧ recordB (demoEnv 1 pngOnlyMeta none noLogs) [] (.fin 1) demoAddress 7
            (bigIntToString 7) = (.ok y, trB)
        ∧ x.image = .str "https://x/y.png".toList
        ∧ y.image = .str []
        ∧ x.image ≠ y.image := by
  refine ⟨_, _, _, _, rfl, rfl, rfl, rfl, ?_⟩
  intro h
  injection h with h
  revert h
  decide

/-! ## The scan with the window 0 -/

set_option maxRecDepth 100000 in
unseal Rat.add Rat.sub Rat.mul Rat.inv in
/-- C17 fails for `window=0`: on the request `scan=1&window=0` for an empty
collection at block height 16 whose logs cannot be read, the fallback loop is
still running after any number of rounds, so that no response is ever sent. -/
theorem zero_window_scan_never_ends (fuel : Nat) :
    effWindow zeroWindowQuery = .fin 0
      ∧ handleEvmApi (demoEnv 0 plainMeta (some "0x10".toList) noLogs) fuel
          "/api/evm/collection/tokens".toList zeroWindowQuery = none := by
  refine ⟨by decide, ?_⟩
  have hcall : ethCall (demoEnv 0 plainMeta (some "0x10".toList) noLogs) [] (.fin 1) demoAddress
      selTotalSupply
      = (.ok ('0' :: 'x' :: pad32Hex 0), [.ethCall (.fin 1) demoAddress selTotalSupply]) := by
    decide
  have hdec : decodeUint256 ('0' :: 'x' :: pad32Hex 0) = .ok 0 := by decide
  have hstop : JsNum.min (bigIntToNumber 0) ((JsNum.fin 0).add (.fin 24)) = .fin 0 := by decide
  have hstart : effStart zeroWindowQuery = .fin 0 := by decide
  have hlim : effLimit zeroWindowQuery = .fin 24 := by decide
  have hwin : effWindow zeroWindowQuery = .fin 0 := by decide
  have hback : effMaxBack zeroWindowQuery = .fin 100000 := by decide
  have hbig : stringToBigInt "0x10".toList = .ok 16 := by decide
  have haddr : toLowerCase (zeroWindowQuery.address.getD []) = demoAddress := by decide
  have hvalid : isHexAddress demoAddress = true := by decide
  have hchain : supportedChain (zeroWindowQuery.chainId.getD (.fin 1)) = true := by decide
  have hc : zeroWindowQuery.chainId.getD (.fin 1) = .fin 1 := rfl
  have hlat : bigIntToNumber 16 = .fin 16 := by decide
  have hsub : (JsNum.fin 16).sub (.fin 0) = .fin 16 := by decide
  have hloop := loopB_never_moves (demoEnv 0 plainMeta (some "0x10".toList) noLogs) (.fin 1)
    demoAddress 24 (.fin 16) (.fin 0) (.fin 100000) (.fin 16) (fun _ _ _ => rfl) (by norm_num)
    hsub (by decide) fuel
    ⟨[], [], [.ethCall (.fin 1) demoAddress selTotalSupply] ++ [.blockNumber (.fin 1)]⟩ rfl
  have hne : ¬ ("/api/evm/collection/tokens".toList = "/api/evm/collection/info".toList) := by
    decide
  have htok : tokensEndpoint (demoEnv 0 plainMeta (some "0x10".toList) noLogs) fuel (.fin 1)
      demoAddress zeroWindowQuery [] = none := by
    unfold tokensEndpoint
    simp only [hcall, hdec, hstart, hlim, hstop]
    rw [loopA_empty _ _ _ _ _ _ _ _ (by decide)]
    have hscan : zeroWindowQuery.scan = some ['1'] := rfl
    simp only [hscan, List.length_nil, beq_self_eq_true, Bool.or_true, decide_True,
      Bool.and_self, if_true]
    unfold fallbackScan
    have hbn : (demoEnv 0 plainMeta (some "0x10".toList) noLogs).blockNumber
        [.ethCall (.fin 1) demoAddress selTotalSupply] (.fin 1) = some "0x10".toList := rfl
    simp only [hbn, hbig, hwin, hback, hlim, hlat, hsub]
    rw [hloop]
  unfold handleEvmApi
  simp only [hc, hchain, haddr, hvalid, hne, Bool.not_true, Bool.false_eq_true, if_false]
  exact htok

/-! ## Paths: `path.normalize` and `path.join` -/

theorem splitSlash_ne_nil (s : Str) : splitSlash s ≠ [] := by
  cases s with
  | nil => simp [splitSlash]
  | cons c cs =>
    simp only [splitSlash]
    split <;> split <;> simp

theorem splitSlash_cons_slash (s : Str) : splitSlash ('/' :: s) = [] :: splitSlash s := by
  cases h : splitSlash s with
  | nil => exact absurd h (splitSlash_ne_nil s)
  | cons seg rest => simp [splitSlash, h]

theorem splitSlash_cons_other (c : Char) (s seg : Str) (rest : List Str) (hc : c ≠ '/')
    (h : splitSlash s = seg :: rest) : splitSlash (c :: s) = (c :: seg) :: rest := by
  simp [splitSlash, h, hc]

theorem splitSlash_no_slash (s : Str) : ∀ seg ∈ splitSlash s, '/' ∉ seg := by
  induction s with
  | nil => simp [splitSlash]
  | cons c cs ih =>
    cases h : splitSlash cs with
    | nil => exact absurd h (splitSlash_ne_nil cs)
    | cons seg rest =>
      rw [h] at ih
      by_cases hc : c = '/'
      · subst hc
        rw [splitSlash_cons_slash, h]
        intro x hx
        rcases List.mem_cons.mp hx with rfl | hx
        · simp
        · exact ih x hx
      · rw [splitSlash_cons_other c cs seg rest hc h]
        intro x hx
        rcases List.mem_cons.mp hx with rfl | hx
        · intro hmem
          rcases List.mem_cons.mp hmem with h1 | h1
          · exact hc h1.symm
          · exact ih seg (List.mem_cons_self _ _) h1
        · exact ih x (List.mem_cons_of_mem _ hx)

theorem splitSlash_segment (seg s : Str) (h : '/' ∉ seg) :
    splitSlash (seg ++ '/' :: s) = seg :: splitSlash s := by
  induction seg with
  | nil => exact splitSlash_cons_slash s
  | cons c cs ih =>
    have hc : c ≠ '/' := fun e => h (by simp [e])
    have hcs : '/' ∉ cs := fun e => h (List.mem_cons_of_mem _ e)
    exact splitSlash_cons_other c (cs ++ '/' :: s) cs (splitSlash s) hc (ih hcs)

theorem splitSlash_single (seg : Str) (h : '/' ∉ seg) : splitSlash seg = [seg] := by
  induction seg with
  | nil => rfl
  | cons c cs ih =>
    have hc : c ≠ '/' := fun e => h (by simp [e])
    have hcs : '/' ∉ cs := fun e => h (List.mem_cons_of_mem _ e)
    exact splitSlash_cons_other c cs cs [] hc (ih hcs)

theorem joinSlash_cons (seg : Str) (rest : List Str) (h : rest ≠ []) :
    joinSlash (seg :: rest) = seg ++ '/' :: joinSlash rest := by
  cases rest with
  | nil => exact absurd rfl h
  | cons r rs => rfl

theorem joinSlash_append (xs ys : List Str) (hx : xs ≠ []) (hy : ys ≠ []) :
    joinSlash (xs ++ ys) = joinSlash xs ++ '/' :: joinSlash ys := by
  induction xs with
  | nil => exact absurd rfl hx
  | cons x rest ih =>
    cases rest with
    | nil => exact joinSlash_cons x ys hy
    | cons r rs =>
      have h1 : (x :: r :: rs) ++ ys = x :: ((r :: rs) ++ ys) := rfl
      rw [h1, joinSlash_cons x _ (by simp), ih (by simp), joinSlash_cons x (r :: rs) (by simp)]
      simp

theorem splitSlash_joinSlash_append (segs : List Str) (s : Str) (hne : segs ≠ [])
    (h : ∀ seg ∈ segs, '/' ∉ seg) :
    splitSlash (joinSlash segs ++ '/' :: s) = segs ++ splitSlash s := by
  induction segs with
  | nil => exact absurd rfl hne
  | cons x rest ih =>
    cases rest with
    | nil => exact splitSlash_segment x s (h x (List.mem_cons_self _ _))
    | cons r rs =>
      rw [joinSlash_cons x (r :: rs) (by simp)]
      have h1 : (x ++ '/' :: joinSlash (r :: rs)) ++ '/' :: s
          = x ++ '/' :: (joinSlash (r :: rs) ++ '/' :: s) := by simp
      rw [h1, splitSlash_segment x _ (h x (List.mem_cons_self _ _)),
        ih (by simp) (fun seg hs => h seg (List.mem_cons_of_mem _ hs))]
      rfl

theorem splitSlash_joinSlash (segs : List Str) (hne : segs ≠ [])
    (h : ∀ seg ∈ segs, '/' ∉ seg) : splitSlash (joinSlash segs) = segs := by
  induction segs with
  | nil => exact absurd rfl hne
  | cons x rest ih =>
    cases rest with
    | nil => exact splitSlash_single x (h x (List.mem_cons_self _ _))
    | cons r rs =>
      rw [joinSlash_cons x (r :: rs) (by simp),
        splitSlash_segment x _ (h x (List.mem_cons_self _ _)),
        ih (by simp) (fun seg hs => h seg (List.mem_cons_of_mem _ hs))]

theorem normalizeSegments_nil_segment (flag : Bool) (rest acc : List Str) :
    normalizeSegments flag ([] :: rest) acc = normalizeSegments flag rest acc := by
  simp [normalizeSegments]

theorem normalizeSegments_plain_segment (flag : Bool) (seg : Str) (rest acc : List Str)
    (h : PlainSegment seg) :
    normalizeSegments flag (seg :: rest) acc = normalizeSegments flag rest (seg :: acc) := by
  obtain ⟨h1, h2, h3, _⟩ := h
  simp [normalizeSegments, h1, h2, h3]

theorem normalizeSegments_plain (flag : Bool) (segs : List Str) :
    ∀ (rest acc : List Str), (∀ seg ∈ segs, PlainSegment seg) →
      normalizeSegments flag (segs ++ rest) acc
        = normalizeSegments flag rest (segs.reverse ++ acc) := by
  induction segs with
  | nil => intro rest acc _; rfl
  | cons x xs ih =>
    intro rest acc h
    have h1 : (x :: xs) ++ rest = x :: (xs ++ rest) := rfl
    rw [h1, normalizeSegments_plain_segment flag x _ acc (h x (List.mem_cons_self _ _)),
      ih rest (x :: acc) (fun seg hs => h seg (List.mem_cons_of_mem _ hs))]
    simp

/-- Below the root (`allowAboveRoot` false) every segment that is kept is a
plain one: no `..` survives. -/
theorem normalizeSegments_false_plain (input : List Str) :
    ∀ acc : List Str, (∀ seg ∈ input, '/' ∉ seg) → (∀ seg ∈ acc, PlainSegment seg) →
      ∀ seg ∈ normalizeSegments false input acc, PlainSegment seg := by
  induction input with
  | nil => intro acc _ hacc; simpa [normalizeSegments] using hacc
  | cons x xs ih =>
    intro acc hin hacc
    have hxs : ∀ seg ∈ xs, '/' ∉ seg := fun seg hs => hin seg (List.mem_cons_of_mem _ hs)
    unfold normalizeSegments
    split
    · exact ih acc hxs hacc
    · rename_i hspecial
      split
      · cases acc with
        | nil => simpa using ih [] hxs (by simp)
        | cons top below =>
          simp only
          split
          · exact ih below hxs (fun seg hs => hacc seg (List.mem_cons_of_mem _ hs))
          · simpa using ih (top :: below) hxs hacc
      · rename_i hdots
        apply ih (x :: acc) hxs
        intro seg hs
        rcases List.mem_cons.mp hs with rfl | hs
        · exact ⟨fun e => hspecial (Or.inl e), fun e => hspecial (Or.inr e), hdots,
            hin seg (List.mem_cons_self _ _)⟩
        · exact hacc seg hs

theorem joinSlash_plain_ne_nil (segs : List Str) (hne : segs ≠ [])
    (h : ∀ seg ∈ segs, PlainSegment seg) :
    ∃ c rest, joinSlash segs = c :: rest ∧ c ≠ '/' := by
  cases segs with
  | nil => exact absurd rfl hne
  | cons x xs =>
    obtain ⟨h1, _, _, h4⟩ := h x (List.mem_cons_self _ _)
    cases x with
    | nil => exact absurd rfl h1
    | cons c cs =>
      have hc : c ≠ '/' := fun e => h4 (by simp [e])
      cases xs with
      | nil => exact ⟨c, cs, rfl, hc⟩
      | cons y ys => exact ⟨c, _, rfl, hc⟩

theorem joinSlash_plain_getLast (segs : List Str) (hne : segs ≠ [])
    (h : ∀ seg ∈ segs, PlainSegment seg) (pre : Str) :
    (pre ++ joinSlash segs).getLast? ≠ some '/' := by
  induction segs generalizing pre with
  | nil => exact absurd rfl hne
  | cons x xs ih =>
    obtain ⟨h1, _, _, h4⟩ := h x (List.mem_cons_self _ _)
    cases xs with
    | nil =>
      simp only [joinSlash]
      rw [List.getLast?_append_of_ne_nil _ h1, List.getLast?_eq_getLast _ h1]
      intro e
      simp only [Option.some.injEq] at e
      exact h4 (e ▸ List.getLast_mem h1)
    | cons y ys =>
      rw [joinSlash_cons x (y :: ys) (by simp)]
      have := ih (by simp) (fun seg hs => h seg (List.mem_cons_of_mem _ hs)) (pre ++ x ++ ['/'])
      simpa using this

/-- The result of `path.normalize` on an absolute path, from the segments
that are kept. -/
theorem pathNormalize_absolute (p : Str) (hhead : p.head? = some '/') :
    pathNormalize p
      = if normalizeString p false = [] then ['/']
        else '/' :: (normalizeString p false
          ++ if p.getLast? = some '/' then ['/'] else []) := by
  have hp : p ≠ [] := by
    intro e
    rw [e] at hhead
    cases hhead
  unfold pathNormalize
  simp only [hp, if_false, hhead, decide_True, Bool.not_true, if_true]
  split
  · rfl
  · split <;> simp

theorem getLast?_trailing (s : Str) : ('/' :: s ++ ['/']).getLast? = some '/' := by
  have h : '/' :: s ++ ['/'] = ('/' :: s) ++ ['/'] := rfl
  rw [h, List.getLast?_append_of_ne_nil _ (by simp)]
  rfl

/-- An absolute path made of plain segments, with or without a trailing
separator, is its own normal form. -/
theorem pathNormalize_plain (segs : List Str) (hne : segs ≠ [])
    (h : ∀ seg ∈ segs, PlainSegment seg) (trailing : Bool) :
    pathNormalize ('/' :: joinSlash segs ++ (if trailing then ['/'] else []))
      = '/' :: joinSlash segs ++ (if trailing then ['/'] else []) := by
  have hslash : ∀ seg ∈ segs, '/' ∉ seg := fun seg hs => (h seg hs).2.2.2
  obtain ⟨c, rest, hj, _⟩ := joinSlash_plain_ne_nil segs hne h
  have hjne : joinSlash segs ≠ [] := by rw [hj]; simp
  rw [pathNormalize_absolute ('/' :: joinSlash segs ++ (if trailing then ['/'] else [])) rfl]
  cases trailing with
  | false =>
    simp only [Bool.false_eq_true, if_false, List.append_nil]
    have hbody : normalizeString ('/' :: joinSlash segs) false = joinSlash segs := by
      unfold normalizeString
      rw [splitSlash_cons_slash, splitSlash_joinSlash segs hne hslash,
        normalizeSegments_nil_segment]
      have := normalizeSegments_plain false segs [] [] h
      simp only [List.append_nil] at this
      rw [this]
      simp [normalizeSegments]
    have hlast : ('/' :: joinSlash segs).getLast? ≠ some '/' :=
      joinSlash_plain_getLast segs hne h ['/']
    rw [hbody, if_neg hjne, if_neg hlast, List.append_nil]
  | true =>
    simp only [if_true]
    have hbody : normalizeString ('/' :: joinSlash segs ++ ['/']) false = joinSlash segs := by
      unfold normalizeString
      have h1 : '/' :: joinSlash segs ++ ['/'] = '/' :: (joinSlash segs ++ '/' :: []) := rfl
      rw [h1, splitSlash_cons_slash, splitSlash_joinSlash_append segs [] hne hslash,
        normalizeSegments_nil_segment, normalizeSegments_plain false segs (splitSlash []) [] h]
      simp [normalizeSegments, splitSlash]
    rw [hbody, if_neg hjne, if_pos (getLast?_trailing _)]
    rfl

/-- C18, amended: for an absolute base directory in normal form other than
the root, and a request path whose decoded form starts with `/`, as the
pathname of a request URL does, `safeJoin` returns a path that is the base or
lies below it: every `..` of the request is resolved against the root before
the join. -/
theorem safeJoin_absolute_inside_base (bsegs : List Str) (hne : bsegs ≠ [])
    (hb : ∀ seg ∈ bsegs, PlainSegment seg) (requestPath decoded : Str)
    (hdec : decodeURIComponent requestPath = .ok decoded) (habs : decoded.head? = some '/') :
    ∃ p, safeJoin ('/' :: joinSlash bsegs) requestPath = .ok (some p)
      ∧ InsideBase ('/' :: joinSlash bsegs) p := by
  have hplain : ∀ seg ∈ (normalizeSegments false (splitSlash decoded) []).reverse,
      PlainSegment seg := by
    intro seg hs
    exact normalizeSegments_false_plain (splitSlash decoded) [] (splitSlash_no_slash decoded)
      (by simp) seg (List.mem_reverse.mp hs)
  have hnorm := pathNormalize_absolute decoded habs
  have hbase : pathNormalize ('/' :: joinSlash bsegs) = '/' :: joinSlash bsegs := by
    have := pathNormalize_plain bsegs hne hb false
    simpa using this
  unfold normalizeString at hnorm
  generalize (normalizeSegments false (splitSlash decoded) []).reverse = segs at hplain hnorm
  unfold safeJoin
  rw [hdec]
  simp only
  by_cases hsegs : segs = []
  · subst hsegs
    have hn : pathNormalize decoded = ['/'] := by simpa [joinSlash] using hnorm
    have hstrip : stripLeadingSeparators ['/'] = [] := by decide
    have hjoin : pathJoin ('/' :: joinSlash bsegs) [] = '/' :: joinSlash bsegs := by
      simp [pathJoin, hbase]
    rw [hn, hstrip, hjoin]
    refine ⟨'/' :: joinSlash bsegs, ?_, Or.inl rfl⟩
    have hself : startsWith ('/' :: joinSlash bsegs) ('/' :: joinSlash bsegs) = true := by
      simp [startsWith]
    simp [hself]
  · obtain ⟨c, rest, hj, hc⟩ := joinSlash_plain_ne_nil segs hsegs hplain
    have hjne : joinSlash segs ≠ [] := by rw [hj]; simp
    rw [if_neg hjne] at hnorm
    generalize ht : (if decoded.getLast? = some '/' then ['/'] else ([] : Str)) = t at hnorm
    have ht' : t = if decide (decoded.getLast? = some '/') then ['/'] else [] := by
      rw [← ht]
      by_cases h : decoded.getLast? = some '/' <;> simp [h]
    have hstrip : stripLeadingSeparators ('/' :: (joinSlash segs ++ t)) = joinSlash segs ++ t := by
      rw [hj]
      have hc' : ¬ (c = '/') := hc
      simp [stripLeadingSeparators, List.dropWhile, hc']
    have hfinal : pathJoin ('/' :: joinSlash bsegs) (joinSlash segs ++ t)
        = '/' :: joinSlash bsegs ++ '/' :: (joinSlash segs ++ t) := by
      have h1 : ¬ (joinSlash segs ++ t = []) := by rw [hj]; simp
      have h2 : '/' :: joinSlash bsegs ++ '/' :: (joinSlash segs ++ t)
          = '/' :: joinSlash (bsegs ++ segs) ++ t := by
        rw [joinSlash_append bsegs segs hne hsegs]
        simp
      have h3 := pathNormalize_plain (bsegs ++ segs) (by simp [hne])
        (fun seg hs => (List.mem_append.mp hs).elim (hb seg) (hplain seg))
        (decide (decoded.getLast? = some '/'))
      rw [← ht'] at h3
      simp only [pathJoin, h1, and_false, if_false, List.cons_ne_nil]
      rw [h2, h3]
    rw [hnorm, hstrip, hfinal]
    refine ⟨'/' :: joinSlash bsegs ++ '/' :: (joinSlash segs ++ t), ?_, Or.inr ?_⟩
    · have hpre : startsWith ('/' :: joinSlash bsegs ++ '/' :: (joinSlash segs ++ t))
          ('/' :: joinSlash bsegs) = true := by
        simp only [startsWith]
        exact List.isPrefixOf_iff_prefix.mpr (List.prefix_append _ _)
      rw [hpre]
      rfl
    · simp only [startsWith]
      apply List.isPrefixOf_iff_prefix.mpr
      exact ⟨joinSlash segs ++ t, by simp⟩

/-- The request path `/../public-secret/x` stays below `/srv/public`. -/
theorem safeJoin_absolute_inside_base_witness :
    ∃ p, safeJoin "/srv/public".toList "/../public-secret/x".toList = .ok (some p)
      ∧ InsideBase "/srv/public".toList p :=
  safeJoin_absolute_inside_base ["srv".toList, "public".toList] (by simp)
    (by
      intro seg hs
      simp only [List.mem_cons, List.mem_singleton, List.not_mem_nil, or_false] at hs
      rcases hs with rfl | rfl <;> exact ⟨by decide, by decide, by decide, by decide⟩)
    "/../public-secret/x".toList "/../public-secret/x".toList (by decide) rfl


/-! ## The guard of `safeJoin` -/

/-- C18, as stated, fails: for the base `/srv/public` and the request path
`../public-secret/x`, plain or with its separators escaped, `safeJoin` returns
`/srv/public-secret/x`, a file of a sibling directory whose name begins with
the name of the base. -/
theorem safeJoin_returns_sibling_path :
    safeJoin "/srv/public".toList "../public-secret/x".toList
        = .ok (some "/srv/public-secret/x".toList)
      ∧ safeJoin "/srv/public".toList "..%2Fpublic-secret%2Fx".toList
        = .ok (some "/srv/public-secret/x".toList)
      ∧ ¬ InsideBase "/srv/public".toList "/srv/public-secret/x".toList := by
  refine ⟨by decide, by decide, ?_⟩
  unfold InsideBase
  decide

end BUA
